import Mathlib

/-! The id tree, the chunk store and the path resolver of lua-util.

A shallow embedding of `lua-util/lua_util_chunk.h` and `lua-util/lua_util_chunk.cpp`.

Conventions of the embedding:

* `size_t` / `uint64_t` values are naturals below `2 ^ 64`; bit operations on them are the
  `Nat` bit operations, with the 64-bit complement written out.
* `int32_t` values are integers; a conversion from `size_t` wraps modulo `2 ^ 32`
  (`toInt32`), and a signed addition or subtraction whose mathematical result leaves the
  `int32_t` range is undefined behaviour (`Err.undefined`).
* A C++ exception, an undefined operation (out-of-range indexing, an over-wide shift) and an
  exhausted recursion budget are the `Except.error` results of the embedding.
* `std::vector` is `List`; a `std::string_view` is a `List Char`.
-/

namespace lua_util

/-- The ways an operation can fail to return: the exceptions thrown by the source, undefined
behaviour, and exhaustion of the recursion budget of the embedding. -/
inductive Err where
  /-- Thrown by `id_tree(size_t, size_t)`: "id must not be negative". -/
  | id_negative
  /-- Thrown by `get_child`: "Invalid index". -/
  | invalid_index
  /-- Thrown by `add_part`: "empty path". -/
  | empty_path
  /-- Thrown by `add_part`: "invalid path: current dir or parent dir". -/
  | dir_marker
  /-- Thrown by `add_part`: "invalid path: contains separator". -/
  | contains_separator
  /-- Thrown by `to_ids`: "invalid path: parent dir at root". -/
  | parent_at_root
  /-- Thrown by `to_ids`: "invalid path: path part not found". -/
  | part_not_found
  /-- Raised by `require` through `luaL_error`: "module not found: %s, tree_node not found". -/
  | tree_node_not_found
  /-- Raised by `require` through `luaL_error`: "module not found: %s, chunk empty". -/
  | chunk_empty
  /-- Raised by `require` through `luaL_error`: "module not found: %s, load buffer error: %s". -/
  | load_buffer_error
  /-- The exception `std::length_error` of `std::vector`: more elements than `max_size()`. -/
  | length_error
  /-- The exception `std::bad_alloc` of an allocation that the allocator cannot serve. -/
  | bad_alloc
  /-- The C++ execution has undefined behaviour at this point. -/
  | undefined
  /-- The recursion budget of the embedding ran out. -/
  | out_of_fuel
deriving DecidableEq

instance {ε α : Type} [DecidableEq ε] [DecidableEq α] : DecidableEq (Except ε α)
  | .ok a, .ok b => if h : a = b then isTrue (by rw [h]) else isFalse (by intro e; cases e; exact h rfl)
  | .error a, .error b =>
    if h : a = b then isTrue (by rw [h]) else isFalse (by intro e; cases e; exact h rfl)
  | .ok _, .error _ => isFalse (by intro e; cases e)
  | .error _, .ok _ => isFalse (by intro e; cases e)

/-! ## Machine integers -/

/-- The constant `SIGN_BIT = (size_t)1 << (sizeof(size_t)*8 - 1)`, for a 64-bit `size_t`. -/
def SIGN_BIT : Nat := 2 ^ 63

/-- The 64-bit complement `~SIGN_BIT`. -/
def NOT_SIGN_BIT : Nat := 2 ^ 64 - 1 - SIGN_BIT

/-- The constant `id_tree::NULL_DATA = SIZE_MAX`. -/
def NULL_DATA : Nat := 2 ^ 64 - 1

/-- The constant `id_tree::NULL_IDX = -1`. -/
def NULL_IDX : Int := -1

/-- Conversion of an integer value to `int32_t`: reduction modulo `2 ^ 32` into
`[-2 ^ 31, 2 ^ 31)`. -/
def toInt32 (x : Int) : Int := (x + 2 ^ 31) % 2 ^ 32 - 2 ^ 31

/-- Conversion of an integer value to `size_t`: reduction modulo `2 ^ 64`. -/
def toSizeT (x : Int) : Nat := (x % 2 ^ 64).toNat

/-- The result of a signed `int32_t` operation: defined only inside the `int32_t` range. -/
def int32 (x : Int) : Except Err Int :=
  if -2 ^ 31 ≤ x ∧ x < 2 ^ 31 then .ok x else .error .undefined

/-- A result that is a value or undefined behaviour, never an exception. -/
def ok_or_undefined {α : Type} (x : Except Err α) : Prop :=
  (∃ a, x = .ok a) ∨ x = .error .undefined

/-! ## The id tree -/

/-- A node of `id_tree`: `_id`, `_data` and the owned `_children`. -/
inductive id_tree where
  | mk (id : Nat) (data : Nat) (children : List id_tree)

namespace id_tree

/-- The accessor `id()`. -/
def id : id_tree → Nat
  | mk i _ _ => i

/-- The accessor `data()`. -/
def data : id_tree → Nat
  | mk _ d _ => d

/-- The member `_children`. -/
def children : id_tree → List id_tree
  | mk _ _ cs => cs

mutual
/-- Decidable equality of trees. -/
def decEq : (a b : id_tree) → Decidable (a = b)
  | mk i d cs, mk j e ds =>
    if h1 : i = j then
      if h2 : d = e then
        match decEqList cs ds with
        | isTrue h3 => isTrue (by rw [h1, h2, h3])
        | isFalse h3 => isFalse (by intro h; injection h with _ _ h4; exact h3 h4)
      else isFalse (by intro h; injection h with _ h4 _; exact h2 h4)
    else isFalse (by intro h; injection h with h4 _ _; exact h1 h4)
/-- Decidable equality of child lists. -/
def decEqList : (a b : List id_tree) → Decidable (a = b)
  | [], [] => isTrue rfl
  | [], _ :: _ => isFalse (by intro h; cases h)
  | _ :: _, [] => isFalse (by intro h; cases h)
  | a :: as, b :: bs =>
    match decEq a b with
    | isTrue h1 =>
      match decEqList as bs with
      | isTrue h2 => isTrue (by rw [h1, h2])
      | isFalse h2 => isFalse (by intro h; injection h with _ h4; exact h2 h4)
    | isFalse h1 => isFalse (by intro h; injection h with h4 _; exact h1 h4)
end

instance : DecidableEq id_tree := decEq

/-- The default constructor `id_tree()`: id 0, no data, no children. -/
def empty : id_tree := mk 0 NULL_DATA []

/-- The constructor `id_tree(size_t id, size_t data)`: throws when the top bit of `id` is
set. -/
def new (id data : Nat) : Except Err id_tree :=
  if id &&& SIGN_BIT ≠ 0 then .error .id_negative else .ok (mk id data [])

/-- The check `valid_idx(idx)`: `idx >= 0 && idx < _children.size()`. -/
def valid_idx (t : id_tree) (idx : Int) : Bool :=
  decide (0 ≤ idx) && decide (idx < (t.children.length : Int))

/-- The accessor `get_child(idx)`: throws `out_of_range` on an invalid index. -/
def get_child (t : id_tree) (idx : Int) : Except Err id_tree :=
  if t.valid_idx idx then
    match t.children[idx.toNat]? with
    | some c => .ok c
    | none => .error .undefined
  else .error .invalid_index

/-- The unchecked element access `_children[mid]`. -/
def child_at (children : List id_tree) (mid : Int) : Except Err id_tree :=
  if 0 ≤ mid then
    match children[mid.toNat]? with
    | some c => .ok c
    | none => .error .undefined
  else .error .undefined

/-- The `while (left <= right)` loop of `find(size_t id)`; the first argument bounds the
number of iterations. -/
def find_loop (children : List id_tree) (id : Nat) : Nat → Int → Int → Except Err Int
  | 0, _, _ => .error .out_of_fuel
  | fuel + 1, left, right =>
    if left ≤ right then do
      let sum ← int32 (left + right)
      let mid := sum.tdiv 2
      let child ← child_at children mid
      if child.id = id then pure mid
      else if child.id < id then do
        let left ← int32 (mid + 1)
        find_loop children id fuel left right
      else do
        let right ← int32 (mid - 1)
        find_loop children id fuel left right
    else pure NULL_IDX

/-- The initial value of `right` in the two binary searches: `_children.size() - 1`
computed in `size_t` and converted to `int32_t`. -/
def last_idx (children : List id_tree) : Int :=
  toInt32 (toSizeT ((children.length : Int) - 1))

/-- The member `find(size_t id)`: binary search for a child with the given id. -/
def find (t : id_tree) (id : Nat) : Except Err Int :=
  find_loop t.children id (t.children.length + 1) 0 (last_idx t.children)

/-- The loop of the template member `find(const T& ids)` over `ids.begin() + 1 ..`. -/
def find_path_loop : id_tree → List Nat → Int → Except Err Int
  | _, [], idx => pure idx
  | child, x :: rest, _ => do
    let idx ← child.find x
    if idx = NULL_IDX then pure NULL_IDX
    else if rest = [] then pure idx
    else do
      let c ← child.get_child idx
      find_path_loop c rest idx

/-- The template member `find(const T& ids)`: descent along a sequence of ids. -/
def find_path (t : id_tree) : List Nat → Except Err Int
  | [] => pure NULL_IDX
  | x :: rest => do
    let idx ← t.find x
    if idx = NULL_IDX then pure idx
    else do
      let child ← t.get_child idx
      find_path_loop child rest idx

/-- The insertion-point loop of `push(id_tree&&)`; the first argument bounds the number of
iterations. It returns the final value of `left`. -/
def push_loop (children : List id_tree) (id : Nat) : Nat → Int → Int → Except Err Int
  | 0, _, _ => .error .out_of_fuel
  | fuel + 1, left, right =>
    if left ≤ right then do
      let sum ← int32 (left + right)
      let mid := sum.tdiv 2
      let child ← child_at children mid
      if child.id < id then do
        let left ← int32 (mid + 1)
        push_loop children id fuel left right
      else do
        let right ← int32 (mid - 1)
        push_loop children id fuel left right
    else pure left

/-- The member `push(id_tree&& other)`: the node after the call and the returned index. -/
def push_node (t other : id_tree) : Except Err (id_tree × Int) := do
  let found ← t.find other.id
  let idx := toSizeT found
  if idx ≠ NULL_DATA then pure (t, toInt32 idx)
  else do
    let left ← push_loop t.children other.id (t.children.length + 1) 0 (last_idx t.children)
    if 0 ≤ left ∧ left ≤ (t.children.length : Int) then
      pure (mk t.id t.data (t.children.take left.toNat ++ other :: t.children.drop left.toNat),
        left)
    else .error .undefined

/-- The member `push(size_t id, size_t data)`. -/
def push (t : id_tree) (id data : Nat) : Except Err (id_tree × Int) := do
  let other ← new id data
  t.push_node other

/-- A `push(id, data)` call on the node reached from `t` through `get_child` along the
given child indices, as in `t.get_child(i).get_child(j).push(id, data)`. -/
def push_at (t : id_tree) : List Int → Nat → Nat → Except Err (id_tree × Int)
  | [], id, data => t.push id data
  | i :: path, id, data => do
    let c ← t.get_child i
    let r ← push_at c path id data
    pure (mk t.id t.data (t.children.set i.toNat r.1), r.2)

/-- One `push` call of a sequence: where to push (child indices from the root), the id and
the data. -/
structure push_call where
  path : List Int
  id : Nat
  data : Nat

/-- A sequence of `push` calls on a tree. The caller catches the exception of a call that
throws (`logic_error` for an id with the top bit set, `out_of_range` for a bad child index):
such a call leaves the tree as it was. Undefined behaviour is not recovered from. -/
def push_all (t : id_tree) : List push_call → Except Err id_tree
  | [] => pure t
  | c :: cs =>
    match t.push_at c.path c.id c.data with
    | .ok r => push_all r.1 cs
    | .error .id_negative => push_all t cs
    | .error .invalid_index => push_all t cs
    | .error e => .error e

mutual
/-- The words the static member `serialize(node, output)` appends to `output` when each
`get_child(i)` of its loop succeeds, as it does on a node with at most `2 ^ 31` children;
`serialize_to` below is the call with its `get_child` calls. -/
def serialize : id_tree → List Nat
  | mk i d cs =>
    (if d ≠ NULL_DATA then [i ||| SIGN_BIT, d] else [i]) ++ [cs.length] ++ serialize_children cs
/-- The loop of `serialize` over the children. -/
def serialize_children : List id_tree → List Nat
  | [] => []
  | c :: cs => serialize c ++ serialize_children cs
end

/-- A read `*ptr` of the word array. -/
def read_word (words : List Nat) (i : Nat) : Except Err Nat :=
  match words[i]? with
  | some w => .ok w
  | none => .error .undefined

/-- The comparison of the `std::sort` call in `deserialize`. -/
def id_le (a b : id_tree) : Prop := a.id ≤ b.id

instance : DecidableRel id_le := fun a b => inferInstanceAs (Decidable (a.id ≤ b.id))

/-- The `std::sort` call of `deserialize`, ascending by id. For children with pairwise
distinct ids the result of `std::sort` is determined: the ascending list. The order it
leaves among children of equal id is unspecified; the embedding keeps them in their order
of appearance. -/
def sort_children (cs : List id_tree) : List id_tree := cs.insertionSort id_le

/-- The loop "for i < child_count" of the `parse` lambda: `parse` is the recursive call, the
arguments are the number of iterations left, `total_consumed` and the children parsed so
far. The result is the child vector, or no vector when a child failed, with the consumed
count. The allocation `std::vector<id_tree*>(child_count)` before the loop is taken to
succeed. -/
def parse_children (parse : Nat → Except Err (Option id_tree × Nat)) (begin : Nat) :
    Nat → Nat → List id_tree → Except Err (Option (List id_tree) × Nat)
  | 0, total, acc => pure (some acc, total)
  | n + 1, total, acc => do
    let r ← parse (begin + total)
    match r.1 with
    | none => pure (none, total + r.2)
    | some c => parse_children parse begin n (total + r.2) (acc ++ [c])

/-- The header part of the `parse` lambda, after the first word `id` at `begin` has been
read: the data word (when the top bit of `id` is set) and the child count, with the position
after them; no header when the array is too short ("数据不足"). -/
def parse_header (words : List Nat) (begin id : Nat) : Except Err (Option (Nat × Nat × Nat)) :=
  let ptr := begin + 1
  if id &&& SIGN_BIT ≠ 0 then
    if ptr + 1 ≥ words.length then pure none
    else do
      let data ← read_word words ptr
      let child_count ← read_word words (ptr + 1)
      pure (some (data, child_count, ptr + 2))
  else
    if ptr ≥ words.length then pure none
    else do
      let child_count ← read_word words ptr
      pure (some (NULL_DATA, child_count, ptr + 1))

/-- The `parse` lambda of `deserialize` on the array `words` (`end` is its length), at the
position `begin`; the first argument bounds the recursion depth. The result is the node (or
`nullptr`) and the consumed count. The construction of the child vector is taken to
succeed; `parse_alloc` below is the lambda with the construction at its place. -/
def parse (words : List Nat) : Nat → Nat → Except Err (Option id_tree × Nat)
  | 0, _ => .error .out_of_fuel
  | fuel + 1, begin =>
    if begin ≥ words.length then pure (none, 0)
    else do
      let id ← read_word words begin
      let hdr ← parse_header words begin id
      match hdr with
      | none => pure (none, 1)
      | some (data, child_count, ptr) => do
        let r ← parse_children (parse words fuel) begin child_count (ptr - begin) []
        match r.1 with
        | none => pure (none, r.2)
        | some children =>
          pure (some (mk (id &&& NOT_SIGN_BIT) data (sort_children children)), r.2)

/-- The static member `deserialize(nodes, node_count)` with `node_count` the length of
`nodes`: the tree, or `nullptr`, when the constructions of the child vectors succeed
(`deserialize_alloc` below has them at their place). -/
def deserialize (nodes : List Nat) : Except Err (Option id_tree) := do
  let r ← parse nodes (nodes.length + 1) 0
  pure (if r.2 = nodes.length then r.1 else none)

/-- The body of the `parse` lambda, with the lambda it calls for the children as a
parameter. -/
def parse_node (words : List Nat) (P : Nat → Except Err (Option id_tree × Nat)) (begin : Nat) :
    Except Err (Option id_tree × Nat) :=
  if begin ≥ words.length then pure (none, 0)
  else do
    let id ← read_word words begin
    let hdr ← parse_header words begin id
    match hdr with
    | none => pure (none, 1)
    | some (data, child_count, ptr) => do
      let r ← parse_children P begin child_count (ptr - begin) []
      match r.1 with
      | none => pure (none, r.2)
      | some children =>
        pure (some (mk (id &&& NOT_SIGN_BIT) data (sort_children children)), r.2)

instance : IsTotal id_tree id_le := ⟨fun a b => Nat.le_total a.id b.id⟩

instance : IsTrans id_tree id_le := ⟨fun _ _ _ h1 h2 => Nat.le_trans h1 h2⟩

/-! ## Predicates on trees -/

/-- Children strictly ascending by id. -/
def ascending (cs : List id_tree) : Prop := cs.Pairwise (fun a b => a.id < b.id)

instance : DecidablePred ascending := fun cs =>
  inferInstanceAs (Decidable (cs.Pairwise (fun (a b : id_tree) => a.id < b.id)))

mutual
/-- The property `p` holds at the node and at every descendant. -/
def every_node (p : id_tree → Prop) : id_tree → Prop
  | mk i d cs => p (mk i d cs) ∧ every_node_list p cs
/-- The property `p` holds at every node of a forest. -/
def every_node_list (p : id_tree → Prop) : List id_tree → Prop
  | [] => True
  | c :: cs => every_node p c ∧ every_node_list p cs
end

/-- The invariant kept by `push`: children strictly ascending by id, at most `k` of them. -/
def node_sorted (k : Nat) (n : id_tree) : Prop := ascending n.children ∧ n.children.length ≤ k

/-- The invariant under which a tree is read back: children strictly ascending by id and
the top bit of the id clear. -/
def node_canonical (n : id_tree) : Prop := ascending n.children ∧ n.id < 2 ^ 63

/-- The child of `t` that carries the id `x`, if there is one. -/
def child_with_id (t : id_tree) (x : Nat) : Option id_tree :=
  t.children.find? (fun c => c.id == x)

/-- The node reached from `t` by descending along `ids`, one child id per level. -/
def descend : id_tree → List Nat → Option id_tree
  | t, [] => some t
  | t, x :: rest =>
    match t.child_with_id x with
    | none => none
    | some c => descend c rest

end id_tree

/-! ## Byte encoding of unsigned integers -/

/-- The template `write_bytes<T>(target, value)` for an unsigned type of `size` bytes, on a
host whose native byte order is big-endian (`big_endian = true`) or not: the vector after
the call. -/
def write_bytes (big_endian : Bool) (size : Nat) (target : List Nat) (value : Nat) : List Nat :=
  if big_endian then
    target ++ ((List.range size).reverse.map fun i => (value >>> (i * 8)) &&& 0xff)
  else
    target ++ ((List.range size).map fun i => (value >>> (i * 8)) &&& 0xff)

/-- The unchecked element access `data[i]` of a span of bytes. -/
def read_byte (data : List Nat) (i : Int) : Except Err Nat :=
  if 0 ≤ i then
    match data[i.toNat]? with
    | some b => .ok b
    | none => .error .undefined
  else .error .undefined

/-- The shift `(T)x << n` for an unsigned type of `size` bytes: undefined when the count
is negative or not below the width of the type. -/
def shift_left (size : Nat) (x : Nat) (n : Int) : Except Err Nat :=
  if 0 ≤ n ∧ n < (size * 8 : Nat) then .ok ((x <<< n.toNat) % 2 ^ (size * 8)) else .error .undefined

/-- The template `read_bytes<T>(data, offset)` for an unsigned type of `size` bytes. The two
branches visit the indices `offset .. offset + size - 1` in opposite orders and do the same
at each: `value |= (T)data[i] << (i * 8)`. -/
def read_bytes (big_endian : Bool) (size : Nat) (data : List Nat) (offset : Int) :
    Except Err Nat :=
  let idxs := (List.range size).map fun (k : Nat) => offset + (k : Int)
  (if big_endian then idxs.reverse else idxs).foldlM
    (fun value i => do
      let byte ← read_byte data i
      let shifted ← shift_left size byte (i * 8)
      pure (value ||| shifted))
    0

/-! ## The chunk store -/

/-- A `std::span<uint8_t>` into the buffer of a chunk store: where it starts and its size. -/
structure span where
  offset : Nat
  size : Nat
deriving DecidableEq

/-- The class `chunk`: `_buffer` (with `_buffer_size` its length; `none` is `nullptr`) and
`_data_map`, the entries of the map as a list of pairs with distinct ids. -/
structure chunk where
  buffer : Option (List Nat)
  data_map : List (Nat × span)
deriving DecidableEq

namespace chunk

/-- The static member `build_chunk_buffer(chunks)`; `chunks` lists the entries of the
unordered map in its iteration order. -/
def build_chunk_buffer (big_endian : Bool) (chunks : List (Nat × List Nat)) : List Nat :=
  let result := write_bytes big_endian 8 [] chunks.length
  let result := chunks.foldl
    (fun r e => write_bytes big_endian 8 (write_bytes big_endian 8 r e.1) e.2.length) result
  chunks.foldl (fun r e => r ++ e.2) result

/-- The first loop of `build_buffer_map`, from index `i` for `n` more iterations: the
directory entries `(id, size)` read from the buffer. -/
def read_header (big_endian : Bool) (buffer : List Nat) : Nat → Nat → Except Err (List (Nat × Nat))
  | 0, _ => pure []
  | n + 1, i => do
    let offset : Nat := (8 + i * 8 * 2) % 2 ^ 64
    let id ← read_bytes big_endian 8 buffer (toInt32 (offset : Int))
    let size ← read_bytes big_endian 8 buffer (toInt32 (((offset + 8) % 2 ^ 64 : Nat) : Int))
    let rest ← read_header big_endian buffer n (i + 1)
    pure ((id, size) :: rest)

/-- The assignment `_data_map[id] = s`. -/
def map_assign (m : List (Nat × span)) (id : Nat) (s : span) : List (Nat × span) :=
  if m.any (fun e => e.1 == id) then m.map (fun e => if e.1 == id then (id, s) else e)
  else m ++ [(id, s)]

/-- The second loop of `build_buffer_map`: one span per directory entry, each starting where
the one before ended. -/
def build_map : List (Nat × Nat) → Nat → List (Nat × span) → List (Nat × span)
  | [], _, m => m
  | (id, size) :: rest, offset, m =>
    build_map rest ((offset + size) % 2 ^ 64) (map_assign m id ⟨offset, size⟩)

/-- The member `build_buffer_map()`, called by the constructors. -/
def build_buffer_map (big_endian : Bool) (c : chunk) : Except Err chunk :=
  match c.buffer with
  | none => pure c
  | some buffer =>
    if buffer.length = 0 then pure c
    else do
      let chunk_count ← read_bytes big_endian 8 buffer 0
      let header ← read_header big_endian buffer chunk_count 0
      let chunk_offset := (8 + chunk_count * 8 * 2) % 2 ^ 64
      pure { c with data_map := build_map header chunk_offset c.data_map }

/-- The constructor `chunk(uint8_t* buffer, size_t buffer_size)` on a buffer holding the
given bytes. -/
def of_buffer (big_endian : Bool) (buffer : List Nat) : Except Err chunk :=
  build_buffer_map big_endian { buffer := some buffer, data_map := [] }

/-- The member `get(id)`: the span stored for `id`, the empty span `{}` when the store has
no buffer or no entry for `id`. -/
def get (c : chunk) (id : Nat) : span :=
  match c.buffer with
  | none => ⟨0, 0⟩
  | some _ =>
    match c.data_map.find? (fun e => e.1 == id) with
    | none => ⟨0, 0⟩
    | some e => e.2

/-- The bytes a span of the store views. -/
def bytes (c : chunk) (s : span) : List Nat :=
  match c.buffer with
  | none => []
  | some buffer => (buffer.drop s.offset).take s.size

end chunk

/-! ## The path resolver -/

/-- The class `path_part_collection`: the entries of `_map`, with distinct keys. -/
structure path_part_collection where
  map : List (List Char × Nat)
deriving DecidableEq

namespace path_part_collection

/-- The constant `CURR_DIR = "."`. -/
def CURR_DIR : List Char := ['.']

/-- The constant `PARENT_DIR = ".."`. -/
def PARENT_DIR : List Char := ['.', '.']

/-- The predicate `is_path_separator(c)`: `c == '/' || c == '\\' || c == ':'`. -/
def is_path_separator (c : Char) : Bool := c == '/' || c == '\\' || c == ':'

/-- The lookup `_map.find(path_part)`. -/
def lookup (c : path_part_collection) (part : List Char) : Option Nat :=
  (c.map.find? (fun e => e.1 == part)).map (fun e => e.2)

/-- The member `add_part(path_part, id)`. -/
def add_part (c : path_part_collection) (part : List Char) (id : Nat) :
    Except Err path_part_collection :=
  if part = [] then .error .empty_path
  else if part = CURR_DIR ∨ part = PARENT_DIR then .error .dir_marker
  else if '/' ∈ part ∨ '\\' ∈ part then .error .contains_separator
  else .ok ⟨(part, id) :: c.map.filter (fun e => e.1 != part)⟩

/-- The end of the body of the loop of `enumerate_path`: the callback is called with the
part unless the part is `CURR_DIR`. -/
def call_part {σ : Type} (func : σ → List Char → Except Err σ) (s : σ) (part : List Char) :
    Except Err σ :=
  if part ≠ CURR_DIR then
    if part = PARENT_DIR then func s PARENT_DIR else func s part
  else pure s

/-- The loop of `enumerate_path` on the rest of the path from position `i` on, with the
state `s` of the callback `func`; the first argument bounds the number of iterations. -/
def enumerate_loop {σ : Type} (func : σ → List Char → Except Err σ) :
    Nat → List Char → σ → Except Err σ
  | 0, _, _ => .error .out_of_fuel
  | fuel + 1, rest, s =>
    if rest = [] then pure s
    else do
      let r1 := rest.dropWhile is_path_separator
      let part := r1.takeWhile (fun c => !is_path_separator c)
      let r2 := r1.dropWhile (fun c => !is_path_separator c)
      let s ← call_part func s part
      enumerate_loop func fuel r2 s

/-- The loop of `enumerate_path` run on `rest`, the part of a path not yet visited, with a
budget of one iteration per character and one for the exit. -/
def enumerate_rest {σ : Type} (func : σ → List Char → Except Err σ) (rest : List Char) (s : σ) :
    Except Err σ :=
  enumerate_loop func (rest.length + 1) rest s

/-- The static member `enumerate_path(path, func)`: the callback is a function of its
captured state `s` and of the part it is called with, and may throw. -/
def enumerate_path {σ : Type} (path : List Char) (func : σ → List Char → Except Err σ)
    (s : σ) : Except Err σ := do
  let s ← func s CURR_DIR
  enumerate_rest func path s

/-- The lambda of `to_ids`, acting on the vector `result`. -/
def to_ids_part (c : path_part_collection) (result : List Nat) (part : List Char) :
    Except Err (List Nat) :=
  if part = CURR_DIR then pure result
  else if part = PARENT_DIR then
    if result = [] then .error .parent_at_root else pure result.dropLast
  else
    match c.lookup part with
    | none => .error .part_not_found
    | some id => pure (result ++ [id])

/-- The member `to_ids(path)`. -/
def to_ids (c : path_part_collection) (path : List Char) : Except Err (List Nat) :=
  enumerate_path path (to_ids_part c) []

/-- The run of `to_ids` continued on `rest`, the part of a path not yet visited, from the
vector `result` reached so far. -/
def to_ids_rest (c : path_part_collection) (rest : List Char) (result : List Nat) :
    Except Err (List Nat) :=
  enumerate_rest (to_ids_part c) rest result

/-- The invariant of the table kept by `add_part`: no key is empty, `.` or `..`. -/
def valid (c : path_part_collection) : Prop :=
  ∀ e ∈ c.map, e.1 ≠ [] ∧ e.1 ≠ CURR_DIR ∧ e.1 ≠ PARENT_DIR

instance : DecidablePred valid := fun c =>
  inferInstanceAs (Decidable (∀ e ∈ c.map, e.1 ≠ [] ∧ e.1 ≠ CURR_DIR ∧ e.1 ≠ PARENT_DIR))

/-- A path written as a first token followed by separator-token pairs. -/
def join_tokens (first : List Char) (more : List (Char × List Char)) : List Char :=
  more.foldl (fun acc e => acc ++ e.1 :: e.2) first

/-- The ids that `to_ids` is to return for a list of tokens: those of the registered
segments, in order, nothing for `.`. -/
def token_ids (c : path_part_collection) (tokens : List (List Char)) : List Nat :=
  tokens.filterMap (fun t => if t = CURR_DIR then none else c.lookup t)

end path_part_collection

/-! ## The module requirer -/

namespace chunk

/-- The bytes read through a span of the store, `s.data()[0 .. s.size())`: undefined when
the span does not lie inside the buffer. -/
def view (c : chunk) (s : span) : Except Err (List Nat) :=
  match c.buffer with
  | none => if s.size = 0 then pure [] else .error .undefined
  | some buffer =>
    if s.offset + s.size ≤ buffer.length then pure ((buffer.drop s.offset).take s.size)
    else .error .undefined

end chunk

/-- The class `lua_custom_requirer`: its three public members. -/
structure lua_custom_requirer where
  lua_src_tree : id_tree
  lua_src_chunk : chunk
  lua_src_path_collection : path_part_collection

/-- What a `require` call that returns 1 has handed to the host loader `luaL_loadbuffer`:
the chunk name and the bytes. -/
structure loaded where
  name : List Char
  bytes : List Nat
deriving DecidableEq

namespace lua_custom_requirer

/-- The member `require(L)` for the module name found at stack index 1. The host loader
`luaL_loadbuffer` is the function `loader` of the chunk name and the bytes, `true` when it
accepts them (status 0). A result `ok` means the call returned 1 after the loader accepted
what the result records; the three `luaL_error` exits are errors, and only the last of
them is reached after the loader has been called. -/
def require (r : lua_custom_requirer) (loader : List Char → List Nat → Bool)
    (module_name : List Char) : Except Err loaded := do
  let ids ← r.lua_src_path_collection.to_ids module_name
  let node_idx ← r.lua_src_tree.find_path ids
  if node_idx = NULL_IDX then .error .tree_node_not_found
  else do
    let tree_node ← r.lua_src_tree.get_child node_idx
    let chunk := r.lua_src_chunk.get tree_node.id
    if chunk.size = 0 then .error .chunk_empty
    else do
      let bytes ← r.lua_src_chunk.view chunk
      if loader module_name bytes then pure ⟨module_name, bytes⟩
      else .error .load_buffer_error

end lua_custom_requirer

/-! ## Traversal, depth and tokens -/

namespace id_tree

/-- The loop `for (i = 0; i < _children.size(); i++)` of `for_each_child`: `body` is what
one iteration does to the state of the callback. -/
def for_each_loop {σ : Type} (body : σ → Except Err σ) : Nat → σ → Except Err σ
  | 0, s => pure s
  | n + 1, s => do
    let s ← body s
    for_each_loop body n s

/-- The member `for_each_child(func)`: the callback is a function of its captured state and
of the node it is called with. The call in the loop is `for_each_child(func)`, on the node
itself. The first argument bounds the depth of the recursion. -/
def for_each_child {σ : Type} (func : σ → id_tree → σ) : Nat → id_tree → σ → Except Err σ
  | 0, _, _ => .error .out_of_fuel
  | fuel + 1, t, s => for_each_loop (for_each_child func fuel t) t.children.length (func s t)

mutual
/-- The nodes of a tree in depth-first pre-order: a node before its children, the children
in their stored order. -/
def preorder : id_tree → List id_tree
  | mk i d cs => mk i d cs :: preorder_list cs
/-- The nodes of a forest in depth-first pre-order. -/
def preorder_list : List id_tree → List id_tree
  | [] => []
  | c :: cs => preorder c ++ preorder_list cs
end

mutual
/-- The number of levels of a tree. -/
def depth : id_tree → Nat
  | mk _ _ cs => 1 + depth_list cs
/-- The number of levels of the deepest tree of a forest. -/
def depth_list : List id_tree → Nat
  | [] => 0
  | c :: cs => max (depth c) (depth_list cs)
end

/-- A tree that is a single branch of `n + 1` nodes, each with id 0 and no data. -/
def chain : Nat → id_tree
  | 0 => mk 0 NULL_DATA []
  | n + 1 => mk 0 NULL_DATA [chain n]

end id_tree

namespace path_part_collection

/-- The tokens of a path: its maximal non-empty substrings without a separator, from left
to right. -/
def tokens (path : List Char) : List (List Char) :=
  (path.splitOnP is_path_separator).filter (fun t => !t.isEmpty)

/-- A callback for `enumerate_path` that records the parts it is called with. -/
def record (s : List (List Char)) (part : List Char) : Except Err (List (List Char)) :=
  pure (s ++ [part])

end path_part_collection

/-! ## Arrays of words as bytes -/

/-- The template `to_bytes(value, count)` for an unsigned type of `size` bytes: the bytes of
`value[0] .. value[count - 1]`, each appended by `write_bytes`. An element past the end of
the array is an undefined read. -/
def to_bytes (big_endian : Bool) (size : Nat) (value : List Nat) (count : Nat) :
    Except Err (List Nat) :=
  (List.range count).foldlM
    (fun result i =>
      match value[i]? with
      | some w => pure (write_bytes big_endian size result w)
      | none => .error .undefined)
    []

/-- The loop `for (size_t i = 0; i < count; i += sizeof(T))` of `from_bytes`, from `i` on
with the vector `result` built so far; the offset is handed to `read_bytes` as an `int`.
The first argument bounds the number of iterations. -/
def from_bytes_loop (big_endian : Bool) (size : Nat) (sp : List Nat) (count : Nat) :
    Nat → Nat → List Nat → Except Err (List Nat)
  | 0, _, _ => .error .out_of_fuel
  | fuel + 1, i, result =>
    if i < count then do
      let v ← read_bytes big_endian size sp (toInt32 (i : Int))
      from_bytes_loop big_endian size sp count fuel ((i + size) % 2 ^ 64) (result ++ [v])
    else pure result

/-- The template `from_bytes<T>(data, count)` for an unsigned type of `size` bytes
(`sizeof(T)`, at least 1): `count` is rounded down to a multiple of `size`, the span `sp`
covers that many bytes of `data`, and one value is read at each multiple of `size` below
the rounded count. -/
def from_bytes (big_endian : Bool) (size : Nat) (data : List Nat) (count : Nat) :
    Except Err (List Nat) :=
  let count := count - count % size
  let sp := data.take count
  from_bytes_loop big_endian size sp count (count + 1) 0 []

/-! ## The library calls inside `serialize` and `deserialize`

The definitions `serialize` and `parse` above give what the code does when each
`get_child(i)` of `serialize` and each construction of a child vector in `deserialize`
succeeds. The definitions below put the two library calls at their place. -/

namespace id_tree

/-- The loop `for (size_t i = 0; i < node._children.size(); ++i)` of `serialize`, from `i`
on for `n` more iterations, with the vector `output` reached so far: the child is fetched
by `node.get_child(i)`, which takes the `size_t` index as an `int32_t` and throws on an
invalid index, and handed to `serialize`, the recursive call. -/
def serialize_loop (serialize : id_tree → List Nat → Except Err (List Nat)) (node : id_tree) :
    Nat → Nat → List Nat → Except Err (List Nat)
  | 0, _, output => pure output
  | n + 1, i, output => do
    let child ← node.get_child (toInt32 (i : Int))
    let output ← serialize child output
    serialize_loop serialize node n (i + 1) output

/-- The static member `serialize(node, output)` with its `get_child` calls: the vector
`output` after the call. The first argument bounds the depth of the recursion. -/
def serialize_to : Nat → id_tree → List Nat → Except Err (List Nat)
  | 0, _, _ => .error .out_of_fuel
  | fuel + 1, node, output =>
    let output :=
      if node.data ≠ NULL_DATA then output ++ [node.id ||| SIGN_BIT] ++ [node.data]
      else output ++ [node.id]
    let output := output ++ [node.children.length]
    serialize_loop (serialize_to fuel) node node.children.length 0 output

end id_tree

end lua_util

/-! # Theorems -/

namespace lua_util

/-! ## The error monad -/

theorem bind_ok {α β : Type} (a : α) (f : α → Except Err β) :
    (Except.ok a >>= f) = f a := rfl

theorem bind_error {α β : Type} (e : Err) (f : α → Except Err β) :
    ((Except.error e : Except Err α) >>= f) = Except.error e := rfl

theorem bind_assoc_ok {α β γ : Type} (x : Except Err α) (f : α → Except Err β)
    (g : β → Except Err γ) : ((x >>= f) >>= g) = (x >>= fun a => f a >>= g) := by
  cases x <;> rfl

/-! ## Bit operations on ids -/

theorem and_sign_bit_of_lt {x : Nat} (h : x < 2 ^ 63) : x &&& SIGN_BIT = 0 := by
  apply Nat.eq_of_testBit_eq
  intro i
  rw [Nat.testBit_and, SIGN_BIT, Nat.testBit_two_pow, Nat.zero_testBit]
  by_cases hi : 63 = i
  · subst hi
    rw [Nat.testBit_lt_two_pow h]
    rfl
  · simp [hi]

theorem lt_of_and_sign_bit {x : Nat} (h : x < 2 ^ 64) (h0 : x &&& SIGN_BIT = 0) : x < 2 ^ 63 := by
  by_contra hge
  have hbit : x.testBit 63 = true := by
    rw [Nat.testBit, Nat.shiftRight_eq_div_pow]
    have : x / 2 ^ 63 = 1 := by omega
    rw [this]
    rfl
  have : (x &&& SIGN_BIT).testBit 63 = true := by
    rw [Nat.testBit_and, hbit, SIGN_BIT, Nat.testBit_two_pow_self]
    rfl
  rw [h0, Nat.zero_testBit] at this
  cases this

theorem or_sign_bit_flag {x : Nat} : (x ||| SIGN_BIT) &&& SIGN_BIT ≠ 0 := by
  intro h0
  have : ((x ||| SIGN_BIT) &&& SIGN_BIT).testBit 63 = true := by
    rw [Nat.testBit_and, Nat.testBit_or, SIGN_BIT, Nat.testBit_two_pow_self]
    simp
  rw [h0, Nat.zero_testBit] at this
  cases this

theorem not_sign_bit_eq : NOT_SIGN_BIT = 2 ^ 63 - 1 := by decide

theorem and_not_sign_bit {x : Nat} (h : x < 2 ^ 63) : x &&& NOT_SIGN_BIT = x := by
  rw [not_sign_bit_eq]
  exact Nat.and_pow_two_sub_one_of_lt_two_pow h

theorem or_sign_bit_strip {x : Nat} (h : x < 2 ^ 63) : (x ||| SIGN_BIT) &&& NOT_SIGN_BIT = x := by
  rw [not_sign_bit_eq]
  apply Nat.eq_of_testBit_eq
  intro i
  rw [Nat.testBit_and, Nat.testBit_or, SIGN_BIT, Nat.testBit_two_pow, Nat.testBit_two_pow_sub_one]
  by_cases hi : i < 63
  · have : ¬ (63 = i) := by omega
    simp [hi, this]
  · have : x.testBit i = false := Nat.testBit_lt_two_pow (Nat.lt_of_lt_of_le h (Nat.pow_le_pow_right (by decide) (by omega)))
    simp [hi, this]

namespace id_tree

/-! ## Binary search -/

theorem int32_ok {x : Int} (h1 : -2 ^ 31 ≤ x) (h2 : x < 2 ^ 31) : int32 x = .ok x := by
  unfold int32
  rw [if_pos ⟨h1, h2⟩]

theorem last_idx_eq {cs : List id_tree} (h : cs.length ≤ 2 ^ 30) :
    last_idx cs = (cs.length : Int) - 1 := by
  unfold last_idx toInt32 toSizeT
  omega

theorem child_at_eq (cs : List id_tree) (mid : Int) (h0 : 0 ≤ mid)
    (h1 : mid < (cs.length : Int)) :
    ∃ c, cs[mid.toNat]? = some c ∧ child_at cs mid = .ok c := by
  have hlt : mid.toNat < cs.length := by omega
  refine ⟨cs[mid.toNat], List.getElem?_eq_getElem hlt, ?_⟩
  unfold child_at
  rw [if_pos h0, List.getElem?_eq_getElem hlt]

theorem ascending_lt {cs : List id_tree} (h : ascending cs) {i j : Nat} {a b : id_tree}
    (hij : i < j) (ha : cs[i]? = some a) (hb : cs[j]? = some b) : a.id < b.id := by
  have hi : i < cs.length := by
    by_contra hc
    rw [List.getElem?_eq_none (by omega)] at ha
    cases ha
  have hj : j < cs.length := by
    by_contra hc
    rw [List.getElem?_eq_none (by omega)] at hb
    cases hb
  rw [List.getElem?_eq_getElem hi] at ha
  rw [List.getElem?_eq_getElem hj] at hb
  cases ha
  cases hb
  exact (List.pairwise_iff_getElem.mp h) i j hi hj hij

/-- The search loop returns the position of the id when it lies in the window. -/
theorem find_loop_found {cs : List id_tree} (hs : ascending cs) (hn : cs.length ≤ 2 ^ 30)
    {x k : Nat} {c : id_tree} (hk : cs[k]? = some c) (hc : c.id = x) :
    ∀ (fuel : Nat) (left right : Int), 0 ≤ left → right < (cs.length : Int) →
      left ≤ (k : Int) → (k : Int) ≤ right → right - left < (fuel : Int) →
      find_loop cs x fuel left right = .ok (k : Int) := by
  intro fuel
  induction fuel with
  | zero => intro left right _ _ _ _ hf; omega
  | succ fuel ih =>
    intro left right h0 hr hlk hkr hf
    have hle : left ≤ right := by omega
    have hsum : int32 (left + right) = .ok (left + right) := int32_ok (by omega) (by omega)
    have hdiv : (left + right).tdiv 2 = (left + right) / 2 :=
      Int.tdiv_eq_ediv (by omega) (by decide)
    obtain ⟨m, hm, hat⟩ := child_at_eq cs ((left + right) / 2) (by omega) (by omega)
    rw [find_loop, if_pos hle, hsum]
    simp only [bind, Except.bind, hdiv, hat, pure, Except.pure]
    by_cases e1 : m.id = x
    · rw [if_pos e1]
      have : ((left + right) / 2).toNat = k := by
        rcases Nat.lt_trichotomy ((left + right) / 2).toNat k with h | h | h
        · have := ascending_lt hs h hm hk; omega
        · exact h
        · have := ascending_lt hs h hk hm; omega
      congr 1
      omega
    · rw [if_neg e1]
      by_cases e2 : m.id < x
      · rw [if_pos e2, int32_ok (by omega) (by omega)]
        have hgt : ((left + right) / 2).toNat < k := by
          rcases Nat.lt_trichotomy ((left + right) / 2).toNat k with h | h | h
          · exact h
          · rw [h, hk] at hm; cases hm; omega
          · have := ascending_lt hs h hk hm; omega
        exact ih _ _ (by omega) hr (by omega) hkr (by omega)
      · rw [if_neg e2, int32_ok (by omega) (by omega)]
        have hlt : k < ((left + right) / 2).toNat := by
          rcases Nat.lt_trichotomy ((left + right) / 2).toNat k with h | h | h
          · have := ascending_lt hs h hm hk; omega
          · rw [h, hk] at hm; cases hm; omega
          · exact h
        exact ih _ _ h0 (by omega) hlk (by omega) (by omega)

/-- The search loop returns `NULL_IDX` when no child carries the id. -/
theorem find_loop_absent {cs : List id_tree} (hn : cs.length ≤ 2 ^ 30)
    {x : Nat} (hx : ∀ c ∈ cs, c.id ≠ x) :
    ∀ (fuel : Nat) (left right : Int), 0 ≤ left → right < (cs.length : Int) →
      left ≤ right + 1 → right - left + 1 < (fuel : Int) →
      find_loop cs x fuel left right = .ok NULL_IDX := by
  intro fuel
  induction fuel with
  | zero => intro left right _ _ _ hf; omega
  | succ fuel ih =>
    intro left right h0 hr hlr hf
    by_cases hle : left ≤ right
    · have hsum : int32 (left + right) = .ok (left + right) := int32_ok (by omega) (by omega)
      have hdiv : (left + right).tdiv 2 = (left + right) / 2 :=
        Int.tdiv_eq_ediv (by omega) (by decide)
      obtain ⟨m, hm, hat⟩ :=
        child_at_eq cs ((left + right) / 2) (by omega) (by omega)
      rw [find_loop, if_pos hle, hsum]
      simp only [bind, Except.bind, hdiv, hat, pure, Except.pure]
      have e1 : m.id ≠ x := hx m (List.getElem?_mem hm)
      rw [if_neg e1]
      by_cases e2 : m.id < x
      · rw [if_pos e2, int32_ok (by omega) (by omega)]
        exact ih _ _ (by omega) hr (by omega) (by omega)
      · rw [if_neg e2, int32_ok (by omega) (by omega)]
        exact ih _ _ h0 (by omega) (by omega) (by omega)
    · rw [find_loop, if_neg hle]
      rfl

theorem every_node_list_iff (p : id_tree → Prop) (cs : List id_tree) :
    every_node_list p cs ↔ ∀ c ∈ cs, every_node p c := by
  induction cs with
  | nil => simp [every_node_list]
  | cons c cs ih => simp [every_node_list, ih]

theorem every_node_iff (p : id_tree → Prop) (t : id_tree) :
    every_node p t ↔ p t ∧ ∀ c ∈ t.children, every_node p c := by
  cases t with
  | mk i d cs => simp [every_node, every_node_list_iff, children]

/-- Induction over a tree through its child lists. -/
theorem induct {P : id_tree → Prop} (step : ∀ t, (∀ c ∈ t.children, P c) → P t) :
    ∀ t, P t
  | mk i d cs => by
    apply step
    intro c hc
    change c ∈ cs at hc
    have : sizeOf c < sizeOf (mk i d cs) := by
      have := List.sizeOf_lt_of_mem hc
      simp only [mk.sizeOf_spec]
      omega
    exact induct step c
termination_by t => sizeOf t

theorem every_node_mono {p q : id_tree → Prop} (h : ∀ t, p t → q t) (t : id_tree) :
    every_node p t → every_node q t := by
  induction t using induct with
  | step t ih =>
    intro ht
    rw [every_node_iff] at ht ⊢
    exact ⟨h _ ht.1, fun c hc => ih c hc (ht.2 c hc)⟩

/-- Search for an id that some child carries. -/
theorem find_present {t : id_tree} (hs : ascending t.children) (hn : t.children.length ≤ 2 ^ 30)
    {x k : Nat} {c : id_tree} (hk : t.children[k]? = some c) (hc : c.id = x) :
    t.find x = .ok (k : Int) := by
  have hlt : k < t.children.length := by
    by_contra h
    rw [List.getElem?_eq_none (by omega)] at hk
    cases hk
  unfold find
  rw [last_idx_eq hn]
  exact find_loop_found hs hn hk hc _ _ _ (by omega) (by omega) (by omega) (by omega)
    (by push_cast; omega)

/-- Search for an id that no child carries. -/
theorem find_absent {t : id_tree} (hn : t.children.length ≤ 2 ^ 30)
    {x : Nat} (hx : ∀ c ∈ t.children, c.id ≠ x) : t.find x = .ok NULL_IDX := by
  unfold find
  rw [last_idx_eq hn]
  exact find_loop_absent hn hx _ _ _ (by omega) (by omega) (by omega) (by push_cast; omega)

/-- C4. Single-level `find(X)` on a node whose children are strictly ascending by id (and few
enough for the `int32_t` index arithmetic, at most `2 ^ 30`): when a child has id `X` the
result is an index `i` with `children[i].id = X`; when no child has id `X`, in particular
when there is no child at all, the result is `NULL_IDX`, which is `-1`. -/
theorem find_spec (t : id_tree) (x : Nat) (hs : ascending t.children)
    (hn : t.children.length ≤ 2 ^ 30) :
    ((∃ c ∈ t.children, c.id = x) →
      ∃ i : Nat, t.find x = .ok (i : Int) ∧ ∃ c, t.children[i]? = some c ∧ c.id = x) ∧
    ((∀ c ∈ t.children, c.id ≠ x) → t.find x = .ok NULL_IDX) ∧
    (t.children = [] → t.find x = .ok NULL_IDX) ∧ NULL_IDX = -1 := by
  refine ⟨?_, fun h => find_absent hn h, fun h => find_absent hn (by simp [h]), rfl⟩
  rintro ⟨c, hc, hx⟩
  obtain ⟨k, hk⟩ := List.mem_iff_getElem?.mp hc
  exact ⟨k, find_present hs hn hk hx, c, hk, hx⟩

theorem find_spec_witness :
    ((∃ c ∈ (mk 0 NULL_DATA [mk 3 7 [], mk 5 NULL_DATA [], mk 9 1 []]).children, c.id = 5) →
      ∃ i : Nat, (mk 0 NULL_DATA [mk 3 7 [], mk 5 NULL_DATA [], mk 9 1 []]).find 5 = .ok (i : Int) ∧
        ∃ c, (mk 0 NULL_DATA [mk 3 7 [], mk 5 NULL_DATA [], mk 9 1 []]).children[i]? = some c ∧
          c.id = 5) ∧
    ((∀ c ∈ (mk 0 NULL_DATA [mk 3 7 [], mk 5 NULL_DATA [], mk 9 1 []]).children, c.id ≠ 5) →
      (mk 0 NULL_DATA [mk 3 7 [], mk 5 NULL_DATA [], mk 9 1 []]).find 5 = .ok NULL_IDX) ∧
    ((mk 0 NULL_DATA [mk 3 7 [], mk 5 NULL_DATA [], mk 9 1 []]).children = [] →
      (mk 0 NULL_DATA [mk 3 7 [], mk 5 NULL_DATA [], mk 9 1 []]).find 5 = .ok NULL_IDX) ∧
    NULL_IDX = -1 :=
  find_spec (mk 0 NULL_DATA [mk 3 7 [], mk 5 NULL_DATA [], mk 9 1 []]) 5 (by decide) (by decide)

/-! ## Insertion -/

/-- The insertion-point loop stops at an index that splits the children into those with a
smaller id and the others. -/
theorem push_loop_spec {cs : List id_tree} (hs : ascending cs) (hn : cs.length ≤ 2 ^ 30)
    (x : Nat) :
    ∀ (fuel : Nat) (left right : Int), 0 ≤ left → right < (cs.length : Int) →
      left ≤ right + 1 → right - left + 1 < (fuel : Int) →
      (∀ (j : Nat) (c : id_tree), cs[j]? = some c → (j : Int) < left → c.id < x) →
      (∀ (j : Nat) (c : id_tree), cs[j]? = some c → right < (j : Int) → ¬ c.id < x) →
      ∃ p : Nat, push_loop cs x fuel left right = .ok (p : Int) ∧ p ≤ cs.length ∧
        (∀ (j : Nat) (c : id_tree), cs[j]? = some c → j < p → c.id < x) ∧
        (∀ (j : Nat) (c : id_tree), cs[j]? = some c → p ≤ j → ¬ c.id < x) := by
  intro fuel
  induction fuel with
  | zero => intro left right _ _ _ hf; omega
  | succ fuel ih =>
    intro left right h0 hr hlr hf hlo hhi
    by_cases hle : left ≤ right
    · have hsum : int32 (left + right) = .ok (left + right) := int32_ok (by omega) (by omega)
      have hdiv : (left + right).tdiv 2 = (left + right) / 2 :=
        Int.tdiv_eq_ediv (by omega) (by decide)
      obtain ⟨m, hm, hat⟩ :=
        child_at_eq cs ((left + right) / 2) (by omega) (by omega)
      rw [push_loop, if_pos hle, hsum]
      simp only [bind, Except.bind, hdiv, hat]
      by_cases e2 : m.id < x
      · rw [if_pos e2, int32_ok (by omega) (by omega)]
        refine ih _ _ (by omega) hr (by omega) (by omega) ?_ hhi
        intro j c hj hjl
        rcases Nat.lt_or_ge j ((left + right) / 2).toNat with h | h
        · have := ascending_lt hs h hj hm; omega
        · have : j = ((left + right) / 2).toNat := by omega
          rw [this, hm] at hj; cases hj; exact e2
      · rw [if_neg e2, int32_ok (by omega) (by omega)]
        refine ih _ _ h0 (by omega) (by omega) (by omega) hlo ?_
        intro j c hj hjr
        rcases Nat.lt_or_ge ((left + right) / 2).toNat j with h | h
        · have := ascending_lt hs h hm hj; omega
        · have : j = ((left + right) / 2).toNat := by omega
          rw [this, hm] at hj; cases hj; exact e2
    · rw [push_loop, if_neg hle]
      refine ⟨left.toNat, ?_, by omega, ?_, ?_⟩
      · simp only [pure, Except.pure]
        congr 1
        omega
      · intro j c hj hjp
        exact hlo j c hj (by omega)
      · intro j c hj hjp
        exact hhi j c hj (by omega)

/-- Inserting a node at a position that splits the ids keeps the children ascending. -/
theorem ascending_insert {cs : List id_tree} (hs : ascending cs) (o : id_tree) (p : Nat)
    (hlo : ∀ (j : Nat) (c : id_tree), cs[j]? = some c → j < p → c.id < o.id)
    (hhi : ∀ (j : Nat) (c : id_tree), cs[j]? = some c → p ≤ j → o.id < c.id) :
    ascending (cs.take p ++ o :: cs.drop p) := by
  have hsplit : ascending (cs.take p ++ cs.drop p) := by rw [List.take_append_drop]; exact hs
  unfold ascending at hsplit ⊢
  rw [List.pairwise_append] at hsplit ⊢
  obtain ⟨h1, h2, h3⟩ := hsplit
  have hl : ∀ a ∈ cs.take p, a.id < o.id := by
    intro a ha
    obtain ⟨j, hj⟩ := List.mem_iff_getElem?.mp ha
    rw [List.getElem?_take] at hj
    split at hj
    · rename_i hjp
      exact hlo j a hj hjp
    · cases hj
  have hr : ∀ a ∈ cs.drop p, o.id < a.id := by
    intro a ha
    obtain ⟨j, hj⟩ := List.mem_iff_getElem?.mp ha
    rw [List.getElem?_drop] at hj
    exact hhi (p + j) a hj (by omega)
  refine ⟨h1, List.pairwise_cons.mpr ⟨hr, h2⟩, ?_⟩
  intro a ha b hb
  rcases List.mem_cons.mp hb with rfl | hb
  · exact hl a ha
  · exact h3 a ha b hb

theorem toSizeT_nat (k : Nat) (h : k < 2 ^ 31) : toSizeT (k : Int) = k := by
  unfold toSizeT
  omega

/-- The member `push(id_tree&&)` on an id some child already carries: nothing changes and the index of
that child is returned. -/
theorem push_node_present {t : id_tree} (hs : ascending t.children)
    (hn : t.children.length ≤ 2 ^ 30) {o : id_tree} {k : Nat} {c : id_tree}
    (hk : t.children[k]? = some c) (hc : c.id = o.id) :
    t.push_node o = .ok (t, (k : Int)) := by
  have hlt : k < t.children.length := by
    by_contra h
    rw [List.getElem?_eq_none (by omega)] at hk
    cases hk
  unfold push_node
  rw [find_present hs hn hk hc, bind_ok, toSizeT_nat k (by omega),
    if_pos (by unfold NULL_DATA; omega)]
  have : toInt32 (k : Int) = (k : Int) := by unfold toInt32; omega
  rw [this]
  rfl

/-- The member `push(id_tree&&)` on an id no child carries: the node is inserted at the returned index,
which splits the ids of the children. -/
theorem push_node_absent {t : id_tree} (hs : ascending t.children)
    (hn : t.children.length ≤ 2 ^ 30) {o : id_tree} (hx : ∀ c ∈ t.children, c.id ≠ o.id) :
    ∃ p : Nat, p ≤ t.children.length ∧
      t.push_node o =
        .ok (mk t.id t.data (t.children.take p ++ o :: t.children.drop p), (p : Int)) ∧
      (∀ (j : Nat) (c : id_tree), t.children[j]? = some c → j < p → c.id < o.id) ∧
      (∀ (j : Nat) (c : id_tree), t.children[j]? = some c → p ≤ j → o.id < c.id) := by
  obtain ⟨p, hp, hple, hlo, hhi⟩ :=
    push_loop_spec hs hn o.id (t.children.length + 1) 0 ((t.children.length : Int) - 1)
      (by omega) (by omega) (by omega) (by push_cast; omega)
      (fun j c _ hj => by omega) (fun j c hj hlt => by
        have : j < t.children.length := by
          by_contra h
          rw [List.getElem?_eq_none (by omega)] at hj
          cases hj
        omega)
  refine ⟨p, hple, ?_, hlo, ?_⟩
  · unfold push_node
    have hnull : toSizeT NULL_IDX = NULL_DATA := by decide
    rw [find_absent hn hx, bind_ok, hnull, if_neg (fun h => h rfl), last_idx_eq hn, hp, bind_ok,
      if_pos ⟨by omega, by omega⟩]
    rfl
  · intro j c hj hpj
    have h1 := hhi j c hj hpj
    have h2 := hx c (List.getElem?_mem hj)
    omega

theorem new_ok {x : Nat} (h : x < 2 ^ 63) (d : Nat) : new x d = .ok (mk x d []) := by
  unfold new
  rw [if_neg (fun hne => hne (and_sign_bit_of_lt h))]

/-- C3. On a node whose children are strictly ascending by id (at most `2 ^ 30` of them, the
range of the `int32_t` index arithmetic) and which already has a child with id `X` (top bit
clear), `push(X, d)` returns for every `d` the node exactly as it was, so no node is created
and the number of children, the data and the subtree of the existing child are unchanged, and
the returned index is that of the existing child. -/
theorem push_existing (t : id_tree) (x d : Nat) (hs : ascending t.children)
    (hn : t.children.length ≤ 2 ^ 30) (hx : x < 2 ^ 63) (hex : ∃ c ∈ t.children, c.id = x) :
    ∃ i : Nat, t.push x d = .ok (t, (i : Int)) ∧ ∃ c, t.children[i]? = some c ∧ c.id = x := by
  obtain ⟨c, hc, hcx⟩ := hex
  obtain ⟨k, hk⟩ := List.mem_iff_getElem?.mp hc
  refine ⟨k, ?_, c, hk, hcx⟩
  unfold push
  rw [new_ok hx, bind_ok]
  exact push_node_present hs hn hk hcx

theorem push_existing_witness :
    ∃ i : Nat, (mk 0 NULL_DATA [mk 3 7 [], mk 5 8 [mk 1 1 []]]).push 5 99 =
        .ok (mk 0 NULL_DATA [mk 3 7 [], mk 5 8 [mk 1 1 []]], (i : Int)) ∧
      ∃ c, (mk 0 NULL_DATA [mk 3 7 [], mk 5 8 [mk 1 1 []]]).children[i]? = some c ∧ c.id = 5 :=
  push_existing (mk 0 NULL_DATA [mk 3 7 [], mk 5 8 [mk 1 1 []]]) 5 99 (by decide) (by decide)
    (by decide) ⟨mk 5 8 [mk 1 1 []], by decide, rfl⟩

theorem children_mk (i d : Nat) (cs : List id_tree) : (mk i d cs).children = cs := rfl

theorem get_child_ok {t : id_tree} {i : Int} {c : id_tree} (h : t.get_child i = .ok c) :
    0 ≤ i ∧ t.children[i.toNat]? = some c := by
  unfold get_child at h
  by_cases hv : t.valid_idx i = true
  · rw [if_pos hv] at h
    unfold valid_idx at hv
    simp only [Bool.and_eq_true, decide_eq_true_eq] at hv
    refine ⟨hv.1, ?_⟩
    cases hget : t.children[i.toNat]? with
    | none => rw [hget] at h; cases h
    | some c2 => rw [hget] at h; cases h; rfl
  · rw [if_neg hv] at h
    cases h

/-- What `push(id_tree&&)` can return: the node as it was, or the node with `other` inserted
somewhere among its children. -/
theorem push_node_shape {t o : id_tree} {r : id_tree × Int} (h : t.push_node o = .ok r) :
    r.1 = t ∨ ∃ p : Nat, r.1 = mk t.id t.data (t.children.take p ++ o :: t.children.drop p) := by
  unfold push_node at h
  cases hf : t.find o.id with
  | error e => rw [hf, bind_error] at h; cases h
  | ok found =>
    rw [hf, bind_ok] at h
    by_cases hi : toSizeT found ≠ NULL_DATA
    · rw [if_pos hi] at h
      cases h
      exact Or.inl rfl
    · rw [if_neg hi] at h
      cases hl : push_loop t.children o.id (t.children.length + 1) 0 (last_idx t.children) with
      | error e => rw [hl, bind_error] at h; cases h
      | ok left =>
        rw [hl, bind_ok] at h
        by_cases hb : 0 ≤ left ∧ left ≤ (t.children.length : Int)
        · rw [if_pos hb] at h
          cases h
          exact Or.inr ⟨left.toNat, rfl⟩
        · rw [if_neg hb] at h
          cases h

theorem push_shape {t : id_tree} {x d : Nat} {r : id_tree × Int} (h : t.push x d = .ok r) :
    x &&& SIGN_BIT = 0 ∧ t.push_node (mk x d []) = .ok r := by
  unfold push new at h
  by_cases hx : x &&& SIGN_BIT ≠ 0
  · rw [if_pos hx, bind_error] at h; cases h
  · rw [if_neg hx, bind_ok] at h
    exact ⟨not_not.mp hx, h⟩

theorem ascending_set {cs : List id_tree} (hs : ascending cs) {i : Nat} {c c2 : id_tree}
    (hi : cs[i]? = some c) (hid : c2.id = c.id) : ascending (cs.set i c2) := by
  unfold ascending at hs ⊢
  have h1 : (cs.set i c2).map id = cs.map id := by
    rw [List.map_set, hid]
    apply List.ext_getElem?
    intro j
    rw [List.getElem?_set]
    split
    · rename_i hij
      subst hij
      split
      · rw [List.getElem?_map, hi]; rfl
      · rename_i hlt
        rw [List.getElem?_eq_none (by simpa using hlt)]
    · rfl
  have h2 := (List.pairwise_map (f := id) (R := fun a b => a < b) (l := cs)).mpr hs
  rw [← h1] at h2
  exact List.pairwise_map.mp h2

/-- One `push` call at any depth keeps every child list ascending, adds at most one child
to any node, and leaves the id of the root alone. -/
theorem push_at_sorted {k : Nat} (hk : k ≤ 2 ^ 30) :
    ∀ (path : List Int) (t : id_tree) (x d : Nat) (r : id_tree × Int),
      every_node (node_sorted k) t → t.push_at path x d = .ok r →
      every_node (node_sorted (k + 1)) r.1 ∧ r.1.id = t.id := by
  have hmono : ∀ t, every_node (node_sorted k) t → every_node (node_sorted (k + 1)) t :=
    every_node_mono (fun n hn => ⟨hn.1, Nat.le_succ_of_le hn.2⟩)
  intro path
  induction path with
  | nil =>
    intro t x d r ht h
    rw [push_at] at h
    obtain ⟨_, h⟩ := push_shape h
    have ht0 := ht
    rw [every_node_iff] at ht
    obtain ⟨⟨hs, hlen⟩, hch⟩ := ht
    by_cases hex : ∃ c ∈ t.children, c.id = x
    · obtain ⟨c, hc, hcx⟩ := hex
      obtain ⟨j, hj⟩ := List.mem_iff_getElem?.mp hc
      rw [push_node_present hs (by omega) hj (by exact hcx)] at h
      cases h
      exact ⟨hmono t ht0, rfl⟩
    · have hx : ∀ c ∈ t.children, c.id ≠ (mk x d []).id := fun c hc hcx => hex ⟨c, hc, hcx⟩
      obtain ⟨p, hp, heq, hlo, hhi⟩ := push_node_absent hs (by omega) hx
      rw [heq] at h
      cases h
      refine ⟨?_, rfl⟩
      rw [every_node_iff]
      refine ⟨⟨ascending_insert hs _ p hlo hhi, ?_⟩, ?_⟩
      · simp only [children_mk, List.length_append, List.length_cons, List.length_take,
          List.length_drop]
        omega
      · intro c hc
        simp only [children_mk, List.mem_append, List.mem_cons] at hc
        rcases hc with hc | rfl | hc
        · exact hmono c (hch c (List.mem_of_mem_take hc))
        · rw [every_node_iff]
          exact ⟨⟨List.Pairwise.nil, Nat.zero_le _⟩, fun c hc => by cases hc⟩
        · exact hmono c (hch c (List.mem_of_mem_drop hc))
  | cons i path ih =>
    intro t x d r ht h
    rw [push_at] at h
    cases hg : t.get_child i with
    | error e => rw [hg, bind_error] at h; cases h
    | ok c =>
      rw [hg, bind_ok] at h
      cases hr : c.push_at path x d with
      | error e => rw [hr, bind_error] at h; cases h
      | ok r2 =>
        rw [hr, bind_ok] at h
        cases h
        obtain ⟨_, hci⟩ := get_child_ok hg
        rw [every_node_iff] at ht
        obtain ⟨⟨hs, hlen⟩, hch⟩ := ht
        obtain ⟨h1, h2⟩ := ih c x d r2 (hch c (List.getElem?_mem hci)) hr
        refine ⟨?_, rfl⟩
        rw [every_node_iff]
        refine ⟨⟨ascending_set hs hci h2, ?_⟩, ?_⟩
        · simp only [children_mk, List.length_set]
          omega
        · intro c2 hc2
          rw [children_mk] at hc2
          rcases List.mem_or_eq_of_mem_set hc2 with hc2 | rfl
          · exact hmono c2 (hch c2 hc2)
          · exact h1

theorem get_child_cases (t : id_tree) (i : Int) :
    (∃ c, t.get_child i = .ok c) ∨ t.get_child i = .error .invalid_index := by
  unfold get_child
  by_cases hv : t.valid_idx i = true
  · rw [if_pos hv]
    unfold valid_idx at hv
    simp only [Bool.and_eq_true, decide_eq_true_eq] at hv
    have hlt : i.toNat < t.children.length := by omega
    rw [List.getElem?_eq_getElem hlt]
    exact Or.inl ⟨_, rfl⟩
  · rw [if_neg hv]
    exact Or.inr rfl

/-- One `push` call at any depth returns, or throws one of the two exceptions of the
source; it never runs into undefined behaviour nor out of budget. -/
theorem push_at_defined {k : Nat} (hk : k ≤ 2 ^ 30) :
    ∀ (path : List Int) (t : id_tree) (x d : Nat), every_node (node_sorted k) t →
      (∃ r, t.push_at path x d = .ok r) ∨ t.push_at path x d = .error .id_negative ∨
        t.push_at path x d = .error .invalid_index := by
  intro path
  induction path with
  | nil =>
    intro t x d ht
    rw [every_node_iff] at ht
    obtain ⟨⟨hs, hlen⟩, _⟩ := ht
    rw [push_at]
    unfold push new
    by_cases hx : x &&& SIGN_BIT ≠ 0
    · rw [if_pos hx, bind_error]
      exact Or.inr (Or.inl rfl)
    · rw [if_neg hx, bind_ok]
      left
      by_cases hex : ∃ c ∈ t.children, c.id = x
      · obtain ⟨c, hc, hcx⟩ := hex
        obtain ⟨j, hj⟩ := List.mem_iff_getElem?.mp hc
        exact ⟨_, push_node_present hs (by omega) hj (by exact hcx)⟩
      · have hno : ∀ c ∈ t.children, c.id ≠ (mk x d []).id := fun c hc hcx => hex ⟨c, hc, hcx⟩
        obtain ⟨p, _, heq, _, _⟩ := push_node_absent hs (by omega) hno
        exact ⟨_, heq⟩
  | cons i path ih =>
    intro t x d ht
    rw [push_at]
    rcases get_child_cases t i with ⟨c, hg⟩ | hg
    · rw [hg, bind_ok]
      obtain ⟨_, hci⟩ := get_child_ok hg
      rw [every_node_iff] at ht
      rcases ih c x d (ht.2 c (List.getElem?_mem hci)) with ⟨r, hr⟩ | hr | hr
      · rw [hr, bind_ok]
        exact Or.inl ⟨_, rfl⟩
      · rw [hr, bind_error]
        exact Or.inr (Or.inl rfl)
      · rw [hr, bind_error]
        exact Or.inr (Or.inr rfl)
    · rw [hg, bind_error]
      exact Or.inr (Or.inr rfl)

/-- One step of a sequence of `push` calls on a tree that satisfies the invariant. -/
theorem push_all_cons {k : Nat} (hk : k ≤ 2 ^ 30) (t : id_tree) (c : push_call)
    (cs : List push_call) (ht : every_node (node_sorted k) t) :
    (∃ r, t.push_at c.path c.id c.data = .ok r ∧ push_all t (c :: cs) = push_all r.1 cs) ∨
      ((∀ r, t.push_at c.path c.id c.data ≠ .ok r) ∧ push_all t (c :: cs) = push_all t cs) := by
  rw [push_all]
  rcases push_at_defined hk c.path t c.id c.data ht with ⟨r, hr⟩ | hr | hr
  · exact Or.inl ⟨r, hr, by rw [hr]⟩
  · exact Or.inr ⟨fun r h => (by rw [hr] at h; cases h), (by rw [hr])⟩
  · exact Or.inr ⟨fun r h => (by rw [hr] at h; cases h), (by rw [hr])⟩

theorem push_all_sorted :
    ∀ (calls : List push_call) (k : Nat) (t : id_tree), k + calls.length ≤ 2 ^ 30 →
      every_node (node_sorted k) t →
      ∃ t2, push_all t calls = .ok t2 ∧ every_node (node_sorted (k + calls.length)) t2 := by
  intro calls
  induction calls with
  | nil => intro k t _ ht; exact ⟨t, rfl, ht⟩
  | cons c cs ih =>
    intro k t hk ht
    simp only [List.length_cons] at hk
    have hk1 : k + (c :: cs).length = (k + 1) + cs.length := by simp only [List.length_cons]; omega
    rw [hk1]
    rcases push_all_cons (by omega) t c cs ht with ⟨r, hr, he⟩ | ⟨_, he⟩
    · rw [he]
      exact ih (k + 1) r.1 (by omega) (push_at_sorted (by omega) c.path t c.id c.data r ht hr).1
    · rw [he]
      exact ih (k + 1) t (by omega)
        (every_node_mono (fun n hn => ⟨hn.1, Nat.le_succ_of_le hn.2⟩) t ht)

/-- C2. Any sequence of `push` calls (at any depth, at most `2 ^ 30` of them, the range of
the `int32_t` index arithmetic) that starts from a node with no children runs to its end,
and in the tree it leaves the children of every node are strictly ascending by id: sorted,
with no two siblings of the same id. -/
theorem push_all_ascending (i d : Nat) (calls : List push_call) (h : calls.length ≤ 2 ^ 30) :
    ∃ t, push_all (mk i d []) calls = .ok t ∧
      every_node (fun n => n.children.Pairwise (fun a b => a.id < b.id)) t := by
  have h0 : every_node (node_sorted 0) (mk i d []) := by
    rw [every_node_iff]
    exact ⟨⟨List.Pairwise.nil, Nat.le_refl _⟩, fun c hc => by cases hc⟩
  obtain ⟨t, ht, hinv⟩ := push_all_sorted calls 0 (mk i d []) (by omega) h0
  exact ⟨t, ht, every_node_mono (fun n hn => hn.1) _ hinv⟩

theorem push_all_ascending_witness :
    ∃ t, push_all (mk 0 NULL_DATA [])
        [⟨[], 5, 50⟩, ⟨[], 3, NULL_DATA⟩, ⟨[0], 7, 2⟩, ⟨[], 5, 9⟩] = .ok t ∧
      every_node (fun n => n.children.Pairwise (fun a b => a.id < b.id)) t :=
  push_all_ascending 0 NULL_DATA [⟨[], 5, 50⟩, ⟨[], 3, NULL_DATA⟩, ⟨[0], 7, 2⟩, ⟨[], 5, 9⟩]
    (by decide)

theorem read_word_at (pre : List Nat) (w : Nat) (post : List Nat) :
    read_word (pre ++ w :: post) pre.length = .ok w := by
  unfold read_word
  rw [List.getElem?_append_right (Nat.le_refl _)]
  simp

theorem read_word_at1 (pre : List Nat) (a w : Nat) (post : List Nat) :
    read_word (pre ++ a :: w :: post) (pre.length + 1) = .ok w := by
  have := read_word_at (pre ++ [a]) w post
  simpa using this

theorem read_word_at2 (pre : List Nat) (a b w : Nat) (post : List Nat) :
    read_word (pre ++ a :: b :: w :: post) (pre.length + 1 + 1) = .ok w := by
  have := read_word_at (pre ++ [a, b]) w post
  simpa using this

theorem serialize_mk (i d : Nat) (cs : List id_tree) :
    serialize (mk i d cs) =
      (if d ≠ NULL_DATA then [i ||| SIGN_BIT, d] else [i]) ++ [cs.length] ++
        serialize_children cs := by
  rw [serialize]

/-- The child loop of `parse` reads back a serialized forest, given that the recursive call
reads back each of its trees. -/
theorem parse_children_serialized (words : List Nat) (P : Nat → Except Err (Option id_tree × Nat))
    (begin : Nat) :
    ∀ (todo : List id_tree) (total : Nat) (acc : List id_tree) (pre post : List Nat),
      (∀ c ∈ todo, ∀ pre2 post2 : List Nat, words = pre2 ++ (serialize c ++ post2) →
        P pre2.length = .ok (some c, (serialize c).length)) →
      words = pre ++ (serialize_children todo ++ post) → pre.length = begin + total →
      parse_children P begin todo.length total acc =
        .ok (some (acc ++ todo), total + (serialize_children todo).length) := by
  intro todo
  induction todo with
  | nil =>
    intro total acc pre post _ _ _
    simp [parse_children, serialize_children, pure, Except.pure]
  | cons c cs ih =>
    intro total acc pre post hP hw hlen
    rw [List.length_cons, parse_children]
    rw [serialize_children, List.append_assoc] at hw
    rw [← hlen, hP c (List.mem_cons_self _ _) pre _ hw, bind_ok]
    simp only []
    have := ih (total + (serialize c).length) (acc ++ [c]) (pre ++ serialize c) post
      (fun c2 hc2 => hP c2 (List.mem_cons_of_mem _ hc2))
      (by rw [hw, List.append_assoc]) (by rw [List.length_append, hlen]; omega)
    rw [this, serialize_children, List.length_append]
    simp [Nat.add_assoc]

theorem sort_children_ascending {cs : List id_tree} (h : ascending cs) : sort_children cs = cs := by
  unfold sort_children
  apply List.Sorted.insertionSort_eq
  exact List.Pairwise.imp (fun hab => Nat.le_of_lt hab) h

/-- The `parse` lambda reads back a serialized canonical tree wherever it sits in the array,
consuming exactly its words. -/
theorem parse_serialize (t : id_tree) :
    every_node node_canonical t → ∀ (fuel : Nat) (pre post : List Nat),
      (serialize t).length ≤ fuel →
      parse (pre ++ (serialize t ++ post)) fuel pre.length = .ok (some t, (serialize t).length) := by
  induction t using induct with
  | step t ih =>
    intro ht fuel pre post hfuel
    rw [every_node_iff] at ht
    obtain ⟨⟨hs, hid⟩, hch⟩ := ht
    cases t with
    | mk i d cs =>
    rw [children_mk] at hs hch ih
    change i < 2 ^ 63 at hid
    rw [serialize_mk] at hfuel ⊢
    cases fuel with
    | zero => simp at hfuel
    | succ fuel =>
    have hsub : ∀ c ∈ cs, (serialize c).length ≤ (serialize_children cs).length := by
      intro c hc
      clear ih hch hs hfuel
      induction cs with
      | nil => cases hc
      | cons a as iha =>
        rw [serialize_children, List.length_append]
        rcases List.mem_cons.mp hc with rfl | hc
        · omega
        · have := iha hc; omega
    have hP : ∀ words : List Nat, ∀ c ∈ cs, ∀ pre2 post2 : List Nat,
        words = pre2 ++ (serialize c ++ post2) →
        parse words fuel pre2.length = .ok (some c, (serialize c).length) := by
      intro words c hc pre2 post2 hw
      rw [hw]
      refine ih c hc (hch c hc) fuel pre2 post2 ?_
      have := hsub c hc
      simp only [List.length_append] at hfuel
      split at hfuel <;> simp at hfuel <;> omega
    rw [parse]
    by_cases hd : d ≠ NULL_DATA
    · simp only [if_pos hd, List.append_assoc, List.cons_append, List.nil_append] at hfuel ⊢
      rw [if_neg (by simp), read_word_at, bind_ok]
      unfold parse_header
      simp only []
      rw [if_pos or_sign_bit_flag, if_neg (by simp; omega), read_word_at1, bind_ok, read_word_at2,
        bind_ok]
      simp only [pure, Except.pure, bind_ok]
      have := parse_children_serialized (pre ++ (i ||| SIGN_BIT) :: d :: cs.length :: (serialize_children cs ++ post))
        (parse (pre ++ (i ||| SIGN_BIT) :: d :: cs.length :: (serialize_children cs ++ post)) fuel)
        pre.length cs 3 [] (pre ++ [i ||| SIGN_BIT, d, cs.length]) post (hP _) (by simp) (by simp)
      have h3 : pre.length + 1 + 2 - pre.length = 3 := by omega
      rw [h3, this, bind_ok]
      simp only [List.nil_append]
      rw [or_sign_bit_strip hid, sort_children_ascending hs]
      simp only [List.length_cons, Except.ok.injEq, Prod.mk.injEq, true_and]
      omega
    · simp only [if_neg hd, List.append_assoc, List.cons_append, List.nil_append] at hfuel ⊢
      rw [if_neg (by simp), read_word_at, bind_ok]
      unfold parse_header
      simp only []
      rw [if_neg (by rw [and_sign_bit_of_lt hid]; simp), if_neg (by simp), read_word_at1, bind_ok]
      simp only [pure, Except.pure, bind_ok]
      have := parse_children_serialized (pre ++ i :: cs.length :: (serialize_children cs ++ post))
        (parse (pre ++ i :: cs.length :: (serialize_children cs ++ post)) fuel)
        pre.length cs 2 [] (pre ++ [i, cs.length]) post (hP _) (by simp) (by simp)
      have h3 : pre.length + 1 + 1 - pre.length = 2 := by omega
      rw [h3, this, bind_ok]
      simp only [List.nil_append]
      rw [and_not_sign_bit hid, sort_children_ascending hs]
      have hd2 : d = NULL_DATA := not_not.mp hd
      simp only [List.length_cons, Except.ok.injEq, Prod.mk.injEq, hd2, true_and]
      omega

/-- The function `deserialize` reads back the serialization of a canonical tree. -/
theorem deserialize_serialize_canonical (t : id_tree) (ht : every_node node_canonical t) :
    deserialize (serialize t) = .ok (some t) := by
  unfold deserialize
  have := parse_serialize t ht ((serialize t).length + 1) [] [] (by omega)
  simp only [List.nil_append, List.append_nil, List.length_nil] at this
  rw [this, bind_ok]
  simp [pure, Except.pure]

theorem every_node_and {p q : id_tree → Prop} (t : id_tree) :
    every_node p t → every_node q t → every_node (fun n => p n ∧ q n) t := by
  induction t using induct with
  | step t ih =>
    intro hp hq
    rw [every_node_iff] at hp hq ⊢
    exact ⟨⟨hp.1, hq.1⟩, fun c hc => ih c hc (hp.2 c hc) (hq.2 c hc)⟩

/-- One `push` call at any depth with a `size_t` id keeps the top bit of every id clear. -/
theorem push_at_id_bound :
    ∀ (path : List Int) (t : id_tree) (x d : Nat) (r : id_tree × Int), x < 2 ^ 64 →
      every_node (fun n => n.id < 2 ^ 63) t → t.push_at path x d = .ok r →
      every_node (fun n => n.id < 2 ^ 63) r.1 ∧ r.1.id = t.id := by
  intro path
  induction path with
  | nil =>
    intro t x d r hx ht h
    rw [push_at] at h
    obtain ⟨hbit, h⟩ := push_shape h
    rcases push_node_shape h with he | ⟨p, he⟩
    · rw [he]; exact ⟨ht, rfl⟩
    · rw [he]
      refine ⟨?_, rfl⟩
      rw [every_node_iff] at ht ⊢
      refine ⟨ht.1, ?_⟩
      intro c hc
      simp only [children_mk, List.mem_append, List.mem_cons] at hc
      rcases hc with hc | rfl | hc
      · exact ht.2 c (List.mem_of_mem_take hc)
      · rw [every_node_iff]
        exact ⟨lt_of_and_sign_bit hx hbit, fun c hc => by cases hc⟩
      · exact ht.2 c (List.mem_of_mem_drop hc)
  | cons i path ih =>
    intro t x d r hx ht h
    rw [push_at] at h
    cases hg : t.get_child i with
    | error e => rw [hg, bind_error] at h; cases h
    | ok c =>
      rw [hg, bind_ok] at h
      cases hr : c.push_at path x d with
      | error e => rw [hr, bind_error] at h; cases h
      | ok r2 =>
        rw [hr, bind_ok] at h
        cases h
        obtain ⟨_, hci⟩ := get_child_ok hg
        rw [every_node_iff] at ht
        obtain ⟨h1, _⟩ := ih c x d r2 hx (ht.2 c (List.getElem?_mem hci)) hr
        refine ⟨?_, rfl⟩
        rw [every_node_iff]
        refine ⟨ht.1, ?_⟩
        intro c2 hc2
        rw [children_mk] at hc2
        rcases List.mem_or_eq_of_mem_set hc2 with hc2 | rfl
        · exact ht.2 c2 hc2
        · exact h1

theorem push_all_id_bound :
    ∀ (calls : List push_call) (t t2 : id_tree), (∀ c ∈ calls, c.id < 2 ^ 64) →
      every_node (fun n => n.id < 2 ^ 63) t → push_all t calls = .ok t2 →
      every_node (fun n => n.id < 2 ^ 63) t2 := by
  intro calls
  induction calls with
  | nil =>
    intro t t2 _ ht h
    cases h
    exact ht
  | cons c cs ih =>
    intro t t2 hc ht h
    have hcs : ∀ c2 ∈ cs, c2.id < 2 ^ 64 := fun c2 hc2 => hc c2 (List.mem_cons_of_mem _ hc2)
    rw [push_all] at h
    cases hp : t.push_at c.path c.id c.data with
    | ok r =>
      rw [hp] at h
      exact ih r.1 t2 hcs
        (push_at_id_bound c.path t c.id c.data r (hc c (List.mem_cons_self _ _)) ht hp).1 h
    | error e =>
      rw [hp] at h
      cases e <;> first | exact ih t t2 hcs ht h | cases h

/-- C1. Let a tree be built from an empty node (id with the top bit clear) by any sequence
of `push` calls at any depth (`size_t` ids; at most `2 ^ 30` calls, the range of the
`int32_t` index arithmetic). The sequence runs to its end, and `deserialize` applied to
the words `serialize` produces for the tree succeeds and returns the very same tree: same
ids, same data, same children in the same ascending order, recursively. -/
theorem serialize_deserialize_roundtrip (i d : Nat) (calls : List push_call) (hi : i < 2 ^ 63)
    (hcalls : ∀ c ∈ calls, c.id < 2 ^ 64) (hlen : calls.length ≤ 2 ^ 30) :
    ∃ t, push_all (mk i d []) calls = .ok t ∧ deserialize (serialize t) = .ok (some t) := by
  have h0 : every_node (node_sorted 0) (mk i d []) := by
    rw [every_node_iff]
    exact ⟨⟨List.Pairwise.nil, Nat.le_refl _⟩, fun c hc => by cases hc⟩
  have h1 : every_node (fun n => n.id < 2 ^ 63) (mk i d []) := by
    rw [every_node_iff]
    exact ⟨hi, fun c hc => by cases hc⟩
  obtain ⟨t, ht, h2⟩ := push_all_sorted calls 0 (mk i d []) (by omega) h0
  have h3 := push_all_id_bound calls (mk i d []) t hcalls h1 ht
  refine ⟨t, ht, ?_⟩
  apply deserialize_serialize_canonical
  exact every_node_mono (fun n hn => ⟨hn.1.1, hn.2⟩) _ (every_node_and _ h2 h3)

theorem serialize_deserialize_roundtrip_witness :
    ∃ t, push_all (mk 0 NULL_DATA [])
        [⟨[], 5, 50⟩, ⟨[], 3, NULL_DATA⟩, ⟨[0], 7, 2⟩, ⟨[], 5, 9⟩] = .ok t ∧
      deserialize (serialize t) = .ok (some t) :=
  serialize_deserialize_roundtrip 0 NULL_DATA
    [⟨[], 5, 50⟩, ⟨[], 3, NULL_DATA⟩, ⟨[0], 7, 2⟩, ⟨[], 5, 9⟩] (by decide) (by decide) (by decide)

theorem child_with_id_some {t : id_tree} {x : Nat} {c : id_tree} (h : t.child_with_id x = some c) :
    c ∈ t.children ∧ c.id = x := by
  unfold child_with_id at h
  refine ⟨List.mem_of_find?_eq_some h, ?_⟩
  have := List.find?_some h
  simpa using this

theorem child_with_id_none {t : id_tree} {x : Nat} (h : t.child_with_id x = none) :
    ∀ c ∈ t.children, c.id ≠ x := by
  unfold child_with_id at h
  intro c hc
  have := List.find?_eq_none.mp h c hc
  simpa using this

theorem get_child_of_getElem {t : id_tree} {j : Nat} {c : id_tree} (h : t.children[j]? = some c) :
    t.get_child (j : Int) = .ok c := by
  have hlt : j < t.children.length := by
    by_contra hge
    rw [List.getElem?_eq_none (by omega)] at h
    cases h
  unfold get_child valid_idx
  rw [if_pos (by simp [hlt])]
  simp [h]

theorem nat_ne_null (j : Nat) : ¬ ((j : Int) = NULL_IDX) := by
  unfold NULL_IDX
  omega

/-- One level of the descent: the search finds the child that carries the id. -/
theorem find_child_with_id {t : id_tree} (hs : node_sorted (2 ^ 30) t) {x : Nat} {c : id_tree}
    (h : t.child_with_id x = some c) :
    ∃ j : Nat, t.find x = .ok (j : Int) ∧ t.children[j]? = some c ∧ c.id = x := by
  obtain ⟨hc, hx⟩ := child_with_id_some h
  obtain ⟨j, hj⟩ := List.mem_iff_getElem?.mp hc
  exact ⟨j, find_present hs.1 hs.2 hj hx, hj, hx⟩

/-- The path loop gives up as soon as one level has no child with the wanted id. -/
theorem find_path_loop_fails :
    ∀ (rest : List Nat) (child : id_tree) (idx0 : Int) (k : Nat) (n : id_tree)
      (hk : k < rest.length), every_node (node_sorted (2 ^ 30)) child →
      descend child (rest.take k) = some n → (∀ c ∈ n.children, c.id ≠ rest[k]) →
      find_path_loop child rest idx0 = .ok NULL_IDX := by
  intro rest
  induction rest with
  | nil => intro child idx0 k n hk; simp at hk
  | cons x rest ih =>
    intro child idx0 k n hk hinv hd hno
    rw [every_node_iff] at hinv
    rw [find_path_loop]
    cases k with
    | zero =>
      simp only [List.take_zero, descend, Option.some.injEq] at hd
      subst hd
      simp only [List.getElem_cons_zero] at hno
      rw [find_absent hinv.1.2 hno, bind_ok, if_pos rfl]
      rfl
    | succ k =>
      simp only [List.take_succ_cons, descend] at hd
      cases hc : child.child_with_id x with
      | none => rw [hc] at hd; cases hd
      | some c =>
        rw [hc] at hd
        simp only [] at hd
        obtain ⟨j, hf, hj, _⟩ := find_child_with_id hinv.1 hc
        have hne : rest ≠ [] := by
          intro he
          rw [he] at hk
          simp at hk
        rw [hf, bind_ok, if_neg (nat_ne_null j), if_neg hne, get_child_of_getElem hj, bind_ok]
        simp only [List.getElem_cons_succ] at hno
        exact ih c j k n (by simpa using hk) (hinv.2 c (List.getElem?_mem hj)) hd hno

/-- The path loop, when every level matches, returns the index of the last match among the
children of the node reached by the ids before the last. -/
theorem find_path_loop_matches :
    ∀ (rest : List Nat) (child : id_tree) (idx0 : Int) (leaf : id_tree) (hne : rest ≠ []),
      every_node (node_sorted (2 ^ 30)) child → descend child rest = some leaf →
      ∃ (i : Nat) (parent c : id_tree), find_path_loop child rest idx0 = .ok (i : Int) ∧
        descend child rest.dropLast = some parent ∧ parent.children[i]? = some c ∧
        c.id = rest.getLast hne := by
  intro rest
  induction rest with
  | nil => intro child idx0 leaf hne; exact absurd rfl hne
  | cons x rest ih =>
    intro child idx0 leaf hne hinv hd
    rw [every_node_iff] at hinv
    rw [find_path_loop]
    simp only [descend] at hd
    cases hc : child.child_with_id x with
    | none => rw [hc] at hd; cases hd
    | some c =>
      rw [hc] at hd
      simp only [] at hd
      obtain ⟨j, hf, hj, hx⟩ := find_child_with_id hinv.1 hc
      rw [hf, bind_ok, if_neg (nat_ne_null j)]
      by_cases hr : rest = []
      · subst hr
        rw [if_pos rfl]
        exact ⟨j, child, c, rfl, rfl, hj, by simpa using hx⟩
      · rw [if_neg hr, get_child_of_getElem hj, bind_ok]
        obtain ⟨i, parent, c2, h1, h2, h3, h4⟩ :=
          ih c j leaf hr (hinv.2 c (List.getElem?_mem hj)) hd
        refine ⟨i, parent, c2, h1, ?_, h3, ?_⟩
        · rw [List.dropLast_cons_of_ne_nil hr]
          simp only [descend, hc]
          exact h2
        · rw [List.getLast_cons hr]
          exact h4

/-- On a node with ascending children the template `find` is its loop started one id
earlier. -/
theorem find_path_eq_loop {t : id_tree} (hs : node_sorted (2 ^ 30) t) (x : Nat) (rest : List Nat)
    (idx0 : Int) : t.find_path (x :: rest) = find_path_loop t (x :: rest) idx0 := by
  rw [find_path, find_path_loop]
  by_cases hex : ∃ c ∈ t.children, c.id = x
  · obtain ⟨c, hc, hcx⟩ := hex
    obtain ⟨j, hj⟩ := List.mem_iff_getElem?.mp hc
    rw [find_present hs.1 hs.2 hj hcx, bind_ok, bind_ok, if_neg (nat_ne_null j),
      if_neg (nat_ne_null j), get_child_of_getElem hj, bind_ok]
    by_cases hr : rest = []
    · subst hr
      rw [if_pos rfl, find_path_loop]
    · rw [if_neg hr]
  · have hx : ∀ c ∈ t.children, c.id ≠ x := fun c hc hcx => hex ⟨c, hc, hcx⟩
    rw [find_absent hs.2 hx, bind_ok, bind_ok, if_pos rfl, if_pos rfl]


/-- C5. In a tree whose nodes all have strictly ascending children (at most `2 ^ 30` per
node, the range of the `int32_t` index arithmetic), for a non-empty id sequence `ids` and a
level `k`: when the node reached by descending `ids[0..k-1]` has no child with id `ids[k]`,
the path `find(ids)` returns `NULL_IDX` (not found), never an index of a partial match. -/
theorem find_path_fails (t : id_tree) (ids : List Nat) (k : Nat) (n : id_tree)
    (hk : k < ids.length) (ht : every_node (node_sorted (2 ^ 30)) t)
    (hd : descend t (ids.take k) = some n) (hno : ∀ c ∈ n.children, c.id ≠ ids[k]) :
    t.find_path ids = .ok NULL_IDX := by
  cases ids with
  | nil => simp at hk
  | cons x rest =>
    rw [find_path_eq_loop ((every_node_iff _ _).mp ht).1 x rest 0]
    exact find_path_loop_fails (x :: rest) t 0 k n hk ht hd hno

theorem find_path_fails_witness :
    (mk 0 NULL_DATA [mk 1 NULL_DATA [mk 2 2 []], mk 4 NULL_DATA [mk 3 3 []]]).find_path [1, 3] =
      .ok NULL_IDX :=
  find_path_fails (mk 0 NULL_DATA [mk 1 NULL_DATA [mk 2 2 []], mk 4 NULL_DATA [mk 3 3 []]])
    [1, 3] 1 (mk 1 NULL_DATA [mk 2 2 []]) (by decide)
    (by simp [every_node, every_node_list, node_sorted, ascending, children, id])
    (by decide) (by decide)

/-- C6. In a tree whose nodes all have strictly ascending children (at most `2 ^ 30` per
node), for a non-empty id sequence `ids` that matches at every level, the path `find(ids)`
returns the index `i` at which the node reached by descending `ids` without its last
element has a child with id equal to the last element of `ids`; for a one-element sequence
the result is that of the single-level `find` on the root. -/
theorem find_path_matches (t : id_tree) (ids : List Nat) (leaf : id_tree) (hne : ids ≠ [])
    (ht : every_node (node_sorted (2 ^ 30)) t) (hd : descend t ids = some leaf) :
    (∃ (i : Nat) (parent c : id_tree), t.find_path ids = .ok (i : Int) ∧
      descend t ids.dropLast = some parent ∧ parent.children[i]? = some c ∧
      c.id = ids.getLast hne) ∧
    (∀ x, ids = [x] → t.find_path ids = t.find x) := by
  cases ids with
  | nil => exact absurd rfl hne
  | cons x rest =>
    have hs := ((every_node_iff _ _).mp ht).1
    constructor
    · rw [find_path_eq_loop hs x rest 0]
      exact find_path_loop_matches (x :: rest) t 0 leaf hne ht hd
    · intro y hy
      simp only [List.cons.injEq] at hy
      obtain ⟨rfl, rfl⟩ := hy
      simp only [descend] at hd
      cases hc : t.child_with_id x with
      | none => rw [hc] at hd; cases hd
      | some c =>
        obtain ⟨j, hf, hj, _⟩ := find_child_with_id hs hc
        rw [find_path, hf, bind_ok, if_neg (nat_ne_null j), get_child_of_getElem hj, bind_ok,
          find_path_loop]
        rfl

theorem find_path_matches_witness :
    (∃ (i : Nat) (parent c : id_tree),
      (mk 0 NULL_DATA [mk 1 NULL_DATA [mk 2 2 []], mk 4 NULL_DATA [mk 3 3 []]]).find_path [4, 3] =
        .ok (i : Int) ∧
      descend (mk 0 NULL_DATA [mk 1 NULL_DATA [mk 2 2 []], mk 4 NULL_DATA [mk 3 3 []]])
        [4, 3].dropLast = some parent ∧
      parent.children[i]? = some c ∧ c.id = [4, 3].getLast (by decide)) ∧
    (∀ x, [4, 3] = [x] →
      (mk 0 NULL_DATA [mk 1 NULL_DATA [mk 2 2 []], mk 4 NULL_DATA [mk 3 3 []]]).find_path [4, 3] =
        (mk 0 NULL_DATA [mk 1 NULL_DATA [mk 2 2 []], mk 4 NULL_DATA [mk 3 3 []]]).find x) :=
  find_path_matches (mk 0 NULL_DATA [mk 1 NULL_DATA [mk 2 2 []], mk 4 NULL_DATA [mk 3 3 []]])
    [4, 3] (mk 3 3 []) (by decide)
    (by simp [every_node, every_node_list, node_sorted, ascending, children, id])
    (by decide)

end id_tree

namespace path_part_collection

/-! ## Splitting of paths -/

/-- More budget than one iteration per character changes nothing. -/
theorem enumerate_loop_fuel {σ : Type} (func : σ → List Char → Except Err σ) :
    ∀ (fuel : Nat) (rest : List Char) (s : σ), rest.length < fuel →
      enumerate_loop func fuel rest s = enumerate_rest func rest s := by
  intro fuel
  induction fuel using Nat.strong_induction_on with
  | _ fuel ih =>
    intro rest s hlt
    unfold enumerate_rest
    cases fuel with
    | zero => omega
    | succ fuel =>
      rw [enumerate_loop, enumerate_loop]
      by_cases hr : rest = []
      · rw [if_pos hr, if_pos hr]
      · rw [if_neg hr, if_neg hr]
        have hlen : ((rest.dropWhile is_path_separator).dropWhile
            (fun c => !is_path_separator c)).length < rest.length := by
          cases rest with
          | nil => exact absurd rfl hr
          | cons a as =>
            by_cases ha : is_path_separator a = true
            · rw [List.dropWhile_cons_of_pos ha]
              have h1 := (List.dropWhile_sublist (fun c => !is_path_separator c)
                (l := as.dropWhile is_path_separator)).length_le
              have h2 := (List.dropWhile_sublist is_path_separator (l := as)).length_le
              simp only [List.length_cons]
              omega
            · rw [List.dropWhile_cons_of_neg ha,
                List.dropWhile_cons_of_pos (by simpa using ha)]
              have h1 := (List.dropWhile_sublist (fun c => !is_path_separator c)
                (l := as)).length_le
              simp only [List.length_cons]
              omega
        dsimp only
        congr 1
        funext s2
        rw [ih fuel (Nat.lt_succ_self _) _ s2 (by omega),
          ih rest.length (by omega) _ s2 hlen]

theorem enumerate_rest_nil {σ : Type} (func : σ → List Char → Except Err σ) (s : σ) :
    enumerate_rest func [] s = .ok s := rfl

/-- One iteration of the loop on a rest that starts with separators and then a token. -/
theorem enumerate_rest_token {σ : Type} (func : σ → List Char → Except Err σ)
    (seps t x : List Char) (s : σ)
    (hseps : ∀ a ∈ seps, is_path_separator a = true) (ht : t ≠ [])
    (htok : ∀ a ∈ t, is_path_separator a = false)
    (hx : ∀ a ∈ x.head?, is_path_separator a = true) :
    enumerate_rest func (seps ++ (t ++ x)) s = (call_part func s t >>= enumerate_rest func x) := by
  have hne : seps ++ (t ++ x) ≠ [] := by
    cases t with
    | nil => exact absurd rfl ht
    | cons a as => simp
  have h1 : (seps ++ (t ++ x)).dropWhile is_path_separator = t ++ x := by
    rw [List.dropWhile_append_of_pos hseps]
    cases t with
    | nil => exact absurd rfl ht
    | cons a as =>
      rw [List.cons_append, List.dropWhile_cons_of_neg]
      rw [htok a (List.mem_cons_self _ _)]
      simp
  have hx2 : x.takeWhile (fun c => !is_path_separator c) = [] ∧
      x.dropWhile (fun c => !is_path_separator c) = x := by
    cases x with
    | nil => exact ⟨rfl, rfl⟩
    | cons b bs =>
      have hb : is_path_separator b = true := hx b (by simp)
      constructor
      · rw [List.takeWhile_cons_of_neg (by simp [hb])]
      · rw [List.dropWhile_cons_of_neg (by simp [hb])]
  have h2 : (t ++ x).takeWhile (fun c => !is_path_separator c) = t := by
    rw [List.takeWhile_append_of_pos (fun a ha => by simp [htok a ha]), hx2.1, List.append_nil]
  have h3 : (t ++ x).dropWhile (fun c => !is_path_separator c) = x := by
    rw [List.dropWhile_append_of_pos (fun a ha => by simp [htok a ha]), hx2.2]
  unfold enumerate_rest
  rw [enumerate_loop, if_neg hne]
  simp only [h1, h2, h3]
  congr 1
  funext s2
  have hlen : x.length < (seps ++ (t ++ x)).length := by
    have : 0 < t.length := List.length_pos.mpr ht
    simp only [List.length_append]
    omega
  exact enumerate_loop_fuel func _ x s2 hlen

/-- A non-empty list that does not end in a separator starts with separators, then a token,
then a rest that is shorter, begins with a separator unless empty, and ends as the list does. -/
theorem split_first_token (p : List Char) (hp : p ≠ [])
    (hlast : ∀ a ∈ p.getLast?, is_path_separator a = false) :
    ∃ seps t x : List Char, p = seps ++ (t ++ x) ∧ (∀ a ∈ seps, is_path_separator a = true) ∧
      t ≠ [] ∧ (∀ a ∈ t, is_path_separator a = false) ∧
      (∀ a ∈ x.head?, is_path_separator a = true) ∧ x.length < p.length ∧
      (∀ a ∈ x.getLast?, is_path_separator a = false) := by
  refine ⟨p.takeWhile is_path_separator,
    (p.dropWhile is_path_separator).takeWhile (fun c => !is_path_separator c),
    (p.dropWhile is_path_separator).dropWhile (fun c => !is_path_separator c), ?_, ?_, ?_, ?_, ?_,
    ?_, ?_⟩
  · rw [List.takeWhile_append_dropWhile, List.takeWhile_append_dropWhile]
  · intro a ha
    exact List.mem_takeWhile_imp ha
  · have hd : p.dropWhile is_path_separator ≠ [] := by
      intro h
      rw [List.dropWhile_eq_nil_iff] at h
      obtain ⟨b, hb⟩ : ∃ b, p.getLast? = some b := by
        cases hg : p.getLast? with
        | none => exact absurd (List.getLast?_eq_none_iff.mp hg) hp
        | some b => exact ⟨b, rfl⟩
      have h1 := hlast b (by rw [hb]; rfl)
      have h2 := h b (List.mem_of_getLast?_eq_some hb)
      rw [h1] at h2
      cases h2
    cases hq : p.dropWhile is_path_separator with
    | nil => exact absurd hq hd
    | cons b bs =>
      have hb := List.head?_dropWhile_not is_path_separator p
      rw [hq] at hb
      simp only [List.head?_cons, Option.map_some', Option.mem_def] at hb
      rw [List.takeWhile_cons_of_pos (by simpa using hb)]
      simp
  · intro a ha
    have := List.mem_takeWhile_imp ha
    simpa using this
  · intro a ha
    have hb := List.head?_dropWhile_not (fun c => !is_path_separator c)
      (p.dropWhile is_path_separator)
    rw [Option.mem_def] at ha
    rw [ha] at hb
    simpa using hb
  · have h1 := (List.dropWhile_sublist (fun c => !is_path_separator c)
      (l := p.dropWhile is_path_separator)).length_le
    have h2 := (List.dropWhile_sublist is_path_separator (l := p)).length_le
    rcases Nat.lt_or_ge ((p.dropWhile is_path_separator).dropWhile
      (fun c => !is_path_separator c)).length p.length with h | h
    · exact h
    · exfalso
      have e1 : (p.dropWhile is_path_separator).length = p.length := by omega
      have e2 : p.dropWhile is_path_separator = p :=
        (List.dropWhile_sublist is_path_separator).eq_of_length e1
      rw [e2] at h h1
      have e3 : p.dropWhile (fun c => !is_path_separator c) = p :=
        (List.dropWhile_sublist _).eq_of_length (by omega)
      cases p with
      | nil => exact hp rfl
      | cons a as =>
        by_cases ha : is_path_separator a = true
        · rw [List.dropWhile_cons_of_pos ha] at e2
          have := (List.dropWhile_sublist is_path_separator (l := as)).length_le
          rw [e2] at this
          simp at this
        · rw [List.dropWhile_cons_of_pos (by simpa using ha)] at e3
          have := (List.dropWhile_sublist (fun c => !is_path_separator c) (l := as)).length_le
          rw [e3] at this
          simp at this
  · intro a ha
    apply hlast a
    have hsuf : ((p.dropWhile is_path_separator).dropWhile (fun c => !is_path_separator c)) <:+ p :=
      (List.dropWhile_suffix _).trans (List.dropWhile_suffix _)
    obtain ⟨pre, hpre⟩ := hsuf
    rw [Option.mem_def] at ha ⊢
    rw [← hpre, List.getLast?_append, ha]
    rfl

/-- The loop on a path cut before one of its tokens: the part before the cut is visited,
then the token, then the part after it. -/
theorem enumerate_rest_split {σ : Type} (func : σ → List Char → Except Err σ) :
    ∀ (n : Nat) (p seps t q : List Char) (s : σ), p.length ≤ n →
      (∀ a ∈ p.getLast?, is_path_separator a = false) →
      (∀ a ∈ seps, is_path_separator a = true) → (p ≠ [] → seps ≠ []) → t ≠ [] →
      (∀ a ∈ t, is_path_separator a = false) → (∀ a ∈ q.head?, is_path_separator a = true) →
      enumerate_rest func (p ++ (seps ++ (t ++ q))) s =
        (enumerate_rest func p s >>= fun s1 => call_part func s1 t >>= enumerate_rest func q) := by
  intro n
  induction n with
  | zero =>
    intro p seps t q s hn _ hseps _ ht htok hq
    have hp : p = [] := List.length_eq_zero.mp (Nat.le_zero.mp hn)
    subst hp
    rw [List.nil_append, enumerate_rest_nil, bind_ok]
    exact enumerate_rest_token func seps t q s hseps ht htok hq
  | succ n ih =>
    intro p seps t q s hn hlast hseps hsne ht htok hq
    by_cases hp : p = []
    · subst hp
      rw [List.nil_append, enumerate_rest_nil, bind_ok]
      exact enumerate_rest_token func seps t q s hseps ht htok hq
    · obtain ⟨seps0, t0, x, hpx, hs0, ht0, htok0, hx, hxlen, hxlast⟩ :=
        split_first_token p hp hlast
      have hxy : ∀ a ∈ (x ++ (seps ++ (t ++ q))).head?, is_path_separator a = true := by
        intro a ha
        cases x with
        | cons b bs => exact hx a (by simpa using ha)
        | nil =>
          cases hsq : seps with
          | nil => exact absurd hsq (hsne hp)
          | cons b bs =>
            rw [hsq] at ha
            simp only [List.nil_append, List.cons_append, List.head?_cons, Option.mem_def,
              Option.some.injEq] at ha
            subst ha
            exact hseps b (by rw [hsq]; exact List.mem_cons_self _ _)
      have e1 : p ++ (seps ++ (t ++ q)) = seps0 ++ (t0 ++ (x ++ (seps ++ (t ++ q)))) := by
        rw [hpx]
        simp only [List.append_assoc]
      rw [e1, enumerate_rest_token func seps0 t0 _ s hs0 ht0 htok0 hxy]
      have e2 : enumerate_rest func p s = (call_part func s t0 >>= enumerate_rest func x) := by
        rw [hpx]
        exact enumerate_rest_token func seps0 t0 x s hs0 ht0 htok0 hx
      rw [e2, bind_assoc_ok]
      congr 1
      funext s1
      exact ih x seps t q s1 (by omega) hxlast hseps (fun _ => hsne hp) ht htok hq

/-! ## Resolution of paths -/

theorem to_ids_eq_rest (c : path_part_collection) (path : List Char) :
    c.to_ids path = c.to_ids_rest path [] := rfl

theorem to_ids_rest_nil (c : path_part_collection) (result : List Nat) :
    c.to_ids_rest [] result = .ok result := rfl

/-- The run of `to_ids` on a path cut before one of its tokens. -/
theorem to_ids_split (c : path_part_collection) (p seps t q : List Char)
    (hlast : ∀ a ∈ p.getLast?, is_path_separator a = false)
    (hseps : ∀ a ∈ seps, is_path_separator a = true) (hsne : p ≠ [] → seps ≠ [])
    (ht : t ≠ []) (htok : ∀ a ∈ t, is_path_separator a = false)
    (hq : ∀ a ∈ q.head?, is_path_separator a = true) :
    c.to_ids (p ++ (seps ++ (t ++ q))) =
      (c.to_ids p >>= fun r => call_part (to_ids_part c) r t >>= c.to_ids_rest q) := by
  rw [to_ids_eq_rest, to_ids_eq_rest]
  exact enumerate_rest_split (to_ids_part c) p.length p seps t q [] (Nat.le_refl _) hlast hseps
    hsne ht htok hq

theorem call_part_curr (c : path_part_collection) (r : List Nat) :
    call_part (to_ids_part c) r CURR_DIR = .ok r := by
  unfold call_part
  rw [if_neg (by simp)]
  rfl

theorem call_part_parent (c : path_part_collection) (r : List Nat) :
    call_part (to_ids_part c) r PARENT_DIR =
      if r = [] then .error .parent_at_root else .ok r.dropLast := by
  unfold call_part
  rw [if_pos (by decide), if_pos rfl]
  unfold to_ids_part
  rw [if_neg (by decide), if_pos rfl]
  rfl

theorem call_part_other (c : path_part_collection) (r : List Nat) {t : List Char}
    (h1 : t ≠ CURR_DIR) (h2 : t ≠ PARENT_DIR) :
    call_part (to_ids_part c) r t =
      match c.lookup t with
      | none => .error .part_not_found
      | some id => .ok (r ++ [id]) := by
  unfold call_part
  rw [if_pos h1, if_neg h2]
  unfold to_ids_part
  rw [if_neg h1, if_neg h2]
  rfl

theorem lookup_some_mem {c : path_part_collection} {t : List Char} {id : Nat}
    (h : c.lookup t = some id) : ∃ e ∈ c.map, e.1 = t := by
  unfold lookup at h
  cases hf : c.map.find? (fun e => e.1 == t) with
  | none => rw [hf] at h; cases h
  | some e =>
    refine ⟨e, List.mem_of_find?_eq_some hf, ?_⟩
    have := List.find?_some hf
    simpa using this

/-- C9. In `to_ids`, a `..` token removes the id resolved last. Let the path be `p`, then
separators (at least one unless `p` is empty), then `..`, then a rest `q` (empty or starting
with a separator), where `p` is empty or ends in a non-separator, and let `to_ids(p)` return
the id list `L`. When `L` is not empty, `to_ids` of the whole path is what the run continued
on `q` from `L` without its last element returns, which is that list itself when `q` is
empty; when `L` is empty, `to_ids` of the whole path fails with the parent-dir-at-root
error and yields no result. -/
theorem to_ids_parent_dir (c : path_part_collection) (p seps q : List Char) (L : List Nat)
    (hlast : ∀ a ∈ p.getLast?, is_path_separator a = false)
    (hseps : ∀ a ∈ seps, is_path_separator a = true) (hsne : p ≠ [] → seps ≠ [])
    (hq : ∀ a ∈ q.head?, is_path_separator a = true) (hp : c.to_ids p = .ok L) :
    (L ≠ [] → c.to_ids (p ++ (seps ++ (PARENT_DIR ++ q))) = c.to_ids_rest q L.dropLast) ∧
    (L ≠ [] → q = [] → c.to_ids (p ++ (seps ++ (PARENT_DIR ++ q))) = .ok L.dropLast) ∧
    (L = [] → c.to_ids (p ++ (seps ++ (PARENT_DIR ++ q))) = .error .parent_at_root) := by
  have h := to_ids_split c p seps PARENT_DIR q hlast hseps hsne (by decide) (by decide) hq
  rw [hp, bind_ok, call_part_parent] at h
  refine ⟨fun hL => ?_, fun hL hq0 => ?_, fun hL => ?_⟩
  · rw [h, if_neg hL, bind_ok]
  · rw [h, if_neg hL, bind_ok, hq0, to_ids_rest_nil]
  · rw [h, if_pos hL, bind_error]

/-- The empty table satisfies the invariant and `add_part` keeps it. -/
theorem add_part_valid (c c2 : path_part_collection) (part : List Char) (id : Nat)
    (hv : c.valid) (h : c.add_part part id = .ok c2) : c2.valid := by
  unfold add_part at h
  by_cases h1 : part = []
  · rw [if_pos h1] at h; cases h
  · rw [if_neg h1] at h
    by_cases h2 : part = CURR_DIR ∨ part = PARENT_DIR
    · rw [if_pos h2] at h; cases h
    · rw [if_neg h2] at h
      by_cases h3 : '/' ∈ part ∨ '\\' ∈ part
      · rw [if_pos h3] at h; cases h
      · rw [if_neg h3] at h
        cases h
        intro e he
        rcases List.mem_cons.mp he with rfl | he
        · exact ⟨h1, fun h => h2 (Or.inl h), fun h => h2 (Or.inr h)⟩
        · exact hv e (List.mem_of_mem_filter he)

theorem to_ids_parent_dir_witness :
    (⟨[("b".toList, 2), ("a".toList, 1)]⟩ : path_part_collection).to_ids "a/b/..".toList = .ok [1] ∧
    (⟨[("b".toList, 2), ("a".toList, 1)]⟩ : path_part_collection).to_ids "..".toList =
      .error .parent_at_root :=
  ⟨(to_ids_parent_dir ⟨[("b".toList, 2), ("a".toList, 1)]⟩ "a/b".toList "/".toList [] [1, 2]
      (by decide) (by decide) (by decide) (by decide) (by decide)).2.1 (by decide) rfl,
    (to_ids_parent_dir ⟨[("b".toList, 2), ("a".toList, 1)]⟩ [] [] [] []
      (by decide) (by decide) (by decide) (by decide) (by decide)).2.2 rfl⟩

/-- A joined path is not empty and does not end in a separator when its tokens are not
empty and hold no separator. -/
theorem join_tokens_last (first : List Char) (more : List (Char × List Char))
    (htok : ∀ t ∈ first :: more.map Prod.snd,
      t ≠ [] ∧ ∀ a ∈ t, is_path_separator a = false) :
    join_tokens first more ≠ [] ∧
      ∀ a ∈ (join_tokens first more).getLast?, is_path_separator a = false := by
  induction more using List.reverseRecOn with
  | nil =>
    have h := htok first (List.mem_cons_self _ _)
    exact ⟨h.1, fun a ha => h.2 a (List.mem_of_getLast?_eq_some ha)⟩
  | append_singleton more e _ =>
    have h := htok e.2 (by simp)
    unfold join_tokens
    rw [List.foldl_append]
    simp only [List.foldl_cons, List.foldl_nil]
    refine ⟨by simp, ?_⟩
    intro a ha
    have hl : (e.1 :: e.2).getLast? = e.2.getLast? := by
      cases he : e.2 with
      | nil => exact absurd he h.1
      | cons b bs => rfl
    rw [List.getLast?_append, hl] at ha
    cases hg : e.2.getLast? with
    | none => exact absurd (List.getLast?_eq_none_iff.mp hg) h.1
    | some b =>
      rw [hg] at ha
      simp only [Option.or_some, Option.mem_def, Option.some.injEq] at ha
      subst ha
      exact h.2 b (List.mem_of_getLast?_eq_some hg)

/-- C8. For a table that satisfies the invariant of `add_part` and a path made of tokens
joined by single separators (any of `/`, `\`, `:`), each token free of separators and either
`.` or a registered segment, `to_ids` succeeds and returns the ids of the registered
segments from left to right; the `.` tokens contribute nothing. -/
theorem to_ids_tokens (c : path_part_collection) (first : List Char)
    (more : List (Char × List Char)) (hv : c.valid)
    (hsep : ∀ e ∈ more, is_path_separator e.1 = true)
    (htok : ∀ t ∈ first :: more.map Prod.snd,
      (∀ a ∈ t, is_path_separator a = false) ∧ (t = CURR_DIR ∨ (c.lookup t).isSome)) :
    c.to_ids (join_tokens first more) = .ok (token_ids c (first :: more.map Prod.snd)) := by
  have hne : ∀ t : List Char, (t = CURR_DIR ∨ (c.lookup t).isSome) → t ≠ [] := by
    intro t ht
    rcases ht with rfl | hid
    · decide
    · obtain ⟨id, hid⟩ := Option.isSome_iff_exists.mp hid
      obtain ⟨e, he, rfl⟩ := lookup_some_mem hid
      exact (hv e he).1
  have hstep : ∀ (r : List Nat) (t : List Char), (t = CURR_DIR ∨ (c.lookup t).isSome) →
      call_part (to_ids_part c) r t = .ok (r ++ token_ids c [t]) := by
    intro r t ht
    by_cases h1 : t = CURR_DIR
    · subst h1
      rw [call_part_curr]
      simp [token_ids]
    · rcases ht with rfl | hid
      · exact absurd rfl h1
      · obtain ⟨id, hid⟩ := Option.isSome_iff_exists.mp hid
        have h2 : t ≠ PARENT_DIR := by
          obtain ⟨e, he, rfl⟩ := lookup_some_mem hid
          exact (hv e he).2.2
        rw [call_part_other c r h1 h2, hid]
        simp [token_ids, h1, hid]
  induction more using List.reverseRecOn with
  | nil =>
    have h := htok first (List.mem_cons_self _ _)
    have := to_ids_split c [] [] first [] (by simp) (by simp) (by simp) (hne first h.2) h.1
      (by simp)
    simp only [List.nil_append, List.append_nil] at this
    unfold join_tokens
    simp only [List.foldl_nil, List.map_nil]
    rw [this]
    have h0 : c.to_ids [] = .ok [] := rfl
    rw [h0, bind_ok, hstep [] first h.2, bind_ok, to_ids_rest_nil, List.nil_append]
  | append_singleton more e ih =>
    have hsep2 : ∀ e ∈ more, is_path_separator e.1 = true :=
      fun e2 he2 => hsep e2 (List.mem_append_left _ he2)
    have htok2 : ∀ t ∈ first :: more.map Prod.snd,
        (∀ a ∈ t, is_path_separator a = false) ∧ (t = CURR_DIR ∨ (c.lookup t).isSome) := by
      intro t ht
      apply htok t
      simp only [List.map_append, List.mem_cons, List.mem_append] at ht ⊢
      rcases ht with ht | ht
      · exact Or.inl ht
      · exact Or.inr (Or.inl ht)
    have he := htok e.2 (by simp)
    have hlast := join_tokens_last first more
      (fun t ht => ⟨hne t (htok2 t ht).2, (htok2 t ht).1⟩)
    have hj : join_tokens first (more ++ [e]) =
        join_tokens first more ++ ([e.1] ++ (e.2 ++ [])) := by
      unfold join_tokens
      rw [List.foldl_append]
      simp
    have := to_ids_split c (join_tokens first more) [e.1] e.2 [] hlast.2
      (by
        intro a ha
        rw [List.mem_singleton] at ha
        subst ha
        exact hsep e (by simp))
      (by simp) (hne e.2 he.2) he.1 (by simp)
    rw [hj, this, ih hsep2 htok2, bind_ok, hstep _ e.2 he.2, bind_ok, to_ids_rest_nil]
    simp only [token_ids, List.map_append, List.map_cons, List.map_nil]
    rw [← List.cons_append, List.filterMap_append]

theorem to_ids_tokens_witness :
    (⟨[("c".toList, 3), ("b".toList, 2), ("a".toList, 1)]⟩ : path_part_collection).to_ids
        "a/b/c".toList = .ok [1, 2, 3] ∧
    (⟨[("c".toList, 3), ("b".toList, 2), ("a".toList, 1)]⟩ : path_part_collection).to_ids
        "a/./b".toList = .ok [1, 2] :=
  ⟨to_ids_tokens ⟨[("c".toList, 3), ("b".toList, 2), ("a".toList, 1)]⟩ "a".toList
      [('/', "b".toList), ('/', "c".toList)] (by decide) (by decide) (by decide),
    to_ids_tokens ⟨[("c".toList, 3), ("b".toList, 2), ("a".toList, 1)]⟩ "a".toList
      [('/', ".".toList), ('/', "b".toList)] (by decide) (by decide) (by decide)⟩

/-- C10 as stated fails on the path `../x` with `x` unknown: `to_ids` fails there with the
parent-dir-at-root error, not with the unknown-segment error. -/
theorem to_ids_unknown_after_parent :
    (⟨[("a".toList, 1)]⟩ : path_part_collection).lookup "x".toList = none ∧
    (⟨[("a".toList, 1)]⟩ : path_part_collection).to_ids "../x".toList = .error .parent_at_root ∧
    (⟨[("a".toList, 1)]⟩ : path_part_collection).to_ids "../x".toList ≠ .error .part_not_found := by
  decide

/-- C10, amended. Let a path hold a token `t` that is neither `.`, nor `..`, nor a
registered segment: the path is `p`, then separators (at least one unless `p` is empty), then
`t`, then a rest `q` (empty or starting with a separator), where `p` is empty or ends in a
non-separator. Then `to_ids` fails on it, whatever follows `t` (a later `..` included): with
the unknown-segment error when `to_ids(p)` succeeds, and with the error of `to_ids(p)`
otherwise. -/
theorem to_ids_unknown (c : path_part_collection) (p seps t q : List Char)
    (hlast : ∀ a ∈ p.getLast?, is_path_separator a = false)
    (hseps : ∀ a ∈ seps, is_path_separator a = true) (hsne : p ≠ [] → seps ≠ [])
    (ht : t ≠ []) (htok : ∀ a ∈ t, is_path_separator a = false)
    (hq : ∀ a ∈ q.head?, is_path_separator a = true)
    (h1 : t ≠ CURR_DIR) (h2 : t ≠ PARENT_DIR) (h3 : c.lookup t = none) :
    (∃ e, c.to_ids (p ++ (seps ++ (t ++ q))) = .error e) ∧
    (∀ r, c.to_ids p = .ok r → c.to_ids (p ++ (seps ++ (t ++ q))) = .error .part_not_found) ∧
    (∀ e, c.to_ids p = .error e → c.to_ids (p ++ (seps ++ (t ++ q))) = .error e) := by
  have h := to_ids_split c p seps t q hlast hseps hsne ht htok hq
  have hok : ∀ r, c.to_ids p = .ok r →
      c.to_ids (p ++ (seps ++ (t ++ q))) = .error .part_not_found := by
    intro r hr
    rw [h, hr, bind_ok, call_part_other c r h1 h2, h3]
    rfl
  have herr : ∀ e, c.to_ids p = .error e → c.to_ids (p ++ (seps ++ (t ++ q))) = .error e := by
    intro e he
    rw [h, he, bind_error]
  refine ⟨?_, hok, herr⟩
  cases hp : c.to_ids p with
  | ok r => exact ⟨_, hok r hp⟩
  | error e => exact ⟨e, herr e hp⟩

theorem to_ids_unknown_witness :
    (∃ e, (⟨[("a".toList, 1)]⟩ : path_part_collection).to_ids
      ("a".toList ++ ("/".toList ++ ("x".toList ++ "/..".toList))) = .error e) ∧
    (∀ r, (⟨[("a".toList, 1)]⟩ : path_part_collection).to_ids "a".toList = .ok r →
      (⟨[("a".toList, 1)]⟩ : path_part_collection).to_ids
        ("a".toList ++ ("/".toList ++ ("x".toList ++ "/..".toList))) = .error .part_not_found) ∧
    (∀ e, (⟨[("a".toList, 1)]⟩ : path_part_collection).to_ids "a".toList = .error e →
      (⟨[("a".toList, 1)]⟩ : path_part_collection).to_ids
        ("a".toList ++ ("/".toList ++ ("x".toList ++ "/..".toList))) = .error e) :=
  to_ids_unknown ⟨[("a".toList, 1)]⟩ "a".toList "/".toList "x".toList "/..".toList
    (by decide) (by decide) (by decide) (by decide) (by decide) (by decide) (by decide)
    (by decide) (by decide)

end path_part_collection

namespace chunk

/-- C7 (the code falls short). Parsing the buffer that `build_chunk_buffer` returns for the
mapping `1 ↦ "AB"`, `2 ↦ "CDE"` has undefined behaviour, on a little-endian and on a
big-endian host: `read_bytes` at offset 8 shifts a 64-bit value by `i * 8 ≥ 64` bits, so no
store with `get(1) = "AB"` is obtained. -/
theorem of_buffer_build_undefined :
    of_buffer false (build_chunk_buffer false [(1, [65, 66]), (2, [67, 68, 69])]) =
      .error .undefined ∧
    of_buffer true (build_chunk_buffer true [(1, [65, 66]), (2, [67, 68, 69])]) =
      .error .undefined := by
  decide

end chunk

namespace lua_custom_requirer

/-- C11 (the code falls short). Root with child `a` (id 1) whose child `b` (id 2), resolver
`a ↦ 1`, `b ↦ 2`. The path `find` returns for `a/b` the index of `b` among the children of
`a`, and `require` passes it to `get_child` of the root, which gives `a`. With a store that
holds bytes only under id 2, `require("a/b")` fails with the chunk-empty error for every
loader; with bytes also under id 1, it hands the bytes of chunk 1 to the loader. -/
theorem require_uses_root_child :
    (∀ loader : List Char → List Nat → Bool,
      require
        { lua_src_tree := .mk 0 NULL_DATA [.mk 1 NULL_DATA [.mk 2 2 []]],
          lua_src_chunk :=
            { buffer := some (chunk.build_chunk_buffer false [(2, [27, 76, 117])]),
              data_map := [(2, ⟨24, 3⟩)] },
          lua_src_path_collection := ⟨[("b".toList, 2), ("a".toList, 1)]⟩ }
        loader "a/b".toList = .error .chunk_empty) ∧
    require
        { lua_src_tree := .mk 0 NULL_DATA [.mk 1 NULL_DATA [.mk 2 2 []]],
          lua_src_chunk :=
            { buffer := some (chunk.build_chunk_buffer false [(1, [7]), (2, [27, 76, 117])]),
              data_map := [(1, ⟨40, 1⟩), (2, ⟨41, 3⟩)] },
          lua_src_path_collection := ⟨[("b".toList, 2), ("a".toList, 1)]⟩ }
        (fun _ _ => true) "a/b".toList = .ok ⟨"a/b".toList, [7]⟩ := by
  constructor
  · intro loader
    rfl
  · decide

/-- C12. Let the segments of a module name all resolve, to the id sequence `ids`, and let
the tree (every node with strictly ascending children, at most `2 ^ 30` per node, the range
of the `int32_t` index arithmetic) have at some level `k` no child with id `ids[k]` under
the node reached by `ids[0..k-1]`. Then `require` fails with the tree-node-not-found
error, whatever the host loader is: the loader is not called. -/
theorem require_tree_node_not_found (r : lua_custom_requirer)
    (loader : List Char → List Nat → Bool) (module_name : List Char) (ids : List Nat)
    (k : Nat) (n : id_tree) (hk : k < ids.length)
    (hids : r.lua_src_path_collection.to_ids module_name = .ok ids)
    (ht : id_tree.every_node (id_tree.node_sorted (2 ^ 30)) r.lua_src_tree)
    (hd : id_tree.descend r.lua_src_tree (ids.take k) = some n)
    (hno : ∀ c ∈ n.children, c.id ≠ ids[k]) :
    r.require loader module_name = .error .tree_node_not_found := by
  have hfind : r.lua_src_tree.find_path ids = .ok NULL_IDX := by
    cases ids with
    | nil => simp at hk
    | cons x rest =>
      rw [id_tree.find_path_eq_loop ((id_tree.every_node_iff _ _).mp ht).1 x rest 0]
      exact id_tree.find_path_loop_fails (x :: rest) r.lua_src_tree 0 k n hk ht hd hno
  unfold require
  rw [hids, bind_ok, hfind, bind_ok, if_pos rfl]

theorem require_tree_node_not_found_witness :
    require
      { lua_src_tree := .mk 0 NULL_DATA [.mk 1 NULL_DATA [.mk 2 2 []]],
        lua_src_chunk :=
          { buffer := some (chunk.build_chunk_buffer false [(2, [27, 76, 117])]),
            data_map := [(2, ⟨24, 3⟩)] },
        lua_src_path_collection := ⟨[("b".toList, 2), ("a".toList, 1)]⟩ }
      (fun _ _ => true) "b/a".toList = .error .tree_node_not_found :=
  require_tree_node_not_found _ (fun _ _ => true) "b/a".toList [2, 1] 0
    (.mk 0 NULL_DATA [.mk 1 NULL_DATA [.mk 2 2 []]]) (by decide) (by decide)
    (by simp [id_tree.every_node, id_tree.every_node_list, id_tree.node_sorted,
      id_tree.ascending, id_tree.children, id_tree.id])
    (by decide) (by decide)

end lua_custom_requirer

namespace id_tree

theorem serialize_children_eq (cs : List id_tree) :
    serialize_children cs = (cs.map serialize).flatten := by
  induction cs with
  | nil => rfl
  | cons c cs ih => rw [serialize_children, ih]; rfl

end id_tree

theorem write_bytes_append (big_endian : Bool) (size : Nat) (target : List Nat) (value : Nat) :
    write_bytes big_endian size target value = target ++ write_bytes big_endian size [] value := by
  unfold write_bytes
  cases big_endian <;> simp

theorem write_bytes_length (big_endian : Bool) (size value : Nat) :
    (write_bytes big_endian size [] value).length = size := by
  unfold write_bytes
  cases big_endian <;> simp

namespace chunk

theorem length_flatMap_const {α : Type} (l : List α) (f : α → List Nat) (k : Nat)
    (h : ∀ a, (f a).length = k) : (l.flatMap f).length = k * l.length := by
  induction l with
  | nil => simp
  | cons a as ih =>
    rw [List.flatMap_cons, List.length_append, ih, h a, List.length_cons]
    ring

end chunk

/-- C18 (the code falls short). The two branches of `write_bytes` append different bytes: on
a little-endian host the low byte comes first, on a big-endian host the high byte, each
branch the reverse of the other, so the bytes of an archive depend on the host that builds
it. `read_bytes` expects the low byte first on either host, so on a big-endian host it does
not read back at offset 0 what `write_bytes` wrote there. -/
theorem write_bytes_host_dependent :
    write_bytes false 8 [] 1 = [1, 0, 0, 0, 0, 0, 0, 0] ∧
    write_bytes true 8 [] 1 = [0, 0, 0, 0, 0, 0, 0, 1] ∧
    (∀ v, write_bytes true 8 [] v = (write_bytes false 8 [] v).reverse) ∧
    chunk.build_chunk_buffer true [(1, [65, 66])] ≠ chunk.build_chunk_buffer false [(1, [65, 66])] ∧
    read_bytes false 8 (write_bytes false 8 [] 1) 0 = .ok 1 ∧
    read_bytes true 8 (write_bytes true 8 [] 1) 0 = .ok (2 ^ 56) := by
  refine ⟨by decide, by decide, ?_, by decide, by decide, by decide⟩
  intro v
  unfold write_bytes
  simp [List.map_reverse]

namespace path_part_collection

/-- The loop on a rest made of separators only: the callback gets the empty part. -/
theorem enumerate_rest_seps {σ : Type} (func : σ → List Char → Except Err σ)
    (r : List Char) (s : σ) (hr : r ≠ []) (hseps : ∀ a ∈ r, is_path_separator a = true) :
    enumerate_rest func r s = call_part func s [] := by
  have h1 : r.dropWhile is_path_separator = [] := List.dropWhile_eq_nil_iff.mpr hseps
  unfold enumerate_rest
  rw [enumerate_loop, if_neg hr]
  simp only [h1, List.takeWhile_nil, List.dropWhile_nil]
  cases hc : call_part func s [] with
  | error e => rfl
  | ok s2 =>
    rw [bind_ok]
    cases hl : r.length with
    | zero => exact absurd (List.length_eq_zero.mp hl) hr
    | succ n => rfl

/-- The loop on a path followed by separators: after the path, the callback gets the empty
part. -/
theorem enumerate_rest_trailing {σ : Type} (func : σ → List Char → Except Err σ) :
    ∀ (n : Nat) (p r : List Char) (s : σ), p.length ≤ n →
      (∀ a ∈ p.getLast?, is_path_separator a = false) → r ≠ [] →
      (∀ a ∈ r, is_path_separator a = true) →
      enumerate_rest func (p ++ r) s =
        (enumerate_rest func p s >>= fun s1 => call_part func s1 []) := by
  intro n
  induction n with
  | zero =>
    intro p r s hn _ hr hseps
    have hp : p = [] := List.length_eq_zero.mp (Nat.le_zero.mp hn)
    subst hp
    rw [List.nil_append, enumerate_rest_nil, bind_ok]
    exact enumerate_rest_seps func r s hr hseps
  | succ n ih =>
    intro p r s hn hlast hr hseps
    by_cases hp : p = []
    · subst hp
      rw [List.nil_append, enumerate_rest_nil, bind_ok]
      exact enumerate_rest_seps func r s hr hseps
    · obtain ⟨seps0, t0, x, hpx, hs0, ht0, htok0, hx, hxlen, hxlast⟩ :=
        split_first_token p hp hlast
      have hxr : ∀ a ∈ (x ++ r).head?, is_path_separator a = true := by
        intro a ha
        cases x with
        | cons b bs => exact hx a (by simpa using ha)
        | nil =>
          cases hrq : r with
          | nil => exact absurd hrq hr
          | cons b bs =>
            rw [hrq] at ha
            simp only [List.nil_append, List.head?_cons, Option.mem_def,
              Option.some.injEq] at ha
            subst ha
            exact hseps b (by rw [hrq]; exact List.mem_cons_self _ _)
      have e1 : p ++ r = seps0 ++ (t0 ++ (x ++ r)) := by
        rw [hpx]
        simp only [List.append_assoc]
      rw [e1, enumerate_rest_token func seps0 t0 _ s hs0 ht0 htok0 hxr]
      have e2 : enumerate_rest func p s = (call_part func s t0 >>= enumerate_rest func x) := by
        rw [hpx]
        exact enumerate_rest_token func seps0 t0 x s hs0 ht0 htok0 hx
      rw [e2, bind_assoc_ok]
      congr 1
      funext s1
      exact ih x r s1 (by omega) hxlast hr hseps

theorem lookup_nil_of_valid {c : path_part_collection} (hv : c.valid) : c.lookup [] = none := by
  cases h : c.lookup [] with
  | none => rfl
  | some id =>
    obtain ⟨e, he, hnil⟩ := lookup_some_mem h
    exact absurd hnil (hv e he).1

/-- C20 (the code falls short). Trailing separators are not ignored: after a trailing run
of separators `enumerate_path` calls the callback with an empty part, which `to_ids` looks
up and does not find. With `a ↦ 1`, `to_ids("a")` is `[1]` while `to_ids("a/")` fails; and
for every table that satisfies the invariant of `add_part`, every path `p` (empty or ending
in a non-separator) and every non-empty run `r` of separators, `to_ids(p ++ r)` fails, with
the unknown-segment error when `to_ids(p)` succeeds. -/
theorem to_ids_trailing_separator_fails :
    (⟨[("a".toList, 1)]⟩ : path_part_collection).to_ids "a".toList = .ok [1] ∧
    (⟨[("a".toList, 1)]⟩ : path_part_collection).to_ids "a/".toList = .error .part_not_found ∧
    (∀ (c : path_part_collection) (p r : List Char), c.valid →
      (∀ a ∈ p.getLast?, is_path_separator a = false) → r ≠ [] →
      (∀ a ∈ r, is_path_separator a = true) →
      c.to_ids (p ++ r) = (c.to_ids p >>= fun _ => .error .part_not_found)) := by
  refine ⟨by decide, by decide, ?_⟩
  intro c p r hv hlast hr hseps
  rw [to_ids_eq_rest, to_ids_eq_rest]
  unfold to_ids_rest
  rw [enumerate_rest_trailing (to_ids_part c) p.length p r [] (Nat.le_refl _) hlast hr hseps]
  congr 1
  funext s1
  rw [call_part_other c s1 (by decide) (by decide), lookup_nil_of_valid hv]

end path_part_collection

/-! ## Construction of a chunk store -/

theorem foldlM_ok_or_undefined {α β : Type} (f : β → α → Except Err β)
    (hf : ∀ v i, ok_or_undefined (f v i)) :
    ∀ (l : List α) (v : β), ok_or_undefined (l.foldlM f v) := by
  intro l
  induction l with
  | nil => intro v; exact Or.inl ⟨v, rfl⟩
  | cons a as ih =>
    intro v
    rw [List.foldlM_cons]
    rcases hf v a with ⟨v2, h⟩ | h
    · rw [h, bind_ok]
      exact ih v2
    · rw [h, bind_error]
      exact Or.inr rfl

theorem foldlM_undefined {α β : Type} (f : β → α → Except Err β)
    (hf : ∀ v i, ok_or_undefined (f v i)) :
    ∀ (l : List α) (v : β), (∃ i ∈ l, ∀ v, f v i = .error .undefined) →
      l.foldlM f v = .error .undefined := by
  intro l
  induction l with
  | nil => intro v h; obtain ⟨i, hi, _⟩ := h; cases hi
  | cons a as ih =>
    intro v h
    rw [List.foldlM_cons]
    obtain ⟨i, hi, hbad⟩ := h
    rcases hf v a with ⟨v2, h2⟩ | h2
    · rw [h2, bind_ok]
      rcases List.mem_cons.mp hi with rfl | hi
      · rw [hbad v] at h2
        cases h2
      · exact ih v2 ⟨i, hi, hbad⟩
    · rw [h2, bind_error]

theorem read_step_ok_or_undefined (size : Nat) (data : List Nat) (value : Nat) (i : Int) :
    ok_or_undefined (do
      let byte ← read_byte data i
      let shifted ← shift_left size byte (i * 8)
      pure (value ||| shifted) : Except Err Nat) := by
  unfold read_byte
  by_cases h0 : 0 ≤ i
  · rw [if_pos h0]
    cases hb : data[i.toNat]? with
    | none => exact Or.inr rfl
    | some b =>
      simp only [bind_ok]
      unfold shift_left
      by_cases hs : 0 ≤ i * 8 ∧ i * 8 < ((size * 8 : Nat) : Int)
      · rw [if_pos hs]
        exact Or.inl ⟨_, rfl⟩
      · rw [if_neg hs]
        exact Or.inr rfl
  · rw [if_neg h0]
    exact Or.inr rfl

theorem read_bytes_ok_or_undefined (big_endian : Bool) (size : Nat) (data : List Nat)
    (offset : Int) : ok_or_undefined (read_bytes big_endian size data offset) := by
  unfold read_bytes
  exact foldlM_ok_or_undefined _ (fun v i => read_step_ok_or_undefined size data v i) _ _

/-- The read of a `uint64_t` at offset 0 of a buffer shorter than 8 bytes indexes past its
end. -/
theorem read_bytes_short (big_endian : Bool) (data : List Nat) (h : data.length < 8) :
    read_bytes big_endian 8 data 0 = .error .undefined := by
  unfold read_bytes
  apply foldlM_undefined _ (fun v i => read_step_ok_or_undefined 8 data v i)
  refine ⟨(data.length : Int), ?_, ?_⟩
  · have hm : (data.length : Int) ∈ (List.range 8).map (fun (k : Nat) => (0 : Int) + (k : Int)) := by
      rw [List.mem_map]
      exact ⟨data.length, List.mem_range.mpr h, by simp⟩
    cases big_endian
    · simpa using hm
    · simp only [if_true, List.mem_reverse]
      exact hm
  · intro v
    unfold read_byte
    rw [if_pos (by omega)]
    have : data[(data.length : Int).toNat]? = none := by
      rw [List.getElem?_eq_none]
      simp
    rw [this]
    rfl

namespace chunk

theorem read_header_ok_or_undefined (big_endian : Bool) (buffer : List Nat) :
    ∀ n i : Nat, ok_or_undefined (read_header big_endian buffer n i) := by
  intro n
  induction n with
  | zero => intro i; exact Or.inl ⟨[], rfl⟩
  | succ n ih =>
    intro i
    rw [read_header]
    rcases read_bytes_ok_or_undefined big_endian 8 buffer
        (toInt32 (((8 + i * 8 * 2) % 2 ^ 64 : Nat) : Int)) with ⟨a, ha⟩ | ha
    · rw [ha, bind_ok]
      rcases read_bytes_ok_or_undefined big_endian 8 buffer
          (toInt32 ((((8 + i * 8 * 2) % 2 ^ 64 + 8) % 2 ^ 64 : Nat) : Int)) with ⟨b, hb⟩ | hb
      · rw [hb, bind_ok]
        rcases ih (i + 1) with ⟨r, hr⟩ | hr
        · rw [hr, bind_ok]
          exact Or.inl ⟨_, rfl⟩
        · rw [hr, bind_error]
          exact Or.inr rfl
      · rw [hb, bind_error]
        exact Or.inr rfl
    · rw [ha, bind_error]
      exact Or.inr rfl

/-- C19 as stated fails on a 3-byte buffer: the constructor does not reject it but reads
the 8 bytes of `chunk_count` past its end, on either kind of host. -/
theorem of_buffer_short_undefined :
    of_buffer false [0, 0, 0] = .error .undefined ∧
    of_buffer true [0, 0, 0] = .error .undefined := by
  decide

/-- The count word 0, followed by any bytes, is read back as 0 on either kind of host. -/
theorem read_count_zero (big_endian : Bool) (rest : List Nat) :
    read_bytes big_endian 8 (write_bytes big_endian 8 [] 0 ++ rest) 0 = .ok 0 := by
  have hr : List.range 8 = [0, 1, 2, 3, 4, 5, 6, 7] := by decide
  have hdata : write_bytes big_endian 8 [] 0 ++ rest =
      0 :: 0 :: 0 :: 0 :: 0 :: 0 :: 0 :: 0 :: rest := by
    cases big_endian <;> rfl
  rw [hdata]
  unfold read_bytes
  rw [hr]
  cases big_endian
  · simp only [Bool.false_eq_true, if_false, List.map, List.foldlM_cons, List.foldlM_nil]
    simp only [read_byte, shift_left]
    simp [bind_ok]
  · simp only [if_true, List.map, List.reverse_cons, List.reverse_nil, List.nil_append,
      List.cons_append, List.foldlM_cons, List.foldlM_nil]
    simp only [read_byte, shift_left]
    simp [bind_ok]

/-- C19, amended. Constructing a chunk store from a buffer validates nothing and raises no
malformed-archive error: the constructor throws no exception, so whenever its behaviour is
defined it returns a store. An empty buffer gives a store without views, and so does every
buffer that begins with the `chunk_count` word 0, whatever bytes follow that word. -/
theorem of_buffer_unchecked (big_endian : Bool) :
    (∀ buffer : List Nat, ok_or_undefined (of_buffer big_endian buffer)) ∧
    of_buffer big_endian [] = .ok { buffer := some [], data_map := [] } ∧
    (∀ rest : List Nat,
      of_buffer big_endian (write_bytes big_endian 8 [] 0 ++ rest) =
        .ok { buffer := some (write_bytes big_endian 8 [] 0 ++ rest), data_map := [] }) := by
  refine ⟨?_, rfl, ?_⟩
  · intro buffer
    unfold of_buffer build_buffer_map
    simp only []
    by_cases hb : buffer.length = 0
    · rw [if_pos hb]
      exact Or.inl ⟨_, rfl⟩
    · rw [if_neg hb]
      rcases read_bytes_ok_or_undefined big_endian 8 buffer 0 with ⟨n, hn⟩ | hn
      · rw [hn, bind_ok]
        rcases read_header_ok_or_undefined big_endian buffer n 0 with ⟨h, hh⟩ | hh
        · rw [hh, bind_ok]
          exact Or.inl ⟨_, rfl⟩
        · rw [hh, bind_error]
          exact Or.inr rfl
      · rw [hn, bind_error]
        exact Or.inr rfl
  · intro rest
    have hne : (write_bytes big_endian 8 [] 0 ++ rest).length ≠ 0 := by
      rw [List.length_append, write_bytes_length]
      omega
    unfold of_buffer build_buffer_map
    simp only []
    rw [if_neg hne, read_count_zero, bind_ok]
    rfl

end chunk

namespace id_tree

/-! ## The parser of `deserialize` on arbitrary arrays -/

theorem parse_succ (words : List Nat) (fuel begin : Nat) :
    parse words (fuel + 1) begin = parse_node words (parse words fuel) begin := by
  rw [parse]
  rfl

theorem read_word_lt {words : List Nat} {i : Nat} (h : i < words.length) :
    read_word words i = .ok words[i] := by
  unfold read_word
  rw [List.getElem?_eq_getElem h]

theorem read_word_append {words : List Nat} (extra : List Nat) {i : Nat} (h : i < words.length) :
    read_word (words ++ extra) i = read_word words i := by
  unfold read_word
  rw [List.getElem?_append_left h]

/-- The header of a node that starts inside the array: found, with the position after it
inside the array and two or three words after `begin`, or missing. -/
theorem parse_header_cases (words : List Nat) (begin id : Nat) :
    parse_header words begin id = .ok none ∨
      ∃ data count ptr, parse_header words begin id = .ok (some (data, count, ptr)) ∧
        begin + 2 ≤ ptr ∧ ptr ≤ begin + 3 ∧ ptr ≤ words.length := by
  unfold parse_header
  simp only []
  by_cases hf : id &&& SIGN_BIT ≠ 0
  · rw [if_pos hf]
    by_cases h : begin + 1 + 1 ≥ words.length
    · rw [if_pos h]
      exact Or.inl rfl
    · rw [if_neg h, read_word_lt (by omega), bind_ok, read_word_lt (by omega), bind_ok]
      exact Or.inr ⟨_, _, _, rfl, by omega, by omega, by omega⟩
  · rw [if_neg hf]
    by_cases h : begin + 1 ≥ words.length
    · rw [if_pos h]
      exact Or.inl rfl
    · rw [if_neg h, read_word_lt (by omega), bind_ok]
      exact Or.inr ⟨_, _, _, rfl, by omega, by omega, by omega⟩

/-- A header found in an array is found in every extension of the array. -/
theorem parse_header_append {words : List Nat} (extra : List Nat) {begin id : Nat}
    {h : Nat × Nat × Nat} (hh : parse_header words begin id = .ok (some h)) :
    parse_header (words ++ extra) begin id = .ok (some h) := by
  unfold parse_header at hh ⊢
  simp only [] at hh ⊢
  by_cases hf : id &&& SIGN_BIT ≠ 0
  · rw [if_pos hf] at hh ⊢
    by_cases hl : begin + 1 + 1 ≥ words.length
    · rw [if_pos hl] at hh
      cases hh
    · rw [if_neg hl] at hh
      rw [if_neg (by rw [List.length_append]; omega), read_word_append extra (by omega),
        read_word_append extra (by omega)]
      exact hh
  · rw [if_neg hf] at hh ⊢
    by_cases hl : begin + 1 ≥ words.length
    · rw [if_pos hl] at hh
      cases hh
    · rw [if_neg hl] at hh
      rw [if_neg (by rw [List.length_append]; omega), read_word_append extra (by omega)]
      exact hh

theorem parse_children_succ_some {P : Nat → Except Err (Option id_tree × Nat)}
    {b total : Nat} {c : id_tree} {kc : Nat} (h : P (b + total) = .ok (some c, kc))
    (n : Nat) (acc : List id_tree) :
    parse_children P b (n + 1) total acc = parse_children P b n (total + kc) (acc ++ [c]) := by
  rw [parse_children, h, bind_ok]

theorem parse_children_succ_none {P : Nat → Except Err (Option id_tree × Nat)}
    {b total : Nat} {kc : Nat} (h : P (b + total) = .ok (none, kc))
    (n : Nat) (acc : List id_tree) :
    parse_children P b (n + 1) total acc = .ok (none, total + kc) := by
  rw [parse_children, h, bind_ok]
  rfl

theorem parse_children_succ_inv {P : Nat → Except Err (Option id_tree × Nat)}
    {b n total : Nat} {acc cs : List id_tree} {k : Nat}
    (h : parse_children P b (n + 1) total acc = .ok (some cs, k)) :
    ∃ c kc, P (b + total) = .ok (some c, kc) ∧
      parse_children P b n (total + kc) (acc ++ [c]) = .ok (some cs, k) := by
  cases hp : P (b + total) with
  | error e => rw [parse_children, hp, bind_error] at h; cases h
  | ok r =>
    obtain ⟨o, kc⟩ := r
    cases o with
    | none => rw [parse_children_succ_none hp] at h; cases h
    | some c =>
      rw [parse_children_succ_some hp] at h
      exact ⟨c, kc, rfl, h⟩

/-- The child loop only adds to the consumed count, and appends one child per iteration. -/
theorem parse_children_consumed {P : Nat → Except Err (Option id_tree × Nat)} {b : Nat} :
    ∀ (n total : Nat) (acc cs : List id_tree) (k : Nat),
      parse_children P b n total acc = .ok (some cs, k) →
      total ≤ k ∧ cs.length = acc.length + n := by
  intro n
  induction n with
  | zero =>
    intro total acc cs k h
    rw [parse_children] at h
    cases h
    exact ⟨Nat.le_refl _, rfl⟩
  | succ n ih =>
    intro total acc cs k h
    obtain ⟨c, kc, _, h2⟩ := parse_children_succ_inv h
    have := ih _ _ _ _ h2
    rw [List.length_append, List.length_singleton] at this
    omega

theorem parse_node_end {words : List Nat} (P : Nat → Except Err (Option id_tree × Nat))
    {b : Nat} (h : words.length ≤ b) : parse_node words P b = .ok (none, 0) := by
  unfold parse_node
  rw [if_pos h]
  rfl

theorem parse_node_no_header {words : List Nat} (P : Nat → Except Err (Option id_tree × Nat))
    {b : Nat} (hb : b < words.length) (hh : parse_header words b words[b] = .ok none) :
    parse_node words P b = .ok (none, 1) := by
  unfold parse_node
  rw [if_neg (by omega), read_word_lt hb, bind_ok, hh, bind_ok]
  rfl

theorem parse_node_header {words : List Nat} (P : Nat → Except Err (Option id_tree × Nat))
    {b : Nat} (hb : b < words.length) {data count ptr : Nat}
    (hh : parse_header words b words[b] = .ok (some (data, count, ptr))) :
    parse_node words P b =
      (parse_children P b count (ptr - b) [] >>= fun r =>
        match r.1 with
        | none => pure (none, r.2)
        | some children =>
          pure (some (mk (words[b] &&& NOT_SIGN_BIT) data (sort_children children)), r.2)) := by
  unfold parse_node
  rw [if_neg (by omega), read_word_lt hb, bind_ok, hh, bind_ok]

/-- What a successful call of the `parse` lambda has done: read a header inside the array,
parsed the declared number of children, and built the node from them. -/
theorem parse_node_some_inv {words : List Nat} {P : Nat → Except Err (Option id_tree × Nat)}
    {b : Nat} {t : id_tree} {k : Nat} (h : parse_node words P b = .ok (some t, k)) :
    ∃ (hb : b < words.length) (data count ptr : Nat) (cs : List id_tree),
      parse_header words b words[b] = .ok (some (data, count, ptr)) ∧
      b + 2 ≤ ptr ∧ ptr ≤ b + 3 ∧ ptr ≤ words.length ∧
      parse_children P b count (ptr - b) [] = .ok (some cs, k) ∧
      t = mk (words[b] &&& NOT_SIGN_BIT) data (sort_children cs) := by
  by_cases hb : b < words.length
  · rcases parse_header_cases words b words[b] with hh | ⟨data, count, ptr, hh, h1, h2, h3⟩
    · rw [parse_node_no_header P hb hh] at h
      cases h
    · rw [parse_node_header P hb hh] at h
      cases hc : parse_children P b count (ptr - b) [] with
      | error e => rw [hc, bind_error] at h; cases h
      | ok r =>
        obtain ⟨o, kc⟩ := r
        rw [hc, bind_ok] at h
        cases o with
        | none => cases h
        | some cs =>
          cases h
          exact ⟨hb, data, count, ptr, cs, hh, h1, h2, h3, hc, rfl⟩
  · rw [parse_node_end P (by omega)] at h
    cases h

theorem parse_node_some {words : List Nat} (P : Nat → Except Err (Option id_tree × Nat))
    {b : Nat} (hb : b < words.length) {data count ptr : Nat} {cs : List id_tree} {k : Nat}
    (hh : parse_header words b words[b] = .ok (some (data, count, ptr)))
    (hc : parse_children P b count (ptr - b) [] = .ok (some cs, k)) :
    parse_node words P b =
      .ok (some (mk (words[b] &&& NOT_SIGN_BIT) data (sort_children cs)), k) := by
  rw [parse_node_header P hb hh, hc, bind_ok]
  rfl

theorem parse_children_mono {P1 P2 : Nat → Except Err (Option id_tree × Nat)} {b : Nat}
    (hP : ∀ p r, P1 p = .ok r → P2 p = .ok r) :
    ∀ (n total : Nat) (acc : List id_tree) (r : Option (List id_tree) × Nat),
      parse_children P1 b n total acc = .ok r → parse_children P2 b n total acc = .ok r := by
  intro n
  induction n with
  | zero => intro total acc r h; exact h
  | succ n ih =>
    intro total acc r h
    cases hp : P1 (b + total) with
    | error e => rw [parse_children, hp, bind_error] at h; cases h
    | ok r1 =>
      obtain ⟨o, kc⟩ := r1
      cases o with
      | none =>
        rw [parse_children_succ_none hp] at h
        rw [parse_children_succ_none (hP _ _ hp)]
        exact h
      | some c =>
        rw [parse_children_succ_some hp] at h
        rw [parse_children_succ_some (hP _ _ hp)]
        exact ih _ _ _ h

theorem parse_node_mono {words : List Nat} {P1 P2 : Nat → Except Err (Option id_tree × Nat)}
    {b : Nat} (hP : ∀ p r, P1 p = .ok r → P2 p = .ok r)
    (r : Option id_tree × Nat) (h : parse_node words P1 b = .ok r) :
    parse_node words P2 b = .ok r := by
  by_cases hb : b < words.length
  · rcases parse_header_cases words b words[b] with hh | ⟨data, count, ptr, hh, h1, h2, h3⟩
    · rw [parse_node_no_header P1 hb hh] at h
      rw [parse_node_no_header P2 hb hh]
      exact h
    · rw [parse_node_header P1 hb hh] at h
      rw [parse_node_header P2 hb hh]
      cases hc : parse_children P1 b count (ptr - b) [] with
      | error e => rw [hc, bind_error] at h; cases h
      | ok rc =>
        rw [hc] at h
        rw [parse_children_mono hP _ _ _ _ hc]
        exact h
  · rw [parse_node_end P1 (by omega)] at h
    rw [parse_node_end P2 (by omega)]
    exact h

theorem parse_mono (words : List Nat) :
    ∀ (f1 f2 b : Nat) (r : Option id_tree × Nat), f1 ≤ f2 →
      parse words f1 b = .ok r → parse words f2 b = .ok r := by
  intro f1
  induction f1 with
  | zero => intro f2 b r _ h; rw [parse] at h; cases h
  | succ f1 ih =>
    intro f2 b r hle h
    cases f2 with
    | zero => omega
    | succ f2 =>
      rw [parse_succ] at h ⊢
      exact parse_node_mono (fun p r hp => ih f2 p r (by omega) hp) r h

/-! ### The parser on an array and on its extensions -/

theorem getElem_append_lt {words : List Nat} (extra : List Nat) {b : Nat}
    (hb : b < words.length) (hb2 : b < (words ++ extra).length) :
    (words ++ extra)[b] = words[b] := by
  rw [List.getElem_append_left hb]

theorem parse_children_ext {P1 P2 : Nat → Except Err (Option id_tree × Nat)} {b : Nat}
    (hP : ∀ p t k, P1 p = .ok (some t, k) → P2 p = .ok (some t, k)) :
    ∀ (n total : Nat) (acc cs : List id_tree) (k : Nat),
      parse_children P1 b n total acc = .ok (some cs, k) →
      parse_children P2 b n total acc = .ok (some cs, k) := by
  intro n
  induction n with
  | zero => intro total acc cs k h; exact h
  | succ n ih =>
    intro total acc cs k h
    obtain ⟨c, kc, hc, h2⟩ := parse_children_succ_inv h
    rw [parse_children_succ_some (hP _ _ _ hc)]
    exact ih _ _ _ _ h2

theorem parse_node_ext {words : List Nat} (extra : List Nat)
    {P1 P2 : Nat → Except Err (Option id_tree × Nat)} {b : Nat}
    (hP : ∀ p t k, P1 p = .ok (some t, k) → P2 p = .ok (some t, k))
    {t : id_tree} {k : Nat} (h : parse_node words P1 b = .ok (some t, k)) :
    parse_node (words ++ extra) P2 b = .ok (some t, k) := by
  obtain ⟨hb, data, count, ptr, cs, hh, _, _, _, hc, ht⟩ := parse_node_some_inv h
  have hb2 : b < (words ++ extra).length := by rw [List.length_append]; omega
  have hh2 := parse_header_append extra hh
  rw [← getElem_append_lt extra hb hb2] at hh2 ht
  rw [ht]
  exact parse_node_some P2 hb2 hh2 (parse_children_ext hP _ _ _ _ _ hc)

/-- A node parsed from an array is parsed, with the same consumed count, from every
extension of the array. -/
theorem parse_ext (words extra : List Nat) :
    ∀ (fuel b : Nat) (t : id_tree) (k : Nat), parse words fuel b = .ok (some t, k) →
      parse (words ++ extra) fuel b = .ok (some t, k) := by
  intro fuel
  induction fuel with
  | zero => intro b t k h; rw [parse] at h; cases h
  | succ fuel ih =>
    intro b t k h
    rw [parse_succ] at h ⊢
    exact parse_node_ext extra (fun p t k hp => ih p t k hp) h

theorem deserialize_some_iff (nodes : List Nat) (t : id_tree) :
    deserialize nodes = .ok (some t) ↔
      parse nodes (nodes.length + 1) 0 = .ok (some t, nodes.length) := by
  unfold deserialize
  constructor
  · intro h
    cases hp : parse nodes (nodes.length + 1) 0 with
    | error e => rw [hp, bind_error] at h; cases h
    | ok r =>
      obtain ⟨o, k⟩ := r
      rw [hp, bind_ok] at h
      simp only [pure, Except.pure, Except.ok.injEq] at h
      by_cases hk : k = nodes.length
      · rw [if_pos hk] at h
        rw [h, hk]
      · rw [if_neg hk] at h
        cases h
  · intro h
    rw [h, bind_ok]
    simp [pure, Except.pure]

/-- C14. When the words of an array beyond a complete encoding of a root are left over,
that is when the `parse` lambda returns a root after fewer words than the array has, or
when the array is an array with a tree followed by one or more words, `deserialize`
returns `nullptr`; it returns a tree only when the root has consumed exactly all
`node_count` words. -/
theorem deserialize_trailing_words :
    (∀ (nodes : List Nat) (t : id_tree) (k : Nat),
      parse nodes (nodes.length + 1) 0 = .ok (some t, k) → k < nodes.length →
      deserialize nodes = .ok none) ∧
    (∀ (nodes extra : List Nat) (t : id_tree), extra ≠ [] →
      deserialize nodes = .ok (some t) → deserialize (nodes ++ extra) = .ok none) ∧
    (∀ (nodes : List Nat) (t : id_tree), deserialize nodes = .ok (some t) →
      parse nodes (nodes.length + 1) 0 = .ok (some t, nodes.length)) := by
  have h1 : ∀ (nodes : List Nat) (t : id_tree) (k : Nat),
      parse nodes (nodes.length + 1) 0 = .ok (some t, k) → k < nodes.length →
      deserialize nodes = .ok none := by
    intro nodes t k h hk
    unfold deserialize
    rw [h, bind_ok]
    simp only [pure, Except.pure]
    rw [if_neg (by omega)]
  refine ⟨h1, ?_, fun nodes t h => (deserialize_some_iff nodes t).mp h⟩
  intro nodes extra t hne h
  rw [deserialize_some_iff] at h
  have hpos : 0 < extra.length := List.length_pos.mpr hne
  have h2 := parse_ext nodes extra _ 0 t _ h
  have h3 := parse_mono (nodes ++ extra) _ ((nodes ++ extra).length + 1) 0 _
    (by rw [List.length_append]; omega) h2
  exact h1 (nodes ++ extra) t nodes.length h3 (by rw [List.length_append]; omega)

theorem deserialize_trailing_words_witness :
    deserialize [0, 1, 5, 0] = .ok (some (mk 0 NULL_DATA [mk 5 NULL_DATA []])) ∧
    deserialize ([0, 1, 5, 0] ++ [7]) = .ok none :=
  ⟨by decide, deserialize_trailing_words.2.1 [0, 1, 5, 0] [7]
    (mk 0 NULL_DATA [mk 5 NULL_DATA []]) (by decide) (by decide)⟩

theorem parse_children_all {Q : id_tree → Prop}
    {P : Nat → Except Err (Option id_tree × Nat)} {b : Nat}
    (hP : ∀ p t k, P p = .ok (some t, k) → Q t) :
    ∀ (n total : Nat) (acc cs : List id_tree) (k : Nat), (∀ c ∈ acc, Q c) →
      parse_children P b n total acc = .ok (some cs, k) → ∀ c ∈ cs, Q c := by
  intro n
  induction n with
  | zero =>
    intro total acc cs k hacc h
    rw [parse_children] at h
    cases h
    exact hacc
  | succ n ih =>
    intro total acc cs k hacc h
    obtain ⟨c, kc, hc, h2⟩ := parse_children_succ_inv h
    refine ih _ _ _ _ ?_ h2
    intro c2 hc2
    rcases List.mem_append.mp hc2 with hc2 | hc2
    · exact hacc c2 hc2
    · rw [List.mem_singleton] at hc2
      rw [hc2]
      exact hP _ _ _ hc

theorem sort_children_sorted (cs : List id_tree) : (sort_children cs).Sorted id_le :=
  List.sorted_insertionSort id_le cs

theorem sort_children_perm (cs : List id_tree) : (sort_children cs).Perm cs :=
  List.perm_insertionSort id_le cs

/-- Every node of a tree the `parse` lambda returns has its children in ascending order of
id. -/
theorem parse_sorted (words : List Nat) :
    ∀ (fuel b : Nat) (t : id_tree) (k : Nat), parse words fuel b = .ok (some t, k) →
      every_node (fun n => n.children.Sorted id_le) t := by
  intro fuel
  induction fuel with
  | zero => intro b t k h; rw [parse] at h; cases h
  | succ fuel ih =>
    intro b t k h
    rw [parse_succ] at h
    obtain ⟨_, data, count, ptr, cs, _, _, _, _, hc, ht⟩ := parse_node_some_inv h
    rw [ht, every_node_iff]
    refine ⟨sort_children_sorted cs, ?_⟩
    intro c hc2
    rw [children_mk] at hc2
    have hmem : c ∈ cs := (sort_children_perm cs).mem_iff.mp hc2
    exact parse_children_all (fun p t k hp => ih p t k hp) _ _ _ _ _
      (fun c hc => by cases hc) hc c hmem

/-- C15. For every word array on which `deserialize` succeeds, every node of the tree it
returns has its children in ascending order of id, whatever their order in the array; and
whenever the `parse` lambda returns a node, the children of the node are a permutation of
the subtrees that its child loop parsed, one per declared child. -/
theorem deserialize_sorted :
    (∀ (nodes : List Nat) (t : id_tree), deserialize nodes = .ok (some t) →
      every_node (fun n => n.children.Sorted id_le) t) ∧
    (∀ (nodes : List Nat) (fuel b : Nat) (t : id_tree) (k : Nat),
      parse nodes (fuel + 1) b = .ok (some t, k) →
      ∃ (data count ptr : Nat) (cs : List id_tree),
        parse_header nodes b (nodes.getD b 0) = .ok (some (data, count, ptr)) ∧
        parse_children (parse nodes fuel) b count (ptr - b) [] = .ok (some cs, k) ∧
        cs.length = count ∧ t.children.Perm cs) := by
  constructor
  · intro nodes t h
    rw [deserialize_some_iff] at h
    exact parse_sorted nodes _ 0 t _ h
  · intro nodes fuel b t k h
    rw [parse_succ] at h
    obtain ⟨hb, data, count, ptr, cs, hh, _, _, _, hc, ht⟩ := parse_node_some_inv h
    refine ⟨data, count, ptr, cs, ?_, hc, ?_, ?_⟩
    · rw [List.getD_eq_getElem _ _ hb]
      exact hh
    · have := (parse_children_consumed _ _ _ _ _ hc).2
      simpa using this
    · rw [ht, children_mk]
      exact sort_children_perm cs

theorem deserialize_sorted_witness :
    deserialize [0, 3, 9, 0, 2, 0, 5, 0] = .ok (some (mk 0 NULL_DATA
      [mk 2 NULL_DATA [], mk 5 NULL_DATA [], mk 9 NULL_DATA []])) ∧
    every_node (fun n => n.children.Sorted id_le)
      (mk 0 NULL_DATA [mk 2 NULL_DATA [], mk 5 NULL_DATA [], mk 9 NULL_DATA []]) :=
  ⟨by decide, deserialize_sorted.1 [0, 3, 9, 0, 2, 0, 5, 0] _ (by decide)⟩

end id_tree

namespace path_part_collection

/-! ## Separator runs -/

/-- C21. Leading and repeated separators are ignored by `to_ids` and the separator
characters are interchangeable. For every table: a non-empty run of separators between a
prefix that ends in a non-separator and a following token may be replaced by any other
non-empty run of separators, in particular by a single `/`, `\` or `:`; and a run of
separators put in front of a path that ends in a non-separator does not change the
outcome (read from right to left: deleting the leading run does not either). -/
theorem to_ids_separator_runs (c : path_part_collection) :
    (∀ (p seps1 seps2 t q : List Char),
      (∀ a ∈ p.getLast?, is_path_separator a = false) →
      seps1 ≠ [] → (∀ a ∈ seps1, is_path_separator a = true) →
      seps2 ≠ [] → (∀ a ∈ seps2, is_path_separator a = true) →
      t ≠ [] → (∀ a ∈ t, is_path_separator a = false) →
      (∀ a ∈ q.head?, is_path_separator a = true) →
      c.to_ids (p ++ (seps1 ++ (t ++ q))) = c.to_ids (p ++ (seps2 ++ (t ++ q)))) ∧
    (∀ (seps path : List Char), (∀ a ∈ seps, is_path_separator a = true) → path ≠ [] →
      (∀ a ∈ path.getLast?, is_path_separator a = false) →
      c.to_ids (seps ++ path) = c.to_ids path) := by
  constructor
  · intro p seps1 seps2 t q hp h1 hs1 h2 hs2 ht htok hq
    rw [to_ids_split c p seps1 t q hp hs1 (fun _ => h1) ht htok hq,
      to_ids_split c p seps2 t q hp hs2 (fun _ => h2) ht htok hq]
  · intro seps path hseps hne hlast
    obtain ⟨s0, t, x, hsplit, hs0, ht, htok, hx, _, _⟩ := split_first_token path hne hlast
    have hnil : ∀ a ∈ ([] : List Char).getLast?, is_path_separator a = false := by
      intro a ha
      cases ha
    have hl := to_ids_split c [] (seps ++ s0) t x hnil
      (fun a ha => (List.mem_append.1 ha).elim (hseps a) (hs0 a)) (fun h => absurd rfl h) ht htok hx
    have hr := to_ids_split c [] s0 t x hnil hs0 (fun h => absurd rfl h) ht htok hx
    rw [List.nil_append] at hl hr
    rw [hsplit, ← List.append_assoc, hl, hr]

theorem to_ids_separator_runs_witness :
    (⟨[("a".toList, 1), ("b".toList, 2)]⟩ : path_part_collection).to_ids
        ("a".toList ++ ("/:".toList ++ ("b".toList ++ "\\..".toList))) =
      (⟨[("a".toList, 1), ("b".toList, 2)]⟩ : path_part_collection).to_ids
        ("a".toList ++ ("\\".toList ++ ("b".toList ++ "\\..".toList))) ∧
    (⟨[("a".toList, 1), ("b".toList, 2)]⟩ : path_part_collection).to_ids
        ("/:".toList ++ "a/b".toList) =
      (⟨[("a".toList, 1), ("b".toList, 2)]⟩ : path_part_collection).to_ids "a/b".toList :=
  ⟨(to_ids_separator_runs _).1 "a".toList "/:".toList "\\".toList "b".toList "\\..".toList
      (by decide) (by decide) (by decide) (by decide) (by decide) (by decide) (by decide)
      (by decide),
    (to_ids_separator_runs _).2 "/:".toList "a/b".toList (by decide) (by decide) (by decide)⟩

/-! ## The arguments of the callback -/

theorem tokens_nil : tokens [] = [] := rfl

theorem tokens_sep_cons {a : Char} (ha : is_path_separator a = true) (xs : List Char) :
    tokens (a :: xs) = tokens xs := by
  unfold tokens
  rw [List.splitOnP_cons, if_pos ha, List.filter_cons_of_neg (by simp)]

theorem tokens_seps_append {seps : List Char} (hseps : ∀ a ∈ seps, is_path_separator a = true)
    (xs : List Char) : tokens (seps ++ xs) = tokens xs := by
  induction seps with
  | nil => rfl
  | cons a as ih =>
    rw [List.cons_append, tokens_sep_cons (hseps a (List.mem_cons_self _ _)),
      ih (fun b hb => hseps b (List.mem_cons_of_mem _ hb))]

theorem tokens_token {t x : List Char} (ht : t ≠ [])
    (htok : ∀ a ∈ t, is_path_separator a = false)
    (hx : ∀ a ∈ x.head?, is_path_separator a = true) : tokens (t ++ x) = t :: tokens x := by
  have hnot : ∀ a ∈ t, ¬ is_path_separator a = true := fun a ha => by simp [htok a ha]
  have hte : (!t.isEmpty) = true := by
    cases t with
    | nil => exact absurd rfl ht
    | cons a as => rfl
  cases x with
  | nil =>
    unfold tokens
    rw [List.append_nil, List.splitOnP_eq_single _ _ hnot]
    simp [List.filter_cons, hte]
  | cons b bs =>
    have hb : is_path_separator b = true := hx b (by simp)
    rw [tokens_sep_cons hb]
    unfold tokens
    rw [List.splitOnP_first _ _ hnot b hb]
    simp [List.filter_cons, hte]

theorem call_part_eq {σ : Type} (func : σ → List Char → Except Err σ) (s : σ)
    (part : List Char) :
    call_part func s part = if part = CURR_DIR then pure s else func s part := by
  unfold call_part
  by_cases h1 : part = CURR_DIR
  · rw [if_neg (not_not.mpr h1), if_pos h1]
  · rw [if_pos h1, if_neg h1]
    by_cases h2 : part = PARENT_DIR
    · rw [if_pos h2, h2]
    · rw [if_neg h2]

/-- On a rest that is empty or ends in a non-separator the loop of `enumerate_path` calls
the callback on the tokens other than `.`, from left to right, and stops at the first
call that throws. -/
theorem enumerate_rest_tokens {σ : Type} (func : σ → List Char → Except Err σ) :
    ∀ (n : Nat) (path : List Char) (s : σ), path.length ≤ n →
      (∀ a ∈ path.getLast?, is_path_separator a = false) →
      enumerate_rest func path s =
        ((tokens path).filter (fun t => decide (t ≠ CURR_DIR))).foldlM func s := by
  intro n
  induction n with
  | zero =>
    intro path s hlen _
    have : path = [] := List.length_eq_zero.mp (Nat.le_zero.mp hlen)
    rw [this]
    rfl
  | succ n ih =>
    intro path s hlen hlast
    by_cases hne : path = []
    · rw [hne]
      rfl
    · obtain ⟨seps, t, x, hsplit, hseps, ht, htok, hx, hxlen, hxlast⟩ :=
        split_first_token path hne hlast
      rw [hsplit, enumerate_rest_token func seps t x s hseps ht htok hx,
        tokens_seps_append hseps, tokens_token ht htok hx, call_part_eq]
      have hrec : ∀ s2, enumerate_rest func x s2 =
          ((tokens x).filter (fun t => decide (t ≠ CURR_DIR))).foldlM func s2 :=
        fun s2 => ih x s2 (by omega) hxlast
      by_cases hc : t = CURR_DIR
      · rw [if_pos hc, List.filter_cons_of_neg (by simp [hc])]
        exact hrec s
      · rw [if_neg hc, List.filter_cons_of_pos (by simp [hc]), List.foldlM_cons]
        congr 1
        funext s2
        exact hrec s2

theorem foldlM_record (l : List (List Char)) :
    ∀ s : List (List Char), l.foldlM record s = .ok (s ++ l) := by
  induction l with
  | nil => intro s; rw [List.append_nil]; rfl
  | cons a as ih =>
    intro s
    rw [List.foldlM_cons]
    show as.foldlM record (s ++ [a]) = _
    rw [ih, List.append_assoc]
    rfl

/-- C23 as stated fails on `a/./b`: the tokens are `a`, `.`, `b`, and the callback is
called with `.`, `a`, `b`; the token `.` is dropped. -/
theorem enumerate_path_drops_curr_dir :
    tokens "a/./b".toList = ["a".toList, ".".toList, "b".toList] ∧
    enumerate_path "a/./b".toList record [] = .ok [".".toList, "a".toList, "b".toList] := by
  decide

/-- C23, amended. For every path that is empty or ends in a non-separator character, the
arguments `enumerate_path` passes to its callback are the current-directory marker `.`
once, followed by the tokens of the path other than `.`, once each from left to right; no
empty part is passed. For a callback that may throw, the calls are these up to the first
one that throws. -/
theorem enumerate_path_arguments (path : List Char)
    (hlast : ∀ a ∈ path.getLast?, is_path_separator a = false) :
    enumerate_path path record [] =
      .ok (CURR_DIR :: (tokens path).filter (fun t => decide (t ≠ CURR_DIR))) ∧
    [] ∉ CURR_DIR :: (tokens path).filter (fun t => decide (t ≠ CURR_DIR)) ∧
    (∀ (σ : Type) (func : σ → List Char → Except Err σ) (s : σ),
      enumerate_path path func s =
        (CURR_DIR :: (tokens path).filter (fun t => decide (t ≠ CURR_DIR))).foldlM func s) := by
  have hgen : ∀ (σ : Type) (func : σ → List Char → Except Err σ) (s : σ),
      enumerate_path path func s =
        (CURR_DIR :: (tokens path).filter (fun t => decide (t ≠ CURR_DIR))).foldlM func s := by
    intro σ func s
    unfold enumerate_path
    rw [List.foldlM_cons]
    congr 1
    funext s2
    exact enumerate_rest_tokens func path.length path s2 (Nat.le_refl _) hlast
  refine ⟨?_, ?_, hgen⟩
  · rw [hgen, foldlM_record]
    rfl
  · intro hmem
    rcases List.mem_cons.1 hmem with h | h
    · cases h
    · have h2 := (List.mem_filter.1 h).1
      unfold tokens at h2
      have h3 := (List.mem_filter.1 h2).2
      simp at h3

theorem enumerate_path_arguments_witness :
    enumerate_path "/a:.\\..//b".toList record [] =
      .ok (CURR_DIR :: (tokens "/a:.\\..//b".toList).filter (fun t => decide (t ≠ CURR_DIR))) ∧
    (tokens "/a:.\\..//b".toList).filter (fun t => decide (t ≠ CURR_DIR)) =
      ["a".toList, "..".toList, "b".toList] :=
  ⟨(enumerate_path_arguments "/a:.\\..//b".toList (by decide)).1, by decide⟩

end path_part_collection

namespace path_part_collection

/-- C22 (the code falls short). The member `add_part` rejects the empty segment, `.`, `..`
and every segment that holds `/` or `\`, but it does not look for `:`, the third separator
of `is_path_separator`: `add_part("a:b", 1)` succeeds and the table then holds the key
`a:b`, which `to_ids` cannot reach because `enumerate_path` splits the path at `:`. -/
theorem add_part_accepts_colon :
    is_path_separator ':' = true ∧
    add_part ⟨[]⟩ "a:b".toList 1 = .ok ⟨[("a:b".toList, 1)]⟩ ∧
    to_ids ⟨[("a:b".toList, 1)]⟩ "a:b".toList = .error .part_not_found ∧
    (∀ (c : path_part_collection) (id : Nat),
      c.add_part [] id = .error .empty_path ∧
      c.add_part CURR_DIR id = .error .dir_marker ∧
      c.add_part PARENT_DIR id = .error .dir_marker) ∧
    (∀ (c : path_part_collection) (part : List Char) (id : Nat),
      '/' ∈ part ∨ '\\' ∈ part → ∃ e, c.add_part part id = .error e) := by
  refine ⟨by decide, by decide, by decide, fun c id => ⟨rfl, rfl, rfl⟩, ?_⟩
  intro c part id h
  unfold add_part
  by_cases h1 : part = []
  · rw [if_pos h1]; exact ⟨_, rfl⟩
  · rw [if_neg h1]
    by_cases h2 : part = CURR_DIR ∨ part = PARENT_DIR
    · rw [if_pos h2]; exact ⟨_, rfl⟩
    · rw [if_neg h2, if_pos h]; exact ⟨_, rfl⟩

theorem add_part_accepts_colon_witness :
    ∃ e, add_part ⟨[("a".toList, 1)]⟩ "b/c".toList 2 = .error e :=
  add_part_accepts_colon.2.2.2.2 ⟨[("a".toList, 1)]⟩ "b/c".toList 2 (Or.inl (by decide))

end path_part_collection

namespace id_tree

/-- On a node with a child the traversal does not return, whatever the budget: the first
iteration of its loop calls the traversal on the same node again. -/
theorem for_each_child_diverges {σ : Type} (func : σ → id_tree → σ) (t : id_tree)
    (ht : t.children ≠ []) :
    ∀ (fuel : Nat) (s : σ), for_each_child func fuel t s = .error .out_of_fuel := by
  intro fuel
  induction fuel with
  | zero => intro s; rfl
  | succ fuel ih =>
    intro s
    rw [for_each_child]
    cases hl : t.children.length with
    | zero => exact absurd (List.length_eq_zero.mp hl) ht
    | succ n => rw [for_each_loop, ih, bind_error]

/-- C24 (the code falls short). On a root with one child the traversal `for_each_child`
does not terminate: for every bound on the depth of its recursion the bound is exceeded,
because the loop over the children calls `for_each_child` on the node itself, not on the
child. The claim has the callback run once on the root and once on the child. Only on a
node without children does the traversal return, after one call of the callback. -/
theorem for_each_child_never_returns :
    (∀ fuel : Nat,
      for_each_child (fun (s : List Nat) n => s ++ [n.id]) fuel
        (mk 0 NULL_DATA [mk 1 NULL_DATA []]) [] = .error .out_of_fuel) ∧
    (preorder (mk 0 NULL_DATA [mk 1 NULL_DATA []])).map id = [0, 1] ∧
    (∀ (fuel i d : Nat),
      for_each_child (fun (s : List Nat) n => s ++ [n.id]) (fuel + 1) (mk i d []) [] =
        .ok [i]) := by
  refine ⟨fun fuel => for_each_child_diverges _ _ (by decide) fuel [], by decide, ?_⟩
  intro fuel i d
  rfl

/-! ## Depth -/

theorem chain_canonical : ∀ n : Nat, every_node node_canonical (chain n) := by
  intro n
  induction n with
  | zero =>
    rw [chain, every_node_iff]
    exact ⟨⟨List.Pairwise.nil, by decide⟩, fun c hc => by cases hc⟩
  | succ n ih =>
    rw [chain, every_node_iff]
    refine ⟨⟨List.pairwise_singleton _ _, (by show (0 : Nat) < 2 ^ 63; norm_num)⟩, ?_⟩
    intro c hc
    rw [children_mk, List.mem_singleton] at hc
    rw [hc]
    exact ih

theorem depth_chain : ∀ n : Nat, depth (chain n) = n + 1 := by
  intro n
  induction n with
  | zero => rfl
  | succ n ih =>
    rw [chain, depth, depth_list, depth_list, ih]
    omega

/-- C25 as stated fails: no bound `D` makes `deserialize` reject every well-formed array
that nests deeper than `D`. -/
theorem deserialize_no_depth_bound :
    ¬ ∃ D : Nat, ∀ t : id_tree, every_node node_canonical t → D < depth t →
      deserialize (serialize t) = .ok none := by
  rintro ⟨D, h⟩
  have h1 := h (chain D) (chain_canonical D) (by rw [depth_chain]; omega)
  rw [deserialize_serialize_canonical (chain D) (chain_canonical D)] at h1
  cases h1

/-- C25, amended. The function `deserialize` has no bound on the nesting depth past which
it fails with a format error: for every `D` there is a well-formed array, the serialization
of a tree with strictly ascending children and ids with the top bit clear that nests deeper
than `D`, on which `deserialize` does not return `nullptr`; and whatever depth of recursion
the `parse` lambda is allowed on that array, it does not return its failure result. -/
theorem deserialize_depth_not_rejected :
    ∀ D : Nat, ∃ t : id_tree, every_node node_canonical t ∧ D < depth t ∧
      deserialize (serialize t) ≠ .ok none ∧
      ∀ fuel k : Nat, parse (serialize t) fuel 0 ≠ .ok (none, k) := by
  intro D
  have hc := chain_canonical D
  refine ⟨chain D, hc, by rw [depth_chain]; omega, ?_, ?_⟩
  · rw [deserialize_serialize_canonical (chain D) hc]
    intro h
    cases h
  · intro fuel k h
    have h1 := parse_mono (serialize (chain D)) fuel (max fuel (serialize (chain D)).length) 0 _
      (Nat.le_max_left _ _) h
    have h2 := parse_serialize (chain D) hc (max fuel (serialize (chain D)).length) [] []
      (Nat.le_max_right _ _)
    simp only [List.nil_append, List.append_nil, List.length_nil] at h2
    rw [h2] at h1
    cases h1

/-! ## Uniqueness of sibling ids -/

theorem ascending_nodup {cs : List id_tree} (h : ascending cs) : (cs.map id).Nodup := by
  unfold List.Nodup
  rw [List.pairwise_map]
  exact List.Pairwise.imp (fun hab => Nat.ne_of_lt hab) h

/-- C26 as stated fails on a tree that `deserialize` returns: the array `[0, 2, 5, 0, 5, 0]`
gives a root with two children of id 5. -/
theorem deserialize_keeps_duplicates :
    deserialize [0, 2, 5, 0, 5, 0] =
      .ok (some (mk 0 NULL_DATA [mk 5 NULL_DATA [], mk 5 NULL_DATA []])) ∧
    ¬ ((mk 0 NULL_DATA [mk 5 NULL_DATA [], mk 5 NULL_DATA []]).children.map id).Nodup := by
  decide

/-- C26, amended. In every tree obtained from a fresh node by `push` calls at any node (at
most `2 ^ 30` calls, the range of the `int32_t` index arithmetic) sibling ids are unique:
no node has two children with the same id. -/
theorem push_all_unique (i d : Nat) (calls : List push_call) (h : calls.length ≤ 2 ^ 30) :
    ∃ t, push_all (mk i d []) calls = .ok t ∧
      every_node (fun n => (n.children.map id).Nodup) t := by
  have h0 : every_node (node_sorted 0) (mk i d []) := by
    rw [every_node_iff]
    exact ⟨⟨List.Pairwise.nil, Nat.le_refl _⟩, fun c hc => by cases hc⟩
  obtain ⟨t, ht, hinv⟩ := push_all_sorted calls 0 (mk i d []) (by omega) h0
  exact ⟨t, ht, every_node_mono (fun n hn => ascending_nodup hn.1) _ hinv⟩

theorem push_all_unique_witness :
    ∃ t, push_all (mk 0 NULL_DATA [])
        [⟨[], 5, 50⟩, ⟨[], 3, NULL_DATA⟩, ⟨[0], 7, 2⟩, ⟨[], 5, 9⟩] = .ok t ∧
      every_node (fun n => (n.children.map id).Nodup) t :=
  push_all_unique 0 NULL_DATA [⟨[], 5, 50⟩, ⟨[], 3, NULL_DATA⟩, ⟨[0], 7, 2⟩, ⟨[], 5, 9⟩]
    (by decide)

end id_tree

/-! ## Reads at an offset -/

/-- The eight bytes of a 64-bit value, each shifted back to its place, make up the value. -/
theorem bytes_or (v : Nat) (hv : v < 2 ^ 64) :
    ((((((((0 ||| ((v >>> 0 &&& 255) <<< 0) % 2 ^ 64) ||| ((v >>> 8 &&& 255) <<< 8) % 2 ^ 64) |||
      ((v >>> 16 &&& 255) <<< 16) % 2 ^ 64) ||| ((v >>> 24 &&& 255) <<< 24) % 2 ^ 64) |||
      ((v >>> 32 &&& 255) <<< 32) % 2 ^ 64) ||| ((v >>> 40 &&& 255) <<< 40) % 2 ^ 64) |||
      ((v >>> 48 &&& 255) <<< 48) % 2 ^ 64) ||| ((v >>> 56 &&& 255) <<< 56) % 2 ^ 64) = v := by
  apply Nat.eq_of_testBit_eq
  intro j
  have h255 : (255 : Nat) = 2 ^ 8 - 1 := by norm_num
  simp only [Nat.testBit_or, Nat.testBit_mod_two_pow, Nat.testBit_shiftLeft, Nat.testBit_and,
    Nat.testBit_shiftRight, h255, Nat.testBit_two_pow_sub_one, Nat.zero_testBit]
  by_cases hj : j < 64
  · interval_cases j <;> simp
  · have : v.testBit j = false :=
      Nat.testBit_lt_two_pow (lt_of_lt_of_le hv (Nat.pow_le_pow_right (by norm_num) (by omega)))
    simp [this, hj]

/-- At offset 0 on a little-endian host the read gives back the value whose bytes
`write_bytes` put at the start of the buffer. -/
theorem read_bytes_write_bytes_zero (v : Nat) (hv : v < 2 ^ 64) (rest : List Nat) :
    read_bytes false 8 (write_bytes false 8 [] v ++ rest) 0 = .ok v := by
  have hr : List.range 8 = [0, 1, 2, 3, 4, 5, 6, 7] := by decide
  have hdata : write_bytes false 8 [] v ++ rest =
      (v >>> 0 &&& 255) :: (v >>> 8 &&& 255) :: (v >>> 16 &&& 255) :: (v >>> 24 &&& 255) ::
      (v >>> 32 &&& 255) :: (v >>> 40 &&& 255) :: (v >>> 48 &&& 255) :: (v >>> 56 &&& 255) ::
      rest := by
    unfold write_bytes
    rw [hr]
    rfl
  rw [hdata]
  unfold read_bytes
  rw [hr]
  simp only [Bool.false_eq_true, if_false, List.map, List.foldlM_cons, List.foldlM_nil]
  simp only [read_byte, shift_left]
  simp [bind_ok]
  have h := bytes_or v hv
  simpa using h

/-- The read of a `uint64_t` at an offset other than 0 is undefined: below 0 it indexes
before the buffer, above 0 its last step shifts by `(offset + 7) * 8`, which is 64 or more,
or indexes past the buffer. -/
theorem read_bytes_offset_undefined (big_endian : Bool) (data : List Nat) (k : Int)
    (hk : k ≠ 0) : read_bytes big_endian 8 data k = .error .undefined := by
  unfold read_bytes
  apply foldlM_undefined _ (fun v i => read_step_ok_or_undefined 8 data v i)
  have hmem : ∀ j : Nat, j < 8 →
      k + (j : Int) ∈ (if big_endian = true then
        ((List.range 8).map fun (j : Nat) => k + (j : Int)).reverse
        else (List.range 8).map fun (j : Nat) => k + (j : Int)) := by
    intro j hj
    have hm : k + (j : Int) ∈ (List.range 8).map (fun (j : Nat) => k + (j : Int)) :=
      List.mem_map.mpr ⟨j, List.mem_range.mpr hj, rfl⟩
    cases big_endian
    · simpa using hm
    · simp only [if_true, List.mem_reverse]
      exact hm
  by_cases hpos : 0 < k
  · refine ⟨k + ((7 : Nat) : Int), hmem 7 (by decide), ?_⟩
    intro v
    unfold read_byte
    rw [if_pos (by omega)]
    cases hb : data[(k + ((7 : Nat) : Int)).toNat]? with
    | none => rfl
    | some b =>
      simp only [bind_ok]
      unfold shift_left
      rw [if_neg (by omega)]
      rfl
  · refine ⟨k + ((0 : Nat) : Int), hmem 0 (by decide), ?_⟩
    intro v
    unfold read_byte
    rw [if_neg (by omega)]
    rfl

namespace id_tree

/-! ## One push on a sorted node -/

/-- The two outcomes of `push(x, d)` on a node with strictly ascending children: the id is
present at some index `k`, which is returned and nothing changes; or it is absent and the
new leaf is inserted at the returned index `p`, which keeps the list ascending. -/
theorem push_cases {t : id_tree} (hs : ascending t.children)
    (hn : t.children.length ≤ 2 ^ 30) {x : Nat} (hx : x < 2 ^ 63) (d : Nat) :
    (∃ (k : Nat) (c : id_tree), t.children[k]? = some c ∧ c.id = x ∧
      t.push x d = .ok (t, (k : Int))) ∨
    ((∀ c ∈ t.children, c.id ≠ x) ∧ ∃ p : Nat, p ≤ t.children.length ∧
      t.push x d =
        .ok (mk t.id t.data (t.children.take p ++ mk x d [] :: t.children.drop p), (p : Int)) ∧
      ascending (t.children.take p ++ mk x d [] :: t.children.drop p)) := by
  have hpush : t.push x d = t.push_node (mk x d []) := by
    unfold push
    rw [new_ok hx, bind_ok]
  by_cases hex : ∃ c ∈ t.children, c.id = x
  · obtain ⟨c, hc, hcx⟩ := hex
    obtain ⟨k, hk, hkc⟩ := List.getElem_of_mem hc
    have hk2 : t.children[k]? = some c := by rw [List.getElem?_eq_getElem hk, hkc]
    exact Or.inl ⟨k, c, hk2, hcx, by rw [hpush]; exact push_node_present hs hn hk2 hcx⟩
  · have hab : ∀ c ∈ t.children, c.id ≠ (mk x d []).id := fun c hc hcx => hex ⟨c, hc, hcx⟩
    obtain ⟨p, hp, hres, hlo, hhi⟩ := push_node_absent hs hn hab
    exact Or.inr ⟨fun c hc hcx => hex ⟨c, hc, hcx⟩, p, hp, by rw [hpush]; exact hres,
      ascending_insert hs _ p hlo hhi⟩

theorem getElem?_insert_at (cs : List id_tree) (o : id_tree) {p : Nat} (hp : p ≤ cs.length) :
    (cs.take p ++ o :: cs.drop p)[p]? = some o := by
  have hl : (cs.take p).length = p := by rw [List.length_take]; omega
  rw [List.getElem?_append_right (by omega), hl, Nat.sub_self]
  simp

theorem eraseIdx_insert_at (cs : List id_tree) (o : id_tree) {p : Nat} (hp : p ≤ cs.length) :
    (cs.take p ++ o :: cs.drop p).eraseIdx p = cs := by
  have hl : (cs.take p).length = p := by rw [List.length_take]; omega
  rw [List.eraseIdx_append_of_length_le (by omega), hl, Nat.sub_self]
  simp

theorem length_insert_at (cs : List id_tree) (o : id_tree) (p : Nat) :
    (cs.take p ++ o :: cs.drop p).length = cs.length + 1 := by
  have := congrArg List.length (List.take_append_drop p cs)
  rw [List.length_append] at this
  rw [List.length_append, List.length_cons]
  omega

theorem perm_insert_at (cs : List id_tree) (o : id_tree) (p : Nat) :
    (cs.take p ++ o :: cs.drop p).Perm (o :: cs) := by
  have h1 : (cs.take p ++ o :: cs.drop p).Perm (o :: (cs.take p ++ cs.drop p)) :=
    List.perm_middle
  rwa [List.take_append_drop] at h1

/-- C28. On a node whose children are strictly ascending by id (fewer than `2 ^ 30` of them,
the range of the `int32_t` index arithmetic) and for an id `x` with the top bit clear,
`push(x, d)` returns an index `i` that is a valid child index of the node after the call;
the child at `i` has id `x`; the single-level `find(x)` on the node after the call returns
`i`; and when `x` was not among the children before, that child is the leaf with id `x` and
data `d`. -/
theorem push_index_spec (t : id_tree) (x d : Nat) (hs : ascending t.children)
    (hn : t.children.length < 2 ^ 30) (hx : x < 2 ^ 63) :
    ∃ (t2 : id_tree) (i : Nat) (c : id_tree), t.push x d = .ok (t2, (i : Int)) ∧
      t2.valid_idx (i : Int) = true ∧ t2.children[i]? = some c ∧ c.id = x ∧
      t2.find x = .ok (i : Int) ∧
      ((∀ c0 ∈ t.children, c0.id ≠ x) → c = mk x d []) := by
  rcases push_cases hs (Nat.le_of_lt hn) hx d with ⟨k, c, hk, hcx, hres⟩ | ⟨hab, p, hp, hres, hasc⟩
  · refine ⟨t, k, c, hres, ?_, hk, hcx, find_present hs (Nat.le_of_lt hn) hk hcx, ?_⟩
    · have hlt : k < t.children.length := by
        by_contra hge
        rw [List.getElem?_eq_none (by omega)] at hk
        cases hk
      simp [valid_idx, hlt]
    · intro h
      exact absurd hcx (h c (List.getElem?_mem hk))
  · have hget := getElem?_insert_at t.children (mk x d []) hp
    have hlen := length_insert_at t.children (mk x d []) p
    refine ⟨_, p, mk x d [], hres, ?_, by rw [children_mk]; exact hget, rfl, ?_, fun _ => rfl⟩
    · simp only [valid_idx, children_mk, hlen]
      simp
      omega
    · apply find_present (c := mk x d []) (by rw [children_mk]; exact hasc)
        (by rw [children_mk, hlen]; omega) (by rw [children_mk]; exact hget) rfl

theorem push_index_spec_witness :
    ∃ (t2 : id_tree) (i : Nat) (c : id_tree),
      (mk 0 NULL_DATA [mk 3 7 [], mk 5 8 [mk 1 1 []]]).push 4 9 = .ok (t2, (i : Int)) ∧
      t2.valid_idx (i : Int) = true ∧ t2.children[i]? = some c ∧ c.id = 4 ∧
      t2.find 4 = .ok (i : Int) ∧
      ((∀ c0 ∈ (mk 0 NULL_DATA [mk 3 7 [], mk 5 8 [mk 1 1 []]]).children, c0.id ≠ 4) →
        c = mk 4 9 []) :=
  push_index_spec (mk 0 NULL_DATA [mk 3 7 [], mk 5 8 [mk 1 1 []]]) 4 9 (by decide) (by decide)
    (by decide)

/-- C29 as stated fails for an id with the top bit set: `2 ^ 63 + 5` is not among the
children of the node, which are strictly ascending, and `push(2 ^ 63 + 5, 1)` throws the
exception of the constructor and inserts nothing. -/
theorem push_flag_id_throws :
    ascending (mk 0 NULL_DATA [mk 3 7 []]).children ∧
    (∀ c ∈ (mk 0 NULL_DATA [mk 3 7 []]).children, c.id ≠ 2 ^ 63 + 5) ∧
    (mk 0 NULL_DATA [mk 3 7 []]).push (2 ^ 63 + 5) 1 = .error .id_negative := by
  decide

/-- C29, amended. On a node whose children are strictly ascending by id (at most `2 ^ 30`
of them, the range of the `int32_t` index arithmetic) and for an id `x` with the top bit
clear that is not among them, `push(x, d)` succeeds and changes the child list only by
inserting the new leaf at the returned index `p`: the children before `p` and from `p` on
are the old ones in their order, removing the entry at `p` gives back the list before the
call, and the id and the data of the node itself are unchanged. -/
theorem push_frame (t : id_tree) (x d : Nat) (hs : ascending t.children)
    (hn : t.children.length ≤ 2 ^ 30) (hx : x < 2 ^ 63) (hab : ∀ c ∈ t.children, c.id ≠ x) :
    ∃ (t2 : id_tree) (p : Nat), t.push x d = .ok (t2, (p : Int)) ∧
      t2.children = t.children.take p ++ mk x d [] :: t.children.drop p ∧
      t2.children.eraseIdx p = t.children ∧ t2.children[p]? = some (mk x d []) ∧
      t2.children.length = t.children.length + 1 ∧
      t2.id = t.id ∧ t2.data = t.data := by
  rcases push_cases hs hn hx d with ⟨k, c, hk, hcx, _⟩ | ⟨_, p, hp, hres, _⟩
  · exact absurd hcx (hab c (List.getElem?_mem hk))
  · exact ⟨_, p, hres, rfl, eraseIdx_insert_at _ _ hp, getElem?_insert_at _ _ hp,
      length_insert_at _ _ _, rfl, rfl⟩

theorem push_frame_witness :
    ∃ (t2 : id_tree) (p : Nat),
      (mk 6 2 [mk 3 7 [], mk 5 8 [mk 1 1 []]]).push 4 9 = .ok (t2, (p : Int)) ∧
      t2.children = (mk 6 2 [mk 3 7 [], mk 5 8 [mk 1 1 []]]).children.take p ++
        mk 4 9 [] :: (mk 6 2 [mk 3 7 [], mk 5 8 [mk 1 1 []]]).children.drop p ∧
      t2.children.eraseIdx p = (mk 6 2 [mk 3 7 [], mk 5 8 [mk 1 1 []]]).children ∧
      t2.children[p]? = some (mk 4 9 []) ∧
      t2.children.length = (mk 6 2 [mk 3 7 [], mk 5 8 [mk 1 1 []]]).children.length + 1 ∧
      t2.id = (mk 6 2 [mk 3 7 [], mk 5 8 [mk 1 1 []]]).id ∧
      t2.data = (mk 6 2 [mk 3 7 [], mk 5 8 [mk 1 1 []]]).data :=
  push_frame (mk 6 2 [mk 3 7 [], mk 5 8 [mk 1 1 []]]) 4 9 (by decide) (by decide) (by decide)
    (by decide)

end id_tree

namespace id_tree

/-! ## Two pushes of distinct ids -/

/-- The effect of one `push(x, d)` up to the order of the children: the child list stays
ascending and is a rearrangement of the old one, with the new leaf added when the id was
absent. -/
theorem push_perm {t : id_tree} (hs : ascending t.children)
    (hn : t.children.length ≤ 2 ^ 30) {x : Nat} (hx : x < 2 ^ 63) (d : Nat) :
    ∃ (t2 : id_tree) (i : Int), t.push x d = .ok (t2, i) ∧ t2.id = t.id ∧ t2.data = t.data ∧
      ascending t2.children ∧
      t2.children.Perm
        (if (∃ c ∈ t.children, c.id = x) then t.children else mk x d [] :: t.children) := by
  rcases push_cases hs hn hx d with ⟨k, c, hk, hcx, hres⟩ | ⟨hab, p, _, hres, hasc⟩
  · refine ⟨t, k, hres, rfl, rfl, hs, ?_⟩
    rw [if_pos ⟨c, List.getElem?_mem hk, hcx⟩]
  · refine ⟨_, p, hres, rfl, rfl, hasc, ?_⟩
    rw [if_neg (fun ⟨c, hc, hcx⟩ => hab c hc hcx)]
    exact perm_insert_at _ _ _

theorem mem_id_after {cs l : List id_tree} {a b : Nat} (hab : a ≠ b) (x : Nat)
    (h : l.Perm (if (∃ c ∈ cs, c.id = a) then cs else mk a x [] :: cs)) :
    (∃ c ∈ l, c.id = b) ↔ ∃ c ∈ cs, c.id = b := by
  by_cases ha : ∃ c ∈ cs, c.id = a
  · rw [if_pos ha] at h
    exact ⟨fun ⟨c, hc, e⟩ => ⟨c, h.mem_iff.1 hc, e⟩, fun ⟨c, hc, e⟩ => ⟨c, h.mem_iff.2 hc, e⟩⟩
  · rw [if_neg ha] at h
    constructor
    · rintro ⟨c, hc, e⟩
      rcases List.mem_cons.1 (h.mem_iff.1 hc) with hc1 | hc1
      · rw [hc1] at e
        exact absurd e hab
      · exact ⟨c, hc1, e⟩
    · rintro ⟨c, hc, e⟩
      exact ⟨c, h.mem_iff.2 (List.mem_cons_of_mem _ hc), e⟩

/-- The effect of `push(a, x)` followed by `push(b, y)` with `a ≠ b`, up to the order of the
children. -/
theorem push_push_perm {t : id_tree} (hs : ascending t.children)
    (hn : t.children.length < 2 ^ 30) {a b : Nat} (hab : a ≠ b) (ha : a < 2 ^ 63)
    (hb : b < 2 ^ 63) (x y : Nat) :
    ∃ (u : id_tree) (i : Int), (t.push a x >>= fun r => r.1.push b y) = .ok (u, i) ∧
      u.id = t.id ∧ u.data = t.data ∧ ascending u.children ∧
      u.children.Perm
        (if (∃ c ∈ t.children, c.id = b) then
          (if (∃ c ∈ t.children, c.id = a) then t.children else mk a x [] :: t.children)
        else mk b y [] ::
          (if (∃ c ∈ t.children, c.id = a) then t.children else mk a x [] :: t.children)) := by
  obtain ⟨t1, i1, h1, hid1, hd1, hs1, hp1⟩ := push_perm hs (Nat.le_of_lt hn) ha x
  have hlen1 : t1.children.length ≤ 2 ^ 30 := by
    rw [hp1.length_eq]
    split
    · omega
    · rw [List.length_cons]; omega
  obtain ⟨u, i, h2, hid2, hd2, hs2, hp2⟩ := push_perm hs1 hlen1 hb y
  refine ⟨u, i, by rw [h1, bind_ok]; exact h2, hid2.trans hid1, hd2.trans hd1, hs2, ?_⟩
  have hiff := mem_id_after hab x hp1
  by_cases hpb : ∃ c ∈ t.children, c.id = b
  · rw [if_pos (hiff.2 hpb)] at hp2
    rw [if_pos hpb]
    exact hp2.trans hp1
  · rw [if_neg (fun h => hpb (hiff.1 h))] at hp2
    rw [if_neg hpb]
    exact hp2.trans (List.Perm.cons _ hp1)

theorem ascending_perm_eq {l1 l2 : List id_tree} (hp : l1.Perm l2) (h1 : ascending l1)
    (h2 : ascending l2) : l1 = l2 := by
  haveI : IsAntisymm id_tree (fun a b => a.id < b.id) :=
    ⟨fun a b hab hba => absurd hab (Nat.lt_asymm hba)⟩
  exact List.eq_of_perm_of_sorted hp h1 h2

theorem eq_of_fields {u v : id_tree} (hi : u.id = v.id) (hd : u.data = v.data)
    (hc : u.children = v.children) : u = v := by
  cases u with
  | mk i d cs =>
    cases v with
    | mk j e ds =>
      simp only [id, data, children] at hi hd hc
      rw [hi, hd, hc]

/-- C30. On a node whose children are strictly ascending by id (fewer than `2 ^ 30` of
them, the range of the `int32_t` index arithmetic) and for two ids `a ≠ b` with the top
bit clear and any data `x`, `y`: pushing `(a, x)` then `(b, y)` and pushing `(b, y)` then
`(a, x)` both succeed and leave the same node, with the same child sequence. -/
theorem push_commutes (t : id_tree) (a b x y : Nat) (hs : ascending t.children)
    (hn : t.children.length < 2 ^ 30) (ha : a < 2 ^ 63) (hb : b < 2 ^ 63) (hab : a ≠ b) :
    ∃ (u : id_tree) (i j : Int),
      (t.push a x >>= fun r => r.1.push b y) = .ok (u, i) ∧
      (t.push b y >>= fun r => r.1.push a x) = .ok (u, j) := by
  obtain ⟨u, i, hu, hui, hud, hus, hup⟩ := push_push_perm hs hn hab ha hb x y
  obtain ⟨v, j, hv, hvi, hvd, hvs, hvp⟩ := push_push_perm hs hn (Ne.symm hab) hb ha y x
  have hperm : u.children.Perm v.children := by
    refine hup.trans (List.Perm.trans ?_ hvp.symm)
    split_ifs
    · exact List.Perm.refl _
    · exact List.Perm.refl _
    · exact List.Perm.refl _
    · exact List.Perm.swap _ _ _
  have huv : u = v :=
    eq_of_fields (hui.trans hvi.symm) (hud.trans hvd.symm) (ascending_perm_eq hperm hus hvs)
  exact ⟨u, i, j, hu, by rw [huv]; exact hv⟩

theorem push_commutes_witness :
    ∃ (u : id_tree) (i j : Int),
      ((mk 0 NULL_DATA [mk 3 7 [], mk 5 8 [mk 1 1 []]]).push 4 9 >>=
        fun r => r.1.push 1 2) = .ok (u, i) ∧
      ((mk 0 NULL_DATA [mk 3 7 [], mk 5 8 [mk 1 1 []]]).push 1 2 >>=
        fun r => r.1.push 4 9) = .ok (u, j) :=
  push_commutes (mk 0 NULL_DATA [mk 3 7 [], mk 5 8 [mk 1 1 []]]) 4 1 9 2 (by decide)
    (by decide) (by decide) (by decide) (by decide)

end id_tree

namespace id_tree

/-! ## The flag bit of an id -/

theorem and_not_sign_bit_clear (x : Nat) : (x &&& NOT_SIGN_BIT) &&& SIGN_BIT = 0 := by
  apply and_sign_bit_of_lt
  rw [not_sign_bit_eq]
  have h : x &&& (2 ^ 63 - 1) ≤ 2 ^ 63 - 1 := Nat.and_le_right
  omega

theorem new_flag_error {x : Nat} (h : x &&& SIGN_BIT ≠ 0) (d : Nat) :
    new x d = .error .id_negative := by
  unfold new
  rw [if_pos h]

theorem push_flag_error (t : id_tree) {x : Nat} (h : x &&& SIGN_BIT ≠ 0) (d : Nat) :
    t.push x d = .error .id_negative := by
  unfold push
  rw [new_flag_error h, bind_error]

/-- A `push` of an id with the top bit set at the end of any chain of `get_child` calls
throws: the exception of the constructor, or the one of `get_child` on a bad index. -/
theorem push_at_flag_error {x : Nat} (h : x &&& SIGN_BIT ≠ 0) (d : Nat) :
    ∀ (path : List Int) (t : id_tree),
      t.push_at path x d = .error .id_negative ∨ t.push_at path x d = .error .invalid_index := by
  intro path
  induction path with
  | nil =>
    intro t
    rw [push_at]
    exact Or.inl (push_flag_error t h d)
  | cons i path ih =>
    intro t
    rw [push_at]
    rcases get_child_cases t i with ⟨c, hc⟩ | hc
    · rw [hc, bind_ok]
      rcases ih c with h2 | h2
      · rw [h2, bind_error]; exact Or.inl rfl
      · rw [h2, bind_error]; exact Or.inr rfl
    · rw [hc, bind_error]; exact Or.inr rfl

/-- A successful `push` call at any node keeps the top bit of every id clear. -/
theorem push_at_flag_clear :
    ∀ (path : List Int) (t : id_tree) (x d : Nat) (r : id_tree × Int),
      every_node (fun n => n.id &&& SIGN_BIT = 0) t → t.push_at path x d = .ok r →
      every_node (fun n => n.id &&& SIGN_BIT = 0) r.1 := by
  intro path
  induction path with
  | nil =>
    intro t x d r ht h
    rw [push_at] at h
    obtain ⟨hbit, h⟩ := push_shape h
    rcases push_node_shape h with he | ⟨p, he⟩
    · rw [he]; exact ht
    · rw [he]
      rw [every_node_iff] at ht ⊢
      refine ⟨ht.1, ?_⟩
      intro c hc
      simp only [children_mk, List.mem_append, List.mem_cons] at hc
      rcases hc with hc | rfl | hc
      · exact ht.2 c (List.mem_of_mem_take hc)
      · rw [every_node_iff]
        exact ⟨hbit, fun c hc => by cases hc⟩
      · exact ht.2 c (List.mem_of_mem_drop hc)
  | cons i path ih =>
    intro t x d r ht h
    rw [push_at] at h
    cases hg : t.get_child i with
    | error e => rw [hg, bind_error] at h; cases h
    | ok c =>
      rw [hg, bind_ok] at h
      cases hr : c.push_at path x d with
      | error e => rw [hr, bind_error] at h; cases h
      | ok r2 =>
        rw [hr, bind_ok] at h
        cases h
        obtain ⟨_, hci⟩ := get_child_ok hg
        rw [every_node_iff] at ht
        have h1 := ih c x d r2 (ht.2 c (List.getElem?_mem hci)) hr
        rw [every_node_iff]
        refine ⟨ht.1, ?_⟩
        intro c2 hc2
        rw [children_mk] at hc2
        rcases List.mem_or_eq_of_mem_set hc2 with hc2 | rfl
        · exact ht.2 c2 hc2
        · exact h1

theorem push_all_flag_clear :
    ∀ (calls : List push_call) (t t2 : id_tree),
      every_node (fun n => n.id &&& SIGN_BIT = 0) t → push_all t calls = .ok t2 →
      every_node (fun n => n.id &&& SIGN_BIT = 0) t2 := by
  intro calls
  induction calls with
  | nil =>
    intro t t2 ht h
    cases h
    exact ht
  | cons c cs ih =>
    intro t t2 ht h
    rw [push_all] at h
    cases hp : t.push_at c.path c.id c.data with
    | ok r =>
      rw [hp] at h
      exact ih r.1 t2 (push_at_flag_clear c.path t c.id c.data r ht hp) h
    | error e =>
      rw [hp] at h
      cases e <;> first | exact ih t t2 ht h | cases h

/-- Every node of a tree the `parse` lambda returns has the top bit of its id clear. -/
theorem parse_flag_clear (words : List Nat) :
    ∀ (fuel b : Nat) (t : id_tree) (k : Nat), parse words fuel b = .ok (some t, k) →
      every_node (fun n => n.id &&& SIGN_BIT = 0) t := by
  intro fuel
  induction fuel with
  | zero => intro b t k h; rw [parse] at h; cases h
  | succ fuel ih =>
    intro b t k h
    rw [parse_succ] at h
    obtain ⟨_, data, count, ptr, cs, _, _, _, _, hc, ht⟩ := parse_node_some_inv h
    rw [ht, every_node_iff]
    refine ⟨and_not_sign_bit_clear _, ?_⟩
    intro c hc2
    rw [children_mk] at hc2
    have hmem : c ∈ cs := (sort_children_perm cs).mem_iff.mp hc2
    exact parse_children_all (fun p t k hp => ih p t k hp) _ _ _ _ _
      (fun c hc => by cases hc) hc c hmem

/-- C31. No node carries an id with the top (flag) bit set. The constructor
`id_tree(id, data)` and `push(id, data)` throw on an id whose top bit is set, and a caller
that catches the exception of such a `push`, made at any node of a tree, finds the tree as
it was. A node the constructor returns has the top bit of its id clear; a sequence of
`push` calls on a tree whose ids have the top bit clear gives a tree whose ids have it
clear; and every node of every tree returned by `deserialize` has the top bit of its id
clear, the flag bit of the first word of a node being stripped. -/
theorem flag_bit_never_in_id :
    (∀ (x d : Nat), x &&& SIGN_BIT ≠ 0 → new x d = .error .id_negative) ∧
    (∀ (x d : Nat) (t : id_tree), new x d = .ok t →
      every_node (fun n => n.id &&& SIGN_BIT = 0) t) ∧
    (∀ (t : id_tree) (x d : Nat), x &&& SIGN_BIT ≠ 0 → t.push x d = .error .id_negative) ∧
    (∀ (t : id_tree) (path : List Int) (x d : Nat), x &&& SIGN_BIT ≠ 0 →
      push_all t [⟨path, x, d⟩] = .ok t) ∧
    (∀ (t t2 : id_tree) (calls : List push_call),
      every_node (fun n => n.id &&& SIGN_BIT = 0) t → push_all t calls = .ok t2 →
      every_node (fun n => n.id &&& SIGN_BIT = 0) t2) ∧
    (∀ (nodes : List Nat) (t : id_tree), deserialize nodes = .ok (some t) →
      every_node (fun n => n.id &&& SIGN_BIT = 0) t) := by
  refine ⟨fun x d h => new_flag_error h d, ?_, fun t x d h => push_flag_error t h d, ?_,
    fun t t2 calls ht h => push_all_flag_clear calls t t2 ht h, ?_⟩
  · intro x d t h
    unfold new at h
    by_cases hx : x &&& SIGN_BIT ≠ 0
    · rw [if_pos hx] at h
      cases h
    · rw [if_neg hx] at h
      cases h
      rw [every_node_iff]
      exact ⟨not_not.mp hx, fun c hc => by cases hc⟩
  · intro t path x d h
    rw [push_all]
    rcases push_at_flag_error h d path t with h2 | h2
    · simp only [h2]
      rfl
    · simp only [h2]
      rfl
  · intro nodes t h
    exact parse_flag_clear nodes _ _ t _ ((deserialize_some_iff nodes t).mp h)

theorem flag_bit_never_in_id_witness :
    new (2 ^ 63 + 5) 1 = .error .id_negative ∧
    (mk 0 NULL_DATA [mk 3 7 []]).push (2 ^ 63 + 5) 1 = .error .id_negative ∧
    push_all (mk 0 NULL_DATA [mk 3 7 []]) [⟨[0], 2 ^ 63 + 5, 1⟩] =
      .ok (mk 0 NULL_DATA [mk 3 7 []]) ∧
    every_node (fun n => n.id &&& SIGN_BIT = 0) (mk 5 9 [mk 2 NULL_DATA []]) :=
  ⟨flag_bit_never_in_id.1 (2 ^ 63 + 5) 1 (by decide),
    flag_bit_never_in_id.2.2.1 (mk 0 NULL_DATA [mk 3 7 []]) (2 ^ 63 + 5) 1 (by decide),
    flag_bit_never_in_id.2.2.2.1 (mk 0 NULL_DATA [mk 3 7 []]) [0] (2 ^ 63 + 5) 1 (by decide),
    flag_bit_never_in_id.2.2.2.2.2 [2 ^ 63 + 5, 9, 1, 2, 0] (mk 5 9 [mk 2 NULL_DATA []])
      (by decide)⟩

end id_tree

/-! ## Arrays of words as bytes -/

theorem toInt32_small {n : Nat} (h : n < 2 ^ 31) : toInt32 (n : Int) = (n : Int) := by
  unfold toInt32
  omega

/-- On the first `n` elements of an array `to_bytes` returns their bytes, element after
element. -/
theorem to_bytes_take (big_endian : Bool) (size : Nat) (value : List Nat) :
    ∀ n : Nat, n ≤ value.length →
      to_bytes big_endian size value n =
        .ok ((value.take n).flatMap (fun w => write_bytes big_endian size [] w)) := by
  intro n
  induction n with
  | zero => intro _; rfl
  | succ n ih =>
    intro hn
    have hlt : n < value.length := hn
    have ih2 := ih (Nat.le_of_lt hlt)
    unfold to_bytes at ih2 ⊢
    rw [List.range_succ, List.foldlM_append, ih2, bind_ok, List.foldlM_cons,
      List.getElem?_eq_getElem hlt]
    simp only [List.foldlM_nil]
    show Except.ok (write_bytes big_endian size _ value[n]) = _
    rw [write_bytes_append, List.take_succ, List.getElem?_eq_getElem hlt]
    simp only [Option.toList, List.flatMap_append, List.flatMap_cons, List.flatMap_nil,
      List.append_nil]

theorem to_bytes_length (big_endian : Bool) (value bs : List Nat)
    (h : to_bytes big_endian 8 value value.length = .ok bs) : bs.length = 8 * value.length := by
  rw [to_bytes_take big_endian 8 value value.length (Nat.le_refl _), List.take_length] at h
  cases h
  exact chunk.length_flatMap_const value _ 8 (fun w => write_bytes_length big_endian 8 w)

/-- With two or more words to read the loop of `from_bytes` reaches the offset 8, where
the read is undefined. -/
theorem from_bytes_loop_undefined (big_endian : Bool) (sp : List Nat) {count : Nat}
    (hc : 8 < count) (fuel : Nat) :
    from_bytes_loop big_endian 8 sp count (fuel + 2) 0 [] = .error .undefined := by
  rw [from_bytes_loop, if_pos (by omega)]
  rcases read_bytes_ok_or_undefined big_endian 8 sp (toInt32 ((0 : Nat) : Int)) with ⟨v, hv⟩ | hv
  · rw [hv, bind_ok, from_bytes_loop, if_pos (by omega)]
    have h8 : toInt32 ((((0 + 8) % 2 ^ 64 : Nat)) : Int) = 8 := by decide
    rw [h8, read_bytes_offset_undefined big_endian sp 8 (by decide), bind_error]
  · rw [hv, bind_error]

theorem from_bytes_undefined (big_endian : Bool) (data : List Nat) {count : Nat}
    (hc : 16 ≤ count) : from_bytes big_endian 8 data count = .error .undefined := by
  unfold from_bytes
  obtain ⟨k, hk⟩ : ∃ k, count - count % 8 + 1 = k + 2 := ⟨count - count % 8 - 1, by omega⟩
  simp only [hk]
  exact from_bytes_loop_undefined big_endian _ (by omega) k

/-- On a little-endian host `from_bytes` reads one word back, the word at offset 0; bytes
after it that do not make up a whole word are ignored. -/
theorem from_bytes_one (v : Nat) (hv : v < 2 ^ 64) (rest : List Nat) {count : Nat}
    (h8 : 8 ≤ count) (h16 : count < 16) :
    from_bytes false 8 (write_bytes false 8 [] v ++ rest) count = .ok [v] := by
  unfold from_bytes
  have hc : count - count % 8 = 8 := by omega
  simp only [hc]
  have htake : (write_bytes false 8 [] v ++ rest).take 8 = write_bytes false 8 [] v := by
    rw [List.take_append_of_le_length (by rw [write_bytes_length]), List.take_of_length_le]
    rw [write_bytes_length]
  have hread := read_bytes_write_bytes_zero v hv []
  rw [List.append_nil] at hread
  have h0 : toInt32 ((0 : Nat) : Int) = 0 := by decide
  rw [htake, from_bytes_loop, if_pos (by decide), h0, hread, bind_ok, from_bytes_loop,
    if_neg (by decide)]
  rfl

theorem from_bytes_round (big_endian : Bool) (data : List Nat) (count : Nat) :
    from_bytes big_endian 8 data count = from_bytes big_endian 8 data (count - count % 8) := by
  unfold from_bytes
  have h : count - count % 8 - (count - count % 8) % 8 = count - count % 8 := by omega
  simp only [h]

/-- C32 (the code falls short). The bytes `to_bytes(v, n)` returns are `8n` in number, but
`from_bytes<uint64_t>` gives `v` back only for `n ≤ 1` (here on a little-endian host): for
`v = [1, 2]` the second word is read by `read_bytes` at offset 8, which shifts a 64-bit
value by 64 bits or more, and so it is for every array of two or more words and every byte
count of 16 or more. The rounding of the byte count down to a multiple of 8 is as
claimed. -/
theorem from_bytes_to_bytes :
    (∀ (big_endian : Bool) (v : List Nat),
      ∃ bs, to_bytes big_endian 8 v v.length = .ok bs ∧ bs.length = 8 * v.length) ∧
    (to_bytes false 8 [1, 2] 2 = .ok [1, 0, 0, 0, 0, 0, 0, 0, 2, 0, 0, 0, 0, 0, 0, 0] ∧
      from_bytes false 8 [1, 0, 0, 0, 0, 0, 0, 0, 2, 0, 0, 0, 0, 0, 0, 0] 16 =
        .error .undefined) ∧
    (∀ (big_endian : Bool) (v bs : List Nat), 2 ≤ v.length →
      to_bytes big_endian 8 v v.length = .ok bs →
      from_bytes big_endian 8 bs (8 * v.length) = .error .undefined) ∧
    (∀ (big_endian : Bool) (data : List Nat) (count : Nat), 16 ≤ count →
      from_bytes big_endian 8 data count = .error .undefined) ∧
    (∀ (v : Nat) (rest : List Nat) (count : Nat), v < 2 ^ 64 → 8 ≤ count → count < 16 →
      from_bytes false 8 (write_bytes false 8 [] v ++ rest) count = .ok [v]) ∧
    (∀ (big_endian : Bool) (data : List Nat) (count : Nat),
      from_bytes big_endian 8 data count =
        from_bytes big_endian 8 data (count - count % 8)) := by
  refine ⟨?_, by decide, ?_, fun b data count h => from_bytes_undefined b data h,
    fun v rest count hv h8 h16 => from_bytes_one v hv rest h8 h16, from_bytes_round⟩
  · intro b v
    exact ⟨_, to_bytes_take b 8 v v.length (Nat.le_refl _),
      to_bytes_length b v _ (to_bytes_take b 8 v v.length (Nat.le_refl _))⟩
  · intro b v bs h2 _
    exact from_bytes_undefined b bs (by omega)

theorem from_bytes_to_bytes_witness :
    from_bytes false 8 [7, 0, 0, 0, 0, 0, 0, 0, 9, 0, 0, 0, 0, 0, 0, 0] (8 * [7, 9].length) =
      .error .undefined ∧
    from_bytes false 8 (write_bytes false 8 [] 258 ++ [1, 2, 3]) 11 = .ok [258] :=
  ⟨from_bytes_to_bytes.2.2.1 false [7, 9] [7, 0, 0, 0, 0, 0, 0, 0, 9, 0, 0, 0, 0, 0, 0, 0]
      (by decide) (by decide),
    from_bytes_to_bytes.2.2.2.2.1 258 [1, 2, 3] 11 (by decide) (by decide) (by decide)⟩

namespace path_part_collection

/-! ## Parts are free of separators -/

theorem part_separator_free (r1 : List Char) :
    ∀ a ∈ r1.takeWhile (fun c => !is_path_separator c), is_path_separator a = false := by
  intro a ha
  have h := List.mem_takeWhile_imp ha
  simpa using h

/-- Each iteration of the loop of `enumerate_path` shortens the rest of the path. -/
theorem rest_length_lt {rest : List Char} (hr : rest ≠ []) :
    ((rest.dropWhile is_path_separator).dropWhile (fun c => !is_path_separator c)).length <
      rest.length := by
  cases rest with
  | nil => exact absurd rfl hr
  | cons a as =>
    by_cases ha : is_path_separator a = true
    · rw [List.dropWhile_cons_of_pos ha]
      have h1 := (List.dropWhile_sublist (fun c => !is_path_separator c)
        (l := as.dropWhile is_path_separator)).length_le
      have h2 := (List.dropWhile_sublist is_path_separator (l := as)).length_le
      simp only [List.length_cons]
      omega
    · rw [List.dropWhile_cons_of_neg ha, List.dropWhile_cons_of_pos (by simpa using ha)]
      have h1 := (List.dropWhile_sublist (fun c => !is_path_separator c) (l := as)).length_le
      simp only [List.length_cons]
      omega

/-- The loop of `enumerate_path` with the recording callback returns, and adds only parts
without a separator to the record. -/
theorem enumerate_loop_record :
    ∀ (fuel : Nat) (rest : List Char) (s : List (List Char)), rest.length < fuel →
      (∀ p ∈ s, ∀ a ∈ p, is_path_separator a = false) →
      ∃ r, enumerate_loop record fuel rest s = .ok r ∧
        ∀ p ∈ r, ∀ a ∈ p, is_path_separator a = false := by
  intro fuel
  induction fuel with
  | zero => intro rest s h; omega
  | succ fuel ih =>
    intro rest s hlen hs
    rw [enumerate_loop]
    by_cases hr : rest = []
    · rw [if_pos hr]
      exact ⟨s, rfl, hs⟩
    · rw [if_neg hr]
      dsimp only
      have hlt := rest_length_lt hr
      rw [call_part_eq]
      by_cases hc : (rest.dropWhile is_path_separator).takeWhile
          (fun c => !is_path_separator c) = CURR_DIR
      · rw [if_pos hc]
        exact ih _ s (by omega) hs
      · rw [if_neg hc]
        refine ih _ _ (by omega) ?_
        intro p hp
        rcases List.mem_append.1 hp with hp | hp
        · exact hs p hp
        · rw [List.mem_singleton.1 hp]
          exact part_separator_free _

/-- The run of the loop of `enumerate_path` depends on the callback only through what it
does on parts without a separator. -/
theorem enumerate_loop_congr {σ : Type} (f g : σ → List Char → Except Err σ)
    (hfg : ∀ (s : σ) (part : List Char), (∀ a ∈ part, is_path_separator a = false) →
      f s part = g s part) :
    ∀ (fuel : Nat) (rest : List Char) (s : σ),
      enumerate_loop f fuel rest s = enumerate_loop g fuel rest s := by
  intro fuel
  induction fuel with
  | zero => intro rest s; rfl
  | succ fuel ih =>
    intro rest s
    rw [enumerate_loop, enumerate_loop]
    by_cases hr : rest = []
    · rw [if_pos hr, if_pos hr]
    · rw [if_neg hr, if_neg hr]
      dsimp only
      rw [call_part_eq, call_part_eq, hfg s _ (part_separator_free _)]
      congr 1
      funext s2
      exact ih _ s2

theorem enumerate_path_congr {σ : Type} (f g : σ → List Char → Except Err σ)
    (hfg : ∀ (s : σ) (part : List Char), (∀ a ∈ part, is_path_separator a = false) →
      f s part = g s part) (path : List Char) (s : σ) :
    enumerate_path path f s = enumerate_path path g s := by
  unfold enumerate_path enumerate_rest
  rw [hfg s CURR_DIR (by decide)]
  congr 1
  funext s2
  exact enumerate_loop_congr f g hfg _ _ s2

theorem to_ids_congr (c1 c2 : path_part_collection)
    (h : ∀ part : List Char, (∀ a ∈ part, is_path_separator a = false) →
      c1.lookup part = c2.lookup part) (path : List Char) :
    c1.to_ids path = c2.to_ids path := by
  unfold to_ids
  apply enumerate_path_congr
  intro r part hp
  unfold to_ids_part
  rw [h part hp]

/-- Dropping the entries whose segment holds a separator leaves the lookup of every part
without a separator as it was. -/
theorem lookup_filter_separator_free (c : path_part_collection) (part : List Char)
    (hp : ∀ a ∈ part, is_path_separator a = false) :
    c.lookup part =
      lookup ⟨c.map.filter (fun e => !e.1.any is_path_separator)⟩ part := by
  unfold lookup
  congr 1
  show c.map.find? _ = (c.map.filter _).find? _
  have hany : part.any is_path_separator = false := by
    rw [List.any_eq_false]
    intro a ha
    simp [hp a ha]
  induction c.map with
  | nil => rfl
  | cons e es ih =>
    rw [List.filter_cons, List.find?_cons]
    by_cases he : e.1 = part
    · have hb : (e.1 == part) = true := by rw [he]; exact beq_self_eq_true _
      have hk : (!e.1.any is_path_separator) = true := by rw [he, hany]; rfl
      rw [if_pos hk, List.find?_cons, hb]
    · have hb : (e.1 == part) = false := by rw [beq_eq_false_iff_ne]; exact he
      rw [hb]
      by_cases hk : (!e.1.any is_path_separator) = true
      · rw [if_pos hk, List.find?_cons, hb]
        exact ih
      · rw [if_neg hk]
        exact ih

/-- C33. For every path, every part `enumerate_path` passes to its callback is free of the
separator characters `/`, `\` and `:`, and what `enumerate_path` does depends on the
callback only through its behaviour on such parts. So for every table the outcome of
`to_ids` on any path is that of every table with the same lookups on parts without a
separator, and that of the table without its entries whose segment holds a separator. -/
theorem enumerate_path_separator_free :
    (∀ path : List Char, ∃ parts, enumerate_path path record [] = .ok parts ∧
      ∀ p ∈ parts, ∀ a ∈ p, is_path_separator a = false) ∧
    (∀ (σ : Type) (f g : σ → List Char → Except Err σ) (path : List Char) (s : σ),
      (∀ (s : σ) (part : List Char), (∀ a ∈ part, is_path_separator a = false) →
        f s part = g s part) →
      enumerate_path path f s = enumerate_path path g s) ∧
    (∀ (c1 c2 : path_part_collection) (path : List Char),
      (∀ part : List Char, (∀ a ∈ part, is_path_separator a = false) →
        c1.lookup part = c2.lookup part) →
      c1.to_ids path = c2.to_ids path) ∧
    (∀ (c : path_part_collection) (path : List Char),
      c.to_ids path =
        to_ids ⟨c.map.filter (fun e => !e.1.any is_path_separator)⟩ path) := by
  refine ⟨?_, fun σ f g path s h => enumerate_path_congr f g h path s,
    fun c1 c2 path h => to_ids_congr c1 c2 h path,
    fun c path => to_ids_congr c _ (lookup_filter_separator_free c) path⟩
  intro path
  unfold enumerate_path enumerate_rest
  show ∃ parts, enumerate_loop record (path.length + 1) path ([] ++ [CURR_DIR]) = .ok parts ∧ _
  apply enumerate_loop_record _ _ _ (Nat.lt_succ_self _)
  intro p hp
  rw [List.nil_append, List.mem_singleton] at hp
  rw [hp]
  decide

theorem enumerate_path_separator_free_witness :
    (⟨[("a".toList, 1), ("a:b".toList, 2)]⟩ : path_part_collection).to_ids "a:b/".toList =
      (⟨[("a".toList, 1), ("x/y".toList, 5)]⟩ : path_part_collection).to_ids "a:b/".toList :=
  enumerate_path_separator_free.2.2.1 ⟨[("a".toList, 1), ("a:b".toList, 2)]⟩
    ⟨[("a".toList, 1), ("x/y".toList, 5)]⟩ "a:b/".toList
    (fun part hp => by
      have h1 : (['a', ':', 'b'] == part) = false := by
        rw [beq_eq_false_iff_ne]
        intro h
        rw [← h] at hp
        exact absurd (hp ':' (by decide)) (by decide)
      have h2 : (['x', '/', 'y'] == part) = false := by
        rw [beq_eq_false_iff_ne]
        intro h
        rw [← h] at hp
        exact absurd (hp '/' (by decide)) (by decide)
      show Option.map _ (List.find? _ [(['a'], 1), (['a', ':', 'b'], 2)]) =
        Option.map _ (List.find? _ [(['a'], 1), (['x', '/', 'y'], 5)])
      rw [List.find?_cons, List.find?_cons, List.find?_cons, List.find?_cons]
      cases hb : (['a'] == part)
      · simp only [h1, h2]
      · rfl)

end path_part_collection

namespace id_tree

/-! ## The layout written by `serialize` -/

theorem depth_mk (i d : Nat) (cs : List id_tree) : depth (mk i d cs) = 1 + depth_list cs := by
  rw [depth]

theorem depth_le_depth_list {cs : List id_tree} {c : id_tree} (h : c ∈ cs) :
    depth c ≤ depth_list cs := by
  induction cs with
  | nil => cases h
  | cons a as ih =>
    rw [depth_list]
    rcases List.mem_cons.1 h with h | h
    · rw [h]
      exact Nat.le_max_left _ _
    · exact Nat.le_trans (ih h) (Nat.le_max_right _ _)

/-- Below `2 ^ 31` children every `get_child(i)` of the loop of `serialize` succeeds, and the
loop hands the children from index `i` on to the recursive call, in their stored order. -/
theorem serialize_loop_eq (S : id_tree → List Nat → Except Err (List Nat)) (node : id_tree)
    (hn : node.children.length ≤ 2 ^ 31) :
    ∀ (n i : Nat) (output : List Nat), i + n = node.children.length →
      serialize_loop S node n i output =
        (node.children.drop i).foldlM (fun o c => S c o) output := by
  intro n
  induction n with
  | zero =>
    intro i output h
    rw [serialize_loop, List.drop_of_length_le (by omega)]
    rfl
  | succ n ih =>
    intro i output h
    have hi : i < node.children.length := by omega
    have hget : node.children[i]? = some node.children[i] := List.getElem?_eq_getElem hi
    rw [serialize_loop, toInt32_small (by omega), get_child_of_getElem hget, bind_ok,
      List.drop_eq_getElem_cons hi, List.foldlM_cons]
    congr 1
    funext o
    exact ih (i + 1) o (by omega)

theorem foldlM_append_ok (S : id_tree → List Nat → Except Err (List Nat))
    (f : id_tree → List Nat) :
    ∀ (cs : List id_tree) (output : List Nat), (∀ c ∈ cs, ∀ o, S c o = .ok (o ++ f c)) →
      cs.foldlM (fun o c => S c o) output = .ok (output ++ (cs.map f).flatten) := by
  intro cs
  induction cs with
  | nil =>
    intro output _
    simp [pure, Except.pure]
  | cons c cs ih =>
    intro output h
    rw [List.foldlM_cons, h c (List.mem_cons_self _ _), bind_ok,
      ih _ (fun c2 hc2 => h c2 (List.mem_cons_of_mem _ hc2))]
    simp [List.append_assoc]

/-- One call of `serialize` on a node with at most `2 ^ 31` children: the header words are
appended, then the recursive calls run on the children in their stored order. -/
theorem serialize_to_step (fuel : Nat) (node : id_tree) (output : List Nat)
    (hn : node.children.length ≤ 2 ^ 31) :
    serialize_to (fuel + 1) node output =
      node.children.foldlM (fun o c => serialize_to fuel c o)
        ((if node.data ≠ NULL_DATA then output ++ [node.id ||| SIGN_BIT] ++ [node.data]
          else output ++ [node.id]) ++ [node.children.length]) := by
  rw [serialize_to, serialize_loop_eq _ node hn _ 0 _ (by omega), List.drop_zero]

/-- On a tree whose nodes have at most `2 ^ 31` children each, a call of `serialize` with a
recursion budget of the depth of the tree or more returns, and appends the words of the
function `serialize`. -/
theorem serialize_to_eq (t : id_tree) :
    every_node (fun n => n.children.length ≤ 2 ^ 31) t →
      ∀ (fuel : Nat) (output : List Nat), depth t ≤ fuel →
        serialize_to fuel t output = .ok (output ++ serialize t) := by
  induction t using induct with
  | step t ih =>
    intro ht fuel output hfuel
    rw [every_node_iff] at ht
    cases t with
    | mk i d cs =>
      rw [depth_mk] at hfuel
      obtain ⟨f, rfl⟩ : ∃ f, fuel = f + 1 := ⟨fuel - 1, by omega⟩
      rw [serialize_to_step f _ _ ht.1]
      simp only [children_mk, id, data]
      rw [foldlM_append_ok (serialize_to f) serialize cs _
        (fun c hc o => ih c hc (ht.2 c hc) f o
          (Nat.le_trans (depth_le_depth_list hc) (by omega)))]
      rw [serialize, serialize_children_eq]
      by_cases hd : d ≠ NULL_DATA
      · rw [if_pos hd, if_pos hd]
        simp [List.append_assoc]
      · rw [if_neg hd, if_neg hd]
        simp [List.append_assoc]

/-- On a tree whose nodes have strictly ascending children, at most `k ≤ 2 ^ 31` each, as the
trees built by `push` are, a call of `serialize` with a recursion budget of the depth of the
tree returns and appends the words of the function `serialize`. -/
theorem serialize_to_sorted (t : id_tree) {k : Nat} (hk : k ≤ 2 ^ 31)
    (ht : every_node (node_sorted k) t) (output : List Nat) :
    serialize_to (depth t) t output = .ok (output ++ serialize t) :=
  serialize_to_eq t (every_node_mono (fun _ hn => Nat.le_trans hn.2 hk) t ht) (depth t) output
    (Nat.le_refl _)

/-- C16. For a node with id `i`, data `d` and children `c_1 .. c_n`, in a tree whose nodes
have at most `2 ^ 31` children each (the range of the `int32_t` index of `get_child`), a
call of `serialize` returns and appends `[i | SIGN_BIT, d, n]` when `d` is not `NULL_DATA`
and `[i, n]` when it is, in both cases followed by the words of `c_1 .. c_n` in their
stored order, which are the words the call of `serialize` on each child appends: the data
word is emitted exactly when the node carries data. The call is the header words followed
by the calls on the children, one after the other. -/
theorem serialize_layout (i d : Nat) (cs : List id_tree) (output : List Nat) (fuel : Nat)
    (hn : every_node (fun n => n.children.length ≤ 2 ^ 31) (mk i d cs))
    (hfuel : depth (mk i d cs) ≤ fuel) :
    (d ≠ NULL_DATA →
      serialize_to fuel (mk i d cs) output =
        .ok (output ++ [i ||| SIGN_BIT, d, cs.length] ++ (cs.map serialize).flatten)) ∧
    (d = NULL_DATA →
      serialize_to fuel (mk i d cs) output =
        .ok (output ++ [i, cs.length] ++ (cs.map serialize).flatten)) ∧
    (∀ c ∈ cs, ∀ out : List Nat, serialize_to (fuel - 1) c out = .ok (out ++ serialize c)) ∧
    serialize_to fuel (mk i d cs) output =
      cs.foldlM (fun o c => serialize_to (fuel - 1) c o)
        ((if d ≠ NULL_DATA then output ++ [i ||| SIGN_BIT] ++ [d] else output ++ [i]) ++
          [cs.length]) := by
  have h := serialize_to_eq (mk i d cs) hn fuel output hfuel
  rw [serialize, serialize_children_eq] at h
  refine ⟨?_, ?_, ?_, ?_⟩
  · intro hd
    rw [h, if_pos hd]
    simp [List.append_assoc]
  · intro hd
    rw [h, if_neg (fun h => h hd)]
    simp [List.append_assoc]
  · intro c hc out
    rw [every_node_iff] at hn
    rw [depth_mk] at hfuel
    exact serialize_to_eq c (hn.2 c hc) (fuel - 1) out
      (Nat.le_trans (depth_le_depth_list hc) (by omega))
  · rw [depth_mk] at hfuel
    obtain ⟨f, rfl⟩ : ∃ f, fuel = f + 1 := ⟨fuel - 1, by omega⟩
    rw [every_node_iff] at hn
    rw [serialize_to_step f _ _ hn.1]
    rfl

theorem serialize_layout_witness :
    serialize_to 2 (mk 4 9 [mk 1 NULL_DATA [], mk 2 7 []]) [100] =
      .ok ([100] ++ [4 ||| SIGN_BIT, 9, [mk 1 NULL_DATA [], mk 2 7 []].length] ++
        ([mk 1 NULL_DATA [], mk 2 7 []].map serialize).flatten) ∧
    serialize_to 2 (mk 4 9 [mk 1 NULL_DATA [], mk 2 7 []]) [100] =
      .ok [100, 4 ||| SIGN_BIT, 9, 2, 1, 0, 2 ||| SIGN_BIT, 7, 0] :=
  ⟨(serialize_layout 4 9 [mk 1 NULL_DATA [], mk 2 7 []] [100] 2
      (by simp only [every_node, every_node_list, children]; decide) (by decide)).1 (by decide),
    by decide⟩

end id_tree

namespace id_tree

/-! ## The allocation of the child vectors in `deserialize` -/

end id_tree

namespace id_tree

end id_tree

namespace id_tree

end id_tree

end lua_util
